import Mathlib

/-!
# CGIOperandList: operand list construction, name resolution and constraints

A shallow embedding of `llvm/utils/TableGen/Common/CodeGenInstruction.cpp`.

* Strings (`StringRef`, `std::string`) are lists of characters.
* `PrintFatalError` and a failed `assert` end the computation; every function that can
  reach one returns `Except Error _`.
* An index outside a vector and a null pointer are undefined in C++: the program does not
  test for them and a run may go on. The embedding has no value for such an access and
  marks it (`Error.outOfBounds`, `Error.nullDereference`); a mark is not a rejection by
  the program, and what holds after one is not stated.
* `size_t` arithmetic of the string scanners wraps at `2^64` (`StringRef::npos` is
  `2^64 - 1`); operand counts (`unsigned`) are natural numbers.
-/

set_option autoImplicit false

namespace llvm

/-! ## Strings -/

/-- A `StringRef` / `std::string`: a sequence of characters. -/
abbrev StringRef := List Char

/-- The constant `StringRef::npos`, i.e. `~size_t(0)`. -/
def npos : Nat := 2 ^ 64 - 1

/-- Wrapping `size_t` addition. -/
def sizeAdd (a b : Nat) : Nat := (a + b) % 2 ^ 64

/-- Wrapping `size_t` subtraction. -/
def sizeSub (a b : Nat) : Nat := (a + 2 ^ 64 - b % 2 ^ 64) % 2 ^ 64

namespace StringRef

/-- `StringRef::substr(Start, N)`: `Start` is clamped to the length, then at most `N`
characters are taken. -/
def substr (s : StringRef) (Start N : Nat) : StringRef :=
  (s.drop (min Start s.length)).take (min N (s.length - min Start s.length))

/-- First index `i ≥ min(From, size)` whose character satisfies `p`, or `npos`
(the common loop of `find`, `find_first_of` and `find_first_not_of`). -/
def findIf (s : StringRef) (p : Char → Bool) (From : Nat) : Nat :=
  let i := min From s.length
  let k := (s.drop i).findIdx p
  if i + k < s.length then i + k else npos

/-- `StringRef::find_first_of(Chars, From)`. -/
def find_first_of (s : StringRef) (Chars : List Char) (From : Nat) : Nat :=
  s.findIf (fun c => Chars.contains c) From

/-- `StringRef::find_first_not_of(Chars, From)`. -/
def find_first_not_of (s : StringRef) (Chars : List Char) (From : Nat) : Nat :=
  s.findIf (fun c => !Chars.contains c) From

/-- `StringRef::find_last_of(Chars, From)`: the last index `i < min(From, size)` whose
character is in `Chars`, or `npos`. -/
def find_last_of (s : StringRef) (Chars : List Char) (From : Nat) : Nat :=
  let i := min From s.length
  let k := ((s.take i).reverse).findIdx (fun c => Chars.contains c)
  if k < i then i - 1 - k else npos

/-- `StringRef::starts_with(Prefix)`. -/
def starts_with (s Pfx : StringRef) : Bool := Pfx.isPrefixOf s

end StringRef

/-! ## Failures -/

/-- The ways a computation stops: one constructor per `PrintFatalError` site, plus failed
assertions. `nullDereference` and `outOfBounds` mark accesses that are undefined in C++:
the program has no test there and does not stop by itself. `outOfFuel` is not an outcome
of the program: it marks the bound given to a `while` loop of this development, and the
loops are shown never to reach it. -/
inductive Error
  | invalidOutputList
  | invalidInputList
  | illegalOperand
  | badMIOperandInfo
  | unknownOperandClass
  | operandHasNoName
  | duplicateOperandName
  | subArgCount
  | subArgUnexpectedOperand
  | subArgHasNoName
  | subArgDuplicateName
  | noOperandNamed
  | illegalOperandName
  | emptySubOperandName
  | dottedWithinSubOperand
  | wholeComplexOperand
  | unknownSubOperandName
  | earlyClobberFormat
  | multipleConstraints
  | unrecognizedConstraint
  | tiedFormat
  | inputOperandsTied
  | outputOperandsTied
  | multipleOperandsTied
  | assertion
  | nullDereference
  | outOfBounds
  | outOfFuel
  deriving DecidableEq, Repr

/-! ## The definition store, as far as the operand list reads it -/

/-- A record named by an argument of an `MIOperandInfo` dag; only its optional
`EncoderMethod` field is read (`getValueAsOptionalString`). -/
structure SubOperandRecord where
  EncoderMethod : Option StringRef
  deriving DecidableEq, Repr

/-- The `MIOperandInfo` dag of an operand class. `Operator` is the name of the operator's
def when the operator is a `DefInit`; an argument is `some r` when it is a `DefInit`. -/
structure MIOperandInfoDag where
  Operator : Option StringRef
  Args : List (Option SubOperandRecord × StringRef)
  deriving DecidableEq, Repr

/-- An operand class record: its name, its superclasses and the fields the constructor
reads from it. -/
structure Record where
  Name : StringRef
  SuperClasses : List StringRef
  PrintMethod : StringRef
  OperandType : StringRef
  OperandNamespace : StringRef
  EncoderMethod : StringRef
  MIOperandInfo : MIOperandInfoDag
  deriving DecidableEq, Repr

/-- `Record::isSubClassOf`. -/
def Record.isSubClassOf (r : Record) (cls : StringRef) : Bool := r.SuperClasses.contains cls

/-- An argument of a sub-arg dag: `isa<UnsetInit>` or anything else. -/
inductive SubArgInit
  | unset
  | other
  deriving DecidableEq, Repr

/-- A nested dag `(Class $a, $b)` used as an argument of `outs` / `ins`. `Operator` is the
operator's record when the operator is a `DefInit`. -/
structure SubArgDagInit where
  Operator : Option Record
  Args : List (SubArgInit × StringRef)
  deriving DecidableEq, Repr

/-- An argument of the `outs` / `ins` dag. -/
inductive Init
  | defInit (r : Record)
  | dagInit (d : SubArgDagInit)
  | other
  deriving DecidableEq, Repr

/-- The `OutOperandList` / `InOperandList` dag. `Operator` is the name of the operator's
def when the operator is a `DefInit`. -/
structure DagInit where
  Operator : Option StringRef
  Args : List (Init × StringRef)
  deriving DecidableEq, Repr

/-- The instruction record `R`. -/
structure InstrRecord where
  OutOperandList : DagInit
  InOperandList : DagInit
  deriving DecidableEq, Repr

/-! ## The operand list -/

/-- Modelled from the spec: `CGIOperandList::ConstraintInfo` (declared in
`CodeGenInstruction.h`), "each one of {None, EarlyClobber, TiedTo(flattenedIndex)}". -/
inductive ConstraintInfo
  | None
  | EarlyClobber
  | Tied (OtherTiedOperand : Nat)
  deriving DecidableEq, Repr

/-- `ConstraintInfo::isNone`. -/
def ConstraintInfo.isNone : ConstraintInfo → Bool
  | .None => true
  | _ => false

/-- Modelled from the spec: `CGIOperandList::OperandInfo` (declared in
`CodeGenInstruction.h`), the Operand Descriptor of the data model. -/
structure OperandInfo where
  Rec : Record
  Name : StringRef
  SubOpNames : List StringRef
  PrinterMethodName : StringRef
  EncoderMethodNames : List (Nat × StringRef)
  OperandType : StringRef
  MIOperandNo : Nat
  MINumOperands : Nat
  DoNotEncode : List Bool
  MIOperandInfo : Option MIOperandInfoDag
  Constraints : List ConstraintInfo
  deriving DecidableEq, Repr

/-- Modelled from the spec: the `OperandInfo` constructor; sub-operand names, encode
exclusion bits and constraints have one entry per sub-operand slot, initially the empty
name, `false` and `None`. -/
def OperandInfo.create (R : Record) (Name PrinterMethodName OT : StringRef) (MION MINO : Nat)
    (MIOI : Option MIOperandInfoDag) : OperandInfo :=
  { Rec := R, Name := Name, SubOpNames := List.replicate MINO [],
    PrinterMethodName := PrinterMethodName, EncoderMethodNames := [],
    OperandType := OT, MIOperandNo := MION, MINumOperands := MINO,
    DoNotEncode := List.replicate MINO false, MIOperandInfo := MIOI,
    Constraints := List.replicate MINO ConstraintInfo.None }

/-- A string-keyed map with `operator[]` assignment: an existing key is overwritten, a new
key is added. -/
def mapAssign {β : Type} (m : List (StringRef × β)) (k : StringRef) (v : β) :
    List (StringRef × β) :=
  match m with
  | [] => [(k, v)]
  | (k', v') :: rest => if k' = k then (k, v) :: rest else (k', v') :: mapAssign rest k v

/-- `std::map<unsigned, std::string>::operator[]` assignment. -/
def natMapAssign (m : List (Nat × StringRef)) (k : Nat) (v : StringRef) :
    List (Nat × StringRef) :=
  match m with
  | [] => [(k, v)]
  | (k', v') :: rest => if k' = k then (k, v) :: rest else (k', v') :: natMapAssign rest k v

/-- The class `CGIOperandList`. -/
structure CGIOperandList where
  NumDefs : Nat
  OperandList : List OperandInfo
  SubOpAliases : List (StringRef × (Nat × Nat))
  isPredicable : Bool
  hasOptionalDef : Bool
  isVariadic : Bool
  deriving DecidableEq, Repr

/-- The local variables of the constructor that live across loop iterations, together
with the members under construction. -/
structure BuildState where
  MIOperandNo : Nat
  OperandNames : List StringRef
  OperandList : List OperandInfo
  SubOpAliases : List (StringRef × (Nat × Nat))
  VariadicOuts : Bool
  isPredicable : Bool
  hasOptionalDef : Bool
  isVariadic : Bool
  deriving DecidableEq, Repr

/-- The state of the sub-arg loop (lines 154-181): the operand being filled in, the set of
names and the alias table. -/
structure SubArgState where
  OpInfo : OperandInfo
  OperandNames : List StringRef
  SubOpAliases : List (StringRef × (Nat × Nat))
  deriving DecidableEq, Repr

/-- The loop `for (unsigned j = 0; j < NumOps; ++j)` over the arguments of the sub-arg dag
(its arity equals `NumOps`), from sub-arg number `j` on. -/
def subArgLoop (i : Nat) (MIOpInfo : Option MIOperandInfoDag) :
    List (SubArgInit × StringRef) → Nat → SubArgState → Except Error SubArgState
  | [], _, s => .ok s
  | (SubArg, SubArgName) :: rest, j, s =>
    if SubArg ≠ SubArgInit.unset then .error Error.subArgUnexpectedOperand
    else if SubArgName.isEmpty then .error Error.subArgHasNoName
    else if s.OperandNames.contains SubArgName then .error Error.subArgDuplicateName
    else
      match MIOpInfo with
      | none => .error Error.nullDereference
      | some Info =>
        match Info.Args.get? j with
        | none => .error Error.outOfBounds
        | some (none, _) => .error Error.assertion
        | some (some SubRec, _) =>
          let OpInfo1 : OperandInfo :=
            match SubRec.EncoderMethod with
            | some M =>
              { s.OpInfo with
                EncoderMethodNames := natMapAssign s.OpInfo.EncoderMethodNames j M }
            | none => s.OpInfo
          let OpInfo2 : OperandInfo :=
            { OpInfo1 with SubOpNames := OpInfo1.SubOpNames.set j SubArgName }
          subArgLoop i MIOpInfo rest (j + 1)
            { OpInfo := OpInfo2,
              OperandNames := s.OperandNames ++ [SubArgName],
              SubOpAliases := mapAssign s.SubOpAliases SubArgName (i, j) }

/-- Lines 130-190 of the constructor: the name checks, `emplace_back`, the sub-arg dag or
the top-level encoder method, and the advance of `MIOperandNo`. -/
def addOperand (i : Nat) (SubArgDag : Option SubArgDagInit) (Rec : Record)
    (ArgName PrintMethod EncoderMethod OperandType OperandNamespace : StringRef)
    (NumOps : Nat) (MIOpInfo : Option MIOperandInfoDag) (st : BuildState) :
    Except Error BuildState :=
  if ArgName.isEmpty then .error Error.operandHasNoName
  else if st.OperandNames.contains ArgName then .error Error.duplicateOperandName
  else
    let OpInfo := OperandInfo.create Rec ArgName PrintMethod
      (OperandNamespace ++ "::".toList ++ OperandType) st.MIOperandNo NumOps MIOpInfo
    match SubArgDag with
    | some D =>
      if D.Args.length ≠ NumOps then .error Error.subArgCount
      else
        match subArgLoop i MIOpInfo D.Args 0
            { OpInfo := OpInfo, OperandNames := st.OperandNames ++ [ArgName],
              SubOpAliases := st.SubOpAliases } with
        | .error e => .error e
        | .ok s =>
          .ok { st with
                MIOperandNo := st.MIOperandNo + NumOps,
                OperandNames := s.OperandNames,
                OperandList := st.OperandList ++ [s.OpInfo],
                SubOpAliases := s.SubOpAliases }
    | none =>
      let OpInfo1 : OperandInfo :=
        if !EncoderMethod.isEmpty then
          { OpInfo with
            EncoderMethodNames := natMapAssign OpInfo.EncoderMethodNames 0 EncoderMethod,
            DoNotEncode := (OpInfo.DoNotEncode.map (fun _ => true)).set 0 false }
        else OpInfo
      .ok { st with
            MIOperandNo := st.MIOperandNo + NumOps,
            OperandNames := st.OperandNames ++ [ArgName],
            OperandList := st.OperandList ++ [OpInfo1] }

/-- The record an argument names: the def itself, or the operator of a nested dag
(lines 71-75); `none` when that is not a `DefInit`. -/
def Init.argRecord : Init → Option Record
  | .defInit r => some r
  | .dagInit d => d.Operator
  | .other => none

/-- The nested dag of an argument, `dyn_cast<DagInit>(ArgInit)`. -/
def Init.subArgDag : Init → Option SubArgDagInit
  | .dagInit d => some d
  | _ => none

/-- One iteration of the loop over the arguments (lines 61-190), for argument number `i`. -/
def processArg (NumDefs i : Nat) (ArgInit : Init) (ArgName : StringRef) (st : BuildState) :
    Except Error BuildState :=
  match ArgInit.argRecord with
  | none => .error Error.illegalOperand
  | some Rec =>
    if Rec.isSubClassOf "RegisterOperand".toList then
      addOperand i ArgInit.subArgDag Rec ArgName Rec.PrintMethod Rec.EncoderMethod
        Rec.OperandType Rec.OperandNamespace 1 none st
    else if Rec.isSubClassOf "Operand".toList then
      if Rec.MIOperandInfo.Operator ≠ some "ops".toList then .error Error.badMIOperandInfo
      else
        let NumOps := if Rec.MIOperandInfo.Args.length ≠ 0 then Rec.MIOperandInfo.Args.length
          else 1
        let st1 : BuildState :=
          if Rec.isSubClassOf "PredicateOp".toList then { st with isPredicable := true }
          else if Rec.isSubClassOf "OptionalDefOperand".toList then
            { st with hasOptionalDef := true }
          else st
        addOperand i ArgInit.subArgDag Rec ArgName Rec.PrintMethod Rec.EncoderMethod
          Rec.OperandType Rec.OperandNamespace NumOps (some Rec.MIOperandInfo) st1
    else if Rec.Name = "variable_ops".toList then
      .ok { st with
            VariadicOuts := if i < NumDefs then true else st.VariadicOuts,
            isVariadic := true }
    else if Rec.isSubClassOf "RegisterClass".toList then
      addOperand i ArgInit.subArgDag Rec ArgName "printOperand".toList []
        "OPERAND_REGISTER".toList "MCOI".toList 1 none st
    else if !Rec.isSubClassOf "PointerLikeRegClass".toList &&
        !Rec.isSubClassOf "unknown_class".toList then
      .error Error.unknownOperandClass
    else
      addOperand i ArgInit.subArgDag Rec ArgName "printOperand".toList []
        "OPERAND_UNKNOWN".toList "MCOI".toList 1 none st

/-- The loop `for (unsigned i = 0; i != e; ++i)`: argument `i` is `OutDI->getArg(i)` for
`i < NumDefs` and `InDI->getArg(i - NumDefs)` after that, so the loop walks the arguments
of `outs` followed by those of `ins`; here from argument number `i` on. -/
def argLoop (NumDefs : Nat) : List (Init × StringRef) → Nat → BuildState →
    Except Error BuildState
  | [], _, st => .ok st
  | (ArgInit, ArgName) :: rest, i, st =>
    match processArg NumDefs i ArgInit ArgName st with
    | .error e => .error e
    | .ok st1 => argLoop NumDefs rest (i + 1) st1

/-- The state at loop entry. -/
def BuildState.init : BuildState :=
  { MIOperandNo := 0, OperandNames := [], OperandList := [], SubOpAliases := [],
    VariadicOuts := false, isPredicable := false, hasOptionalDef := false,
    isVariadic := false }

/-- The constructor `CGIOperandList::CGIOperandList(const Record *R)`. -/
def CGIOperandList.construct (R : InstrRecord) : Except Error CGIOperandList :=
  let OutDI := R.OutOperandList
  match OutDI.Operator with
  | none => .error Error.invalidOutputList
  | some OutName =>
    if OutName ≠ "outs".toList then .error Error.invalidOutputList
    else
      let NumDefs := OutDI.Args.length
      let InDI := R.InOperandList
      match InDI.Operator with
      | none => .error Error.invalidInputList
      | some InName =>
        if InName ≠ "ins".toList then .error Error.invalidInputList
        else
          match argLoop NumDefs (OutDI.Args ++ InDI.Args) 0 BuildState.init with
          | .error e => .error e
          | .ok st =>
            .ok { NumDefs := if st.VariadicOuts then NumDefs - 1 else NumDefs,
                  OperandList := st.OperandList,
                  SubOpAliases := st.SubOpAliases,
                  isPredicable := st.isPredicable,
                  hasOptionalDef := st.hasOptionalDef,
                  isVariadic := st.isVariadic }

/-! ## Name resolution -/

/-- `CGIOperandList::findOperandNamed`: the index of the first operand with the given
(non-empty, asserted) name. -/
def CGIOperandList.findOperandNamed (L : CGIOperandList) (Name : StringRef) :
    Except Error (Option Nat) :=
  if Name.isEmpty then .error Error.assertion
  else
    let Index := L.OperandList.findIdx (fun Opnd => Opnd.Name = Name)
    if Index < L.OperandList.length then .ok (some Index) else .ok none

/-- `CGIOperandList::getOperandNamed`: as `findOperandNamed`, fatal when there is none. -/
def CGIOperandList.getOperandNamed (L : CGIOperandList) (Name : StringRef) :
    Except Error Nat :=
  match L.findOperandNamed Name with
  | .error e => .error e
  | .ok (some OpIdx) => .ok OpIdx
  | .ok none => .error Error.noOperandNamed

/-- `CGIOperandList::findSubOperandAlias`: lookup in the alias table (name asserted
non-empty). -/
def CGIOperandList.findSubOperandAlias (L : CGIOperandList) (Name : StringRef) :
    Except Error (Option (Nat × Nat)) :=
  if Name.isEmpty then .error Error.assertion
  else .ok (L.SubOpAliases.lookup Name)

/-- `CGIOperandList::ParseOperandName(Op, AllowWholeOp)`. -/
def CGIOperandList.ParseOperandName (L : CGIOperandList) (Op : StringRef)
    (AllowWholeOp : Bool) : Except Error (Nat × Nat) :=
  if !Op.starts_with "$".toList then .error Error.illegalOperandName
  else
    let OpName0 := Op.substr 1 npos
    let DotIdx := OpName0.find_first_of ['.'] 0
    if DotIdx ≠ npos ∧ (OpName0.substr (sizeAdd DotIdx 1) npos).isEmpty then
      .error Error.emptySubOperandName
    else
      let SubOpName : StringRef :=
        if DotIdx ≠ npos then OpName0.substr (sizeAdd DotIdx 1) npos else []
      let OpName : StringRef := if DotIdx ≠ npos then OpName0.substr 0 DotIdx else OpName0
      match L.findSubOperandAlias OpName with
      | .error e => .error e
      | .ok (some SubOp) =>
        if !SubOpName.isEmpty then .error Error.dottedWithinSubOperand else .ok SubOp
      | .ok none =>
        match L.getOperandNamed OpName with
        | .error e => .error e
        | .ok OpIdx =>
          match L.OperandList.get? OpIdx with
          | none => .error Error.outOfBounds
          | some Opnd =>
            if SubOpName.isEmpty then
              if decide (Opnd.MINumOperands > 1) && !AllowWholeOp && SubOpName.isEmpty then
                .error Error.wholeComplexOperand
              else .ok (OpIdx, 0)
            else
              match Opnd.MIOperandInfo with
              | none => .error Error.unknownSubOperandName
              | some MIOpInfo =>
                let i := MIOpInfo.Args.findIdx (fun A => A.2 = SubOpName)
                if i < MIOpInfo.Args.length then .ok (OpIdx, i)
                else .error Error.unknownSubOperandName

/-! ## Constraints -/

/-- Modelled from the spec: `CGIOperandList::getFlattenedOperandNumber` (declared in
`CodeGenInstruction.h`): the flattened index of a slot is its operand's
`flattenedIndexBase` plus the sub-operand index. -/
def CGIOperandList.getFlattenedOperandNumber (L : CGIOperandList) (Op : Nat × Nat) :
    Except Error Nat :=
  match L.OperandList.get? Op.1 with
  | none => .error Error.outOfBounds
  | some Opnd => .ok (Opnd.MIOperandNo + Op.2)

/-- The read `Ops[Op.first].Constraints[Op.second]`. Both `operator[]` are unchecked: for
a pair that names a slot this is the constraint of the slot; for any other pair the read
is outside a vector, which C++ leaves undefined (a run reads what lies behind the vector
and goes on). Such a read has no value here and is marked `Error.outOfBounds`. -/
def CGIOperandList.getConstraint (L : CGIOperandList) (Op : Nat × Nat) :
    Except Error ConstraintInfo :=
  match L.OperandList.get? Op.1 with
  | none => .error Error.outOfBounds
  | some Opnd =>
    match Opnd.Constraints.get? Op.2 with
    | none => .error Error.outOfBounds
    | some C => .ok C

/-- The write `Ops[Op.first].Constraints[Op.second] = C`. Both `operator[]` are unchecked:
for a pair that names a slot the constraint of the slot is replaced; for any other pair
the write is outside a vector, which C++ leaves undefined (a run overwrites what lies
behind the vector and goes on). Such a write has no result here and is marked
`Error.outOfBounds`. -/
def CGIOperandList.setConstraint (L : CGIOperandList) (Op : Nat × Nat) (C : ConstraintInfo) :
    Except Error CGIOperandList :=
  match L.OperandList.get? Op.1 with
  | none => .error Error.outOfBounds
  | some Opnd =>
    if Op.2 < Opnd.Constraints.length then
      .ok { L with
            OperandList :=
              L.OperandList.set Op.1 { Opnd with Constraints := Opnd.Constraints.set Op.2 C } }
    else .error Error.outOfBounds

/-- The inner loop `for (unsigned i = 0; i < Op.MINumOperands; i++)` of the scan for an
earlier tie to the same destination, over the slot numbers still to visit. -/
def checkSlots (Op : OperandInfo) (NewConstraint : ConstraintInfo) :
    List Nat → Except Error Unit
  | [] => .ok ()
  | i :: rest =>
    match Op.Constraints.get? i with
    | none => .error Error.outOfBounds
    | some C =>
      if C = NewConstraint then .error Error.multipleOperandsTied
      else checkSlots Op NewConstraint rest

/-- The outer loop `for (const OperandInfo &Op : Ops)` of that scan. -/
def checkOperands (NewConstraint : ConstraintInfo) : List OperandInfo → Except Error Unit
  | [] => .ok ()
  | Op :: rest =>
    match checkSlots Op NewConstraint (List.range Op.MINumOperands) with
    | .error e => .error e
    | .ok _ => checkOperands NewConstraint rest

/-- The comparison `operator<` of `std::pair<unsigned, unsigned>`. -/
def pairLt (a b : Nat × Nat) : Bool :=
  decide (a.1 < b.1) || (decide (a.1 = b.1) && decide (a.2 < b.2))

/-- Lines 348-388 of `ParseConstraint`: the tie of the two resolved operands. -/
def tieOperands (LHSOp RHSOp : Nat × Nat) (Ops : CGIOperandList) :
    Except Error CGIOperandList :=
  let FirstIsDest := pairLt LHSOp RHSOp
  let DestOp := if FirstIsDest then LHSOp else RHSOp
  let SrcOp := if FirstIsDest then RHSOp else LHSOp
  if DestOp.1 ≥ Ops.NumDefs then .error Error.inputOperandsTied
  else if SrcOp.1 < Ops.NumDefs then .error Error.outputOperandsTied
  else
    match Ops.getConstraint SrcOp with
    | .error e => .error e
    | .ok C =>
      if !C.isNone then .error Error.multipleConstraints
      else
        match Ops.getFlattenedOperandNumber DestOp with
        | .error e => .error e
        | .ok DestFlatOpNo =>
          let NewConstraint := ConstraintInfo.Tied DestFlatOpNo
          match checkOperands NewConstraint Ops.OperandList with
          | .error e => .error e
          | .ok _ => Ops.setConstraint SrcOp NewConstraint

/-- The characters `" \t"`. -/
def blanks : List Char := [' ', '\t']

/-- The function `ParseConstraint(CStr, Ops, Rec)`. -/
def ParseConstraint (CStr : StringRef) (Ops : CGIOperandList) : Except Error CGIOperandList :=
  let wpos := CStr.find_first_of blanks 0
  let start := CStr.find_first_not_of blanks 0
  let Tok := CStr.substr start (sizeSub wpos start)
  if Tok = "@earlyclobber".toList then
    let Name := CStr.substr (sizeAdd wpos 1) npos
    let wpos1 := Name.find_first_not_of blanks 0
    if wpos1 = npos then .error Error.earlyClobberFormat
    else
      let Name1 := Name.substr wpos1 npos
      match Ops.ParseOperandName Name1 false with
      | .error e => .error e
      | .ok Op =>
        match Ops.getConstraint Op with
        | .error e => .error e
        | .ok C =>
          if !C.isNone then .error Error.multipleConstraints
          else Ops.setConstraint Op ConstraintInfo.EarlyClobber
  else
    let pos := CStr.find_first_of ['='] 0
    if pos = npos ∨ pos = 0 ∨ CStr.find_first_of blanks pos ≠ sizeAdd pos 1 ∨
        CStr.find_last_of blanks pos ≠ sizeSub pos 1 then
      .error Error.unrecognizedConstraint
    else
      let start1 := CStr.find_first_not_of blanks 0
      let wpos1 := CStr.find_first_of blanks start1
      if wpos1 = npos ∨ wpos1 > pos then .error Error.tiedFormat
      else
        let LHSOpName := CStr.substr start1 (sizeSub wpos1 start1)
        match Ops.ParseOperandName LHSOpName false with
        | .error e => .error e
        | .ok LHSOp =>
          let wpos2 := CStr.find_first_not_of blanks (sizeAdd pos 1)
          if wpos2 = npos then .error Error.tiedFormat
          else
            let RHSOpName := CStr.substr wpos2 npos
            match Ops.ParseOperandName RHSOpName false with
            | .error e => .error e
            | .ok RHSOp => tieOperands LHSOp RHSOp Ops

/-! ## Notions used to state the properties of the constructor -/

/-- Whether an argument takes the `variable_ops` branch of the classification chain
(line 116): its record is named `variable_ops` and is neither a `RegisterOperand` nor an
`Operand` (the record `variable_ops` of the definition store has no superclass). -/
def Init.isVariableOps (a : Init) : Bool :=
  match a.argRecord with
  | none => false
  | some Rec =>
    !Rec.isSubClassOf "RegisterOperand".toList && !Rec.isSubClassOf "Operand".toList &&
      decide (Rec.Name = "variable_ops".toList)

/-- The argument names of a nested dag, none when the argument is not a nested dag. -/
def subArgDagNames : Option SubArgDagInit → List StringRef
  | some d => d.Args.map (fun A => A.2)
  | none => []

/-- The sub-arg names an argument declares: the argument names of its nested dag. -/
def Init.subArgNames (a : Init) : List StringRef := subArgDagNames a.subArgDag

/-- The names of the arguments that are not the `variable_ops` marker, in declaration
order: the names of the operands an argument list declares. -/
def operandArgNames : List (Init × StringRef) → List StringRef
  | [] => []
  | a :: rest =>
    if a.1.isVariableOps then operandArgNames rest else a.2 :: operandArgNames rest

/-- Every name an argument list declares: for each argument that is not the marker, its
name followed by its sub-arg names. -/
def declaredNames : List (Init × StringRef) → List StringRef
  | [] => []
  | a :: rest =>
    if a.1.isVariableOps then declaredNames rest
    else (a.2 :: a.1.subArgNames) ++ declaredNames rest

/-- The number of flattened slots of an operand list. -/
def totalSlots (l : List OperandInfo) : Nat := (l.map (fun Op => Op.MINumOperands)).sum

/-- The facts about a loop iteration that creates an operand. -/
structure AddsOperand (n : StringRef) (subNames : List StringRef) (st st' : BuildState) :
    Prop where
  op : ∃ op : OperandInfo, st'.OperandList = st.OperandList ++ [op] ∧ op.Name = n ∧
    op.MIOperandNo = st.MIOperandNo ∧ 1 ≤ op.MINumOperands ∧
    st'.MIOperandNo = st.MIOperandNo + op.MINumOperands
  variadic : st'.VariadicOuts = st.VariadicOuts
  names : st'.OperandNames = st.OperandNames ++ n :: subNames
  nonempty : n ≠ [] ∧ ∀ m ∈ subNames, m ≠ []
  nodup : st.OperandNames.Nodup → st'.OperandNames.Nodup

/-- The operand bases tile the flattened range from `b` on: each operand starts where the
previous one ends and occupies at least one slot. -/
def Tiled : Nat → List OperandInfo → Prop
  | _, [] => True
  | b, Op :: rest => Op.MIOperandNo = b ∧ 1 ≤ Op.MINumOperands ∧ Tiled (b + Op.MINumOperands) rest

/-! ## Example records -/

namespace Example

/-- A register class `GPR`. -/
def GPR : Record :=
  { Name := "GPR".toList, SuperClasses := ["RegisterClass".toList], PrintMethod := [],
    OperandType := [], OperandNamespace := [], EncoderMethod := [],
    MIOperandInfo := { Operator := none, Args := [] } }

/-- The marker `def variable_ops;`. -/
def variable_ops : Record :=
  { Name := "variable_ops".toList, SuperClasses := [], PrintMethod := [],
    OperandType := [], OperandNamespace := [], EncoderMethod := [],
    MIOperandInfo := { Operator := none, Args := [] } }

/-- A memory operand class `def mem : Operand<iPTR>` with
`MIOperandInfo = (ops GPR:$base, i32imm:$off)`. -/
def mem : Record :=
  { Name := "mem".toList, SuperClasses := ["Operand".toList],
    PrintMethod := "printMem".toList, OperandType := "OPERAND_MEMORY".toList,
    OperandNamespace := "MCOI".toList, EncoderMethod := [],
    MIOperandInfo :=
      { Operator := some "ops".toList,
        Args := [(some { EncoderMethod := none }, "base".toList),
                 (some { EncoderMethod := none }, "off".toList)] } }

/-- The instruction `(outs GPR:$d)`, `(ins GPR:$a, (mem $b, $o):$addr)`. -/
def load : InstrRecord :=
  { OutOperandList := { Operator := some "outs".toList, Args := [(Init.defInit GPR, "d".toList)] },
    InOperandList :=
      { Operator := some "ins".toList,
        Args := [(Init.defInit GPR, "a".toList),
                 (Init.dagInit { Operator := some mem,
                                 Args := [(SubArgInit.unset, "b".toList),
                                          (SubArgInit.unset, "o".toList)] },
                  "addr".toList)] } }

/-- The instruction `(outs GPR:$d, variable_ops)`, `(ins GPR:$a)`. -/
def unmerge : InstrRecord :=
  { OutOperandList :=
      { Operator := some "outs".toList,
        Args := [(Init.defInit GPR, "d".toList), (Init.defInit variable_ops, [])] },
    InOperandList :=
      { Operator := some "ins".toList, Args := [(Init.defInit GPR, "a".toList)] } }

/-- The instruction `(outs variable_ops, variable_ops)`, `(ins GPR:$a)`. -/
def twoMarkers : InstrRecord :=
  { OutOperandList :=
      { Operator := some "outs".toList,
        Args := [(Init.defInit variable_ops, []), (Init.defInit variable_ops, [])] },
    InOperandList :=
      { Operator := some "ins".toList, Args := [(Init.defInit GPR, "a".toList)] } }

/-- The instruction `(outs variable_ops)`, `(ins (mem $b, $o):$addr, GPR:$x)`. -/
def variadicStore : InstrRecord :=
  { OutOperandList :=
      { Operator := some "outs".toList, Args := [(Init.defInit variable_ops, [])] },
    InOperandList :=
      { Operator := some "ins".toList,
        Args := [(Init.dagInit { Operator := some mem,
                                 Args := [(SubArgInit.unset, "b".toList),
                                          (SubArgInit.unset, "o".toList)] },
                  "addr".toList),
                 (Init.defInit GPR, "x".toList)] } }

end Example

/-- Outcomes can be compared. -/
instance decEqExcept {ε α : Type} [DecidableEq ε] [DecidableEq α] : DecidableEq (Except ε α)
  | .ok a, .ok b =>
    if h : a = b then isTrue (by rw [h]) else isFalse (fun hc => h (Except.ok.inj hc))
  | .error a, .error b =>
    if h : a = b then isTrue (by rw [h]) else isFalse (fun hc => h (Except.error.inj hc))
  | .ok _, .error _ => isFalse (fun hc => Except.noConfusion hc)
  | .error _, .ok _ => isFalse (fun hc => Except.noConfusion hc)

/-- The operand list built from `R`; the empty list when construction fails. -/
def builtList (R : InstrRecord) : CGIOperandList :=
  match CGIOperandList.construct R with
  | .ok L => L
  | .error _ =>
    { NumDefs := 0, OperandList := [], SubOpAliases := [], isPredicable := false,
      hasOptionalDef := false, isVariadic := false }

/-- The tie clause `$l = $r`. -/
def tieClause (l r : StringRef) : StringRef := '$' :: (l ++ ' ' :: '=' :: ' ' :: '$' :: r)

/-- A name without blank and without `=`, as the lexer of the description produces them. -/
def plainName (l : StringRef) : Prop := ∀ c ∈ l, c ≠ ' ' ∧ c ≠ '\t' ∧ c ≠ '='

/-- The destination of a tie: the smaller of the two resolved pairs. -/
def tieDest (LHSOp RHSOp : Nat × Nat) : Nat × Nat := if pairLt LHSOp RHSOp then LHSOp else RHSOp

/-- The source of a tie: the larger of the two resolved pairs. -/
def tieSrc (LHSOp RHSOp : Nat × Nat) : Nat × Nat := if pairLt LHSOp RHSOp then RHSOp else LHSOp

/-- A string made of spaces and tabs only. -/
def allBlank (w : StringRef) : Prop := ∀ c ∈ w, c = ' ' ∨ c = '\t'

/-- A tie clause with free spacing: leading blanks `w1`, then `$l`, the blanks `wsA`, the
`=`, the blanks `wsB` and `$r`. -/
def tieClauseWith (w1 l wsA wsB r : StringRef) : StringRef :=
  w1 ++ '$' :: (l ++ (wsA ++ '=' :: (wsB ++ '$' :: r)))

/-- The tie of a destination and a source that are already ordered: what `tieOperands`
does once `DestOp` and `SrcOp` are chosen (lines 356-387). -/
def tieOrdered (DestOp SrcOp : Nat × Nat) (Ops : CGIOperandList) : Except Error CGIOperandList :=
  if DestOp.1 ≥ Ops.NumDefs then .error Error.inputOperandsTied
  else if SrcOp.1 < Ops.NumDefs then .error Error.outputOperandsTied
  else
    match Ops.getConstraint SrcOp with
    | .error e => .error e
    | .ok C =>
      if !C.isNone then .error Error.multipleConstraints
      else
        match Ops.getFlattenedOperandNumber DestOp with
        | .error e => .error e
        | .ok DestFlatOpNo =>
          match checkOperands (ConstraintInfo.Tied DestFlatOpNo) Ops.OperandList with
          | .error e => .error e
          | .ok _ => Ops.setConstraint SrcOp (ConstraintInfo.Tied DestFlatOpNo)

/-- The operand list after parsing the clause `CStr`; unchanged when the clause is
rejected. -/
def constrained (CStr : StringRef) (Ops : CGIOperandList) : CGIOperandList :=
  match ParseConstraint CStr Ops with
  | .ok L => L
  | .error _ => Ops

/-- Two operand lists that differ in constraints only: same split point, same alias
table, and operand by operand the same name, slot count and operand info. -/
structure SameOperands (L L' : CGIOperandList) : Prop where
  numDefs : L'.NumDefs = L.NumDefs
  aliases : L'.SubOpAliases = L.SubOpAliases
  length : L'.OperandList.length = L.OperandList.length
  find : ∀ n : StringRef,
    L'.OperandList.findIdx (fun (Opnd : OperandInfo) => decide (Opnd.Name = n)) =
      L.OperandList.findIdx (fun (Opnd : OperandInfo) => decide (Opnd.Name = n))
  get : ∀ k : Nat, (L'.OperandList[k]?).map
      (fun (Op : OperandInfo) =>
        (Op.MINumOperands, Op.MIOperandInfo, Op.MIOperandNo, Op.Constraints.length)) =
    (L.OperandList[k]?).map
      (fun (Op : OperandInfo) =>
        (Op.MINumOperands, Op.MIOperandInfo, Op.MIOperandNo, Op.Constraints.length))

/-- The constraint carried by sub-operand slot `i` of operand `k`, when there is such a
slot. -/
def slotConstraint (Ops : CGIOperandList) (k i : Nat) : Option ConstraintInfo :=
  match Ops.OperandList[k]? with
  | none => none
  | some Op => if i < Op.MINumOperands then Op.Constraints[i]? else none

/-- Every operand holds one constraint per sub-operand slot, as the `OperandInfo`
constructor makes it. -/
def WellSized (Ops : CGIOperandList) : Prop :=
  ∀ Op ∈ Ops.OperandList, Op.Constraints.length = Op.MINumOperands

/-- A sequence of `ParseConstraint` calls, stopping at the first failure. -/
def parseAll : List StringRef → CGIOperandList → Except Error CGIOperandList
  | [], Ops => .ok Ops
  | CStr :: rest, Ops =>
    match ParseConstraint CStr Ops with
    | .error e => .error e
    | .ok Ops1 => parseAll rest Ops1

/-- The clause `@earlyclobber $x`. -/
def earlyClobberClause (x : StringRef) : StringRef := "@earlyclobber".toList ++ ' ' :: '$' :: x

/-! ## Tokens and the encoding exclusion list -/

namespace StringRef

/-- `StringRef::slice(Start, End)`: `Start` is clamped to the length and `End` to
`[Start, Length]`. -/
def slice (s : StringRef) (Start End : Nat) : StringRef :=
  let Start1 := min Start s.length
  let End1 := min (max End Start1) s.length
  (s.drop Start1).take (End1 - Start1)

/-- `StringRef::split(char Separator)`: the text before the first separator and the text
after it; the whole string and the empty string when there is none. -/
def split (s : StringRef) (Separator : Char) : StringRef × StringRef :=
  let Idx := s.findIf (fun c => c == Separator) 0
  if Idx = npos then (s, []) else (s.slice 0 Idx, s.slice (sizeAdd Idx 1) npos)

end StringRef

/-- `llvm::getToken(Source, Delimiters)` of `StringExtras`: the first run of
non-delimiters, and what follows it. -/
def getToken (Source Delimiters : StringRef) : StringRef × StringRef :=
  let Start := Source.find_first_not_of Delimiters 0
  let End := Source.find_first_of Delimiters Start
  (Source.slice Start End, Source.substr End npos)

/-- The write `OperandList[Op.first].DoNotEncode[Op.second] = true`; the bit vector
asserts the index. -/
def CGIOperandList.setDoNotEncode (L : CGIOperandList) (Op : Nat × Nat) :
    Except Error CGIOperandList :=
  match L.OperandList.get? Op.1 with
  | none => .error Error.outOfBounds
  | some Opnd =>
    if Op.2 < Opnd.DoNotEncode.length then
      .ok { L with
            OperandList :=
              L.OperandList.set Op.1
                { Opnd with DoNotEncode := Opnd.DoNotEncode.set Op.2 true } }
    else .error Error.assertion

/-- The loop `while (true)` of `ProcessDisableEncoding`, with a bound on the number of
iterations. -/
def ProcessDisableEncodingLoop : Nat → StringRef → CGIOperandList →
    Except Error CGIOperandList
  | 0, _, _ => .error Error.outOfFuel
  | fuel + 1, DisableEncoding, L =>
    let T := getToken DisableEncoding " ,\t".toList
    if T.1.isEmpty then .ok L
    else
      match L.ParseOperandName T.1 false with
      | .error e => .error e
      | .ok Op =>
        match L.setDoNotEncode Op with
        | .error e => .error e
        | .ok L1 => ProcessDisableEncodingLoop fuel T.2 L1

/-- `CGIOperandList::ProcessDisableEncoding(DisableEncoding)`: every iteration that does
not leave the loop removes at least one character, so the length of the list plus one
bounds the iterations. -/
def CGIOperandList.ProcessDisableEncoding (L : CGIOperandList) (DisableEncoding : StringRef) :
    Except Error CGIOperandList :=
  ProcessDisableEncodingLoop (DisableEncoding.length + 1) DisableEncoding L

/-! ## Implicit defs -/

namespace MVT

/-- The enumeration `MVT::SimpleValueType`: `Other`, or one of the other value types. -/
inductive SimpleValueType
  | Other
  | VT (n : Nat)
  deriving DecidableEq, Repr

end MVT

/-- Modelled from the spec: a hardware-mode-dependent value type `ValueTypeByHwMode`
(declared in `InfoByHwMode.h`), as far as it is read: whether it is simple, and the simple
type it then holds. -/
structure ValueTypeByHwMode where
  isSimple : Bool
  SimpleTy : MVT.SimpleValueType
  deriving DecidableEq, Repr

/-- `CodeGenInstruction::HasOneImplicitDefWithKnownVT(TargetInfo)`; the implicit defs of
the instruction and `TargetInfo.getRegisterVTs` are the inputs. -/
def HasOneImplicitDefWithKnownVT (ImplicitDefs : List Record)
    (getRegisterVTs : Record → List ValueTypeByHwMode) : Except Error MVT.SimpleValueType :=
  match ImplicitDefs with
  | [] => .ok MVT.SimpleValueType.Other
  | FirstImplicitDef :: _ =>
    if !FirstImplicitDef.isSubClassOf "Register".toList then .error Error.assertion
    else
      match getRegisterVTs FirstImplicitDef with
      | [VT] => if VT.isSimple then .ok VT.SimpleTy else .ok MVT.SimpleValueType.Other
      | _ => .ok MVT.SimpleValueType.Other

/-! ## Assembly string variants -/

/-- The first loop of `FlattenAsmStringVariants`: the index of the first `{` that is at
index 0 or follows neither `$` nor a backslash, or the length. `n` is the number of
indices still to visit. -/
def variantsStartLoop (Cur : StringRef) : Nat → Nat → Except Error Nat
  | 0, VariantsStart => .ok VariantsStart
  | n + 1, VariantsStart =>
    match Cur.get? VariantsStart with
    | none => .error Error.outOfBounds
    | some c =>
      if c = '{' then
        if VariantsStart = 0 then .ok VariantsStart
        else
          match Cur.get? (VariantsStart - 1) with
          | none => .error Error.outOfBounds
          | some p =>
            if p ≠ '$' ∧ p ≠ '\\' then .ok VariantsStart
            else variantsStartLoop Cur n (VariantsStart + 1)
      else variantsStartLoop Cur n (VariantsStart + 1)

/-- The second loop of `FlattenAsmStringVariants`: the index of the `}` that closes the
group, or the length. `n` is the number of indices still to visit. -/
def variantsEndLoop (Cur : StringRef) : Nat → Nat → Nat → Except Error Nat
  | 0, VariantsEnd, _ => .ok VariantsEnd
  | n + 1, VariantsEnd, NestedBraces =>
    match Cur.get? VariantsEnd with
    | none => .error Error.outOfBounds
    | some c =>
      if c = '}' then
        if VariantsEnd = 0 then .error Error.outOfBounds
        else
          match Cur.get? (VariantsEnd - 1) with
          | none => .error Error.outOfBounds
          | some p =>
            if p ≠ '\\' then
              if NestedBraces - 1 = 0 then .ok VariantsEnd
              else variantsEndLoop Cur n (VariantsEnd + 1) (NestedBraces - 1)
            else variantsEndLoop Cur n (VariantsEnd + 1) NestedBraces
      else if c = '{' then variantsEndLoop Cur n (VariantsEnd + 1) (NestedBraces + 1)
      else variantsEndLoop Cur n (VariantsEnd + 1) NestedBraces

/-- The loop `for (unsigned i = 0; i != Variant; ++i) Selection = Selection.split('|').second`. -/
def skipVariants : Nat → StringRef → StringRef
  | 0, Selection => Selection
  | n + 1, Selection => skipVariants n (Selection.split '|').2

/-- The loop `for (;;)` of `FlattenAsmStringVariants`, with a bound on the number of
iterations. -/
def flattenLoop : Nat → StringRef → Nat → StringRef → Except Error StringRef
  | 0, _, _, _ => .error Error.outOfFuel
  | fuel + 1, Cur, Variant, Res =>
    match variantsStartLoop Cur Cur.length 0 with
    | .error e => .error e
    | .ok VariantsStart =>
      let Res1 := Res ++ Cur.slice 0 VariantsStart
      if VariantsStart = Cur.length then .ok Res1
      else
        let VariantsStart1 := VariantsStart + 1
        match variantsEndLoop Cur (Cur.length - VariantsStart1) VariantsStart1 1 with
        | .error e => .error e
        | .ok VariantsEnd =>
          let Selection := Cur.substr VariantsStart1 (VariantsEnd - VariantsStart1)
          let Res2 := Res1 ++ ((skipVariants Variant Selection).split '|').1
          if VariantsEnd = Cur.length then .error Error.assertion
          else flattenLoop fuel (Cur.substr (VariantsEnd + 1) npos) Variant Res2

/-- `CodeGenInstruction::FlattenAsmStringVariants(Cur, Variant)`: every iteration that
does not leave the loop drops at least one character of `Cur`, so the length plus one
bounds the iterations. -/
def FlattenAsmStringVariants (Cur : StringRef) (Variant : Nat) : Except Error StringRef :=
  flattenLoop (Cur.length + 1) Cur Variant []

/-- The delimiters of the encoding exclusion list. -/
def isDelimiter (c : Char) : Prop := c = ' ' ∨ c = ',' ∨ c = '\t'

/-- The `DoNotEncode` bit of sub-operand slot `i` of operand `k`, when there is one. -/
def doNotEncodeBit (L : CGIOperandList) (k i : Nat) : Option Bool :=
  match L.OperandList[k]? with
  | none => none
  | some Opnd => Opnd.DoNotEncode[i]?

/-! ## Notions used to state the properties of encoder methods -/

/-- The arguments that are not the `variable_ops` marker, in declaration order: the
arguments that declare an operand. -/
def operandArgs : List (Init × StringRef) → List (Init × StringRef)
  | [] => []
  | a :: rest => if a.1.isVariableOps then operandArgs rest else a :: operandArgs rest

/-- What the constructor does for an argument without sub-arg dag whose class declares a
top-level encoder method: the method is the override of sub-slot 0, the bit of sub-slot 0
is clear and the bits of all other sub-slots are set. -/
def EncoderOverride (a : Init × StringRef) (op : OperandInfo) : Prop :=
  ∀ Rec : Record, a.1 = Init.defInit Rec →
    (Rec.isSubClassOf "RegisterOperand".toList = true ∨
      Rec.isSubClassOf "Operand".toList = true) →
    Rec.EncoderMethod ≠ [] →
    op.EncoderMethodNames = [(0, Rec.EncoderMethod)] ∧
      op.DoNotEncode = (List.replicate op.MINumOperands true).set 0 false

namespace Example

/-- A memory operand class with a top-level encoder method,
`def memEnc : Operand<iPTR>` with `EncoderMethod = "encodeMem"` and
`MIOperandInfo = (ops GPR:$base, i32imm:$off)`. -/
def memEnc : Record :=
  { Name := "memEnc".toList, SuperClasses := ["Operand".toList],
    PrintMethod := "printMem".toList, OperandType := "OPERAND_MEMORY".toList,
    OperandNamespace := "MCOI".toList, EncoderMethod := "encodeMem".toList,
    MIOperandInfo :=
      { Operator := some "ops".toList,
        Args := [(some { EncoderMethod := none }, "base".toList),
                 (some { EncoderMethod := none }, "off".toList)] } }

/-- The instruction `(outs)`, `(ins memEnc:$addr, GPR:$v)`. -/
def store : InstrRecord :=
  { OutOperandList := { Operator := some "outs".toList, Args := [] },
    InOperandList :=
      { Operator := some "ins".toList,
        Args := [(Init.defInit memEnc, "addr".toList), (Init.defInit GPR, "v".toList)] } }

end Example

namespace Example

/-- A register `def EFLAGS : Register<"flags">`. -/
def EFLAGS : Record :=
  { Name := "EFLAGS".toList, SuperClasses := ["Register".toList], PrintMethod := [],
    OperandType := [], OperandNamespace := [], EncoderMethod := [],
    MIOperandInfo := { Operator := none, Args := [] } }

/-- A register `def FPSW : Register<"fpsw">`. -/
def FPSW : Record :=
  { Name := "FPSW".toList, SuperClasses := ["Register".toList], PrintMethod := [],
    OperandType := [], OperandNamespace := [], EncoderMethod := [],
    MIOperandInfo := { Operator := none, Args := [] } }

/-- A target in which every register has the one simple value type number 7. -/
def oneVT (_R : Record) : List ValueTypeByHwMode :=
  [{ isSimple := true, SimpleTy := MVT.SimpleValueType.VT 7 }]

end Example

/-! ## Notions used to state the properties of the variant flattener -/

/-- The `{` at index `i` of `s` is escaped: it follows a `$` or a backslash. -/
def escapedAt (s : StringRef) (i : Nat) : Prop :=
  0 < i ∧ (s[i - 1]? = some '$' ∨ s[i - 1]? = some '\\')

/-- Every `{` of `s` is immediately preceded by `$` or by a backslash. -/
def bracesEscaped (s : StringRef) : Prop := ∀ i, s[i]? = some '{' → escapedAt s i

/-- The alternatives of a variant group, joined by `|`. -/
def joinAlts : List StringRef → StringRef
  | [] => []
  | [a] => a
  | a :: b :: rest => a ++ '|' :: joinAlts (b :: rest)

/-- An alternative without `{`, `}`, `|` and backslash. -/
def plainAlt (a : StringRef) : Prop := ∀ c ∈ a, c ≠ '{' ∧ c ≠ '}' ∧ c ≠ '|' ∧ c ≠ '\\'

/-- The result of the loop started with `Res`, from its result started with the empty
string. -/
def prependRes (Res : StringRef) : Except Error StringRef → Except Error StringRef
  | .ok r => .ok (Res ++ r)
  | .error e => .error e

/-! ## The constraint list -/

/-- The loop `while (bidx != StringRef::npos)` of `ParseConstraints`, with a bound on the
number of iterations. -/
def ParseConstraintsLoop : Nat → StringRef → Nat → CGIOperandList →
    Except Error CGIOperandList
  | 0, _, _, _ => .error Error.outOfFuel
  | fuel + 1, CStr, bidx, Ops =>
    if bidx = npos then .ok Ops
    else
      let eidx0 := CStr.find_first_of [','] bidx
      let eidx := if eidx0 = npos then CStr.length else eidx0
      match ParseConstraint (CStr.substr bidx (sizeSub eidx bidx)) Ops with
      | .error e => .error e
      | .ok Ops1 => ParseConstraintsLoop fuel CStr (CStr.find_first_not_of [','] eidx) Ops1

/-- The function `ParseConstraints(CStr, Ops, Rec)`: every iteration moves `bidx` forward,
so the length of the string plus one bounds the iterations. -/
def ParseConstraints (CStr : StringRef) (Ops : CGIOperandList) : Except Error CGIOperandList :=
  if CStr.isEmpty then .ok Ops
  else ParseConstraintsLoop (CStr.length + 1) CStr (CStr.find_first_not_of [','] 0) Ops

/-- The maximal comma-free non-empty pieces of a string, left to right: the string is cut
at every comma and the empty pieces are dropped. -/
def commaPieces (s : StringRef) : List StringRef :=
  (s.splitOnP (fun c => c == ',')).filter (fun piece => !piece.isEmpty)

/-- What a constraint write leaves alone in an operand: its name, its base, its slot count
and its encoding exclusion bits. -/
def operandFrame (Op : OperandInfo) : StringRef × Nat × Nat × List Bool :=
  (Op.Name, Op.MIOperandNo, Op.MINumOperands, Op.DoNotEncode)

namespace Example

/-- An immediate operand class `def imm : Operand<i32>`, with the `MIOperandInfo = (ops)`
that the class `Operand` gives by default. -/
def imm : Record :=
  { Name := "imm".toList, SuperClasses := ["Operand".toList],
    PrintMethod := "printOperand".toList, OperandType := "OPERAND_IMMEDIATE".toList,
    OperandNamespace := "MCOI".toList, EncoderMethod := [],
    MIOperandInfo := { Operator := some "ops".toList, Args := [] } }

/-- The instruction `(outs)`, `(ins (GPR $x):$r)`: a register class with a sub-arg dag of
one name. -/
def regSubArg : InstrRecord :=
  { OutOperandList := { Operator := some "outs".toList, Args := [] },
    InOperandList :=
      { Operator := some "ins".toList,
        Args := [(Init.dagInit { Operator := some GPR, Args := [(SubArgInit.unset, "x".toList)] },
                  "r".toList)] } }

/-- The instruction `(outs)`, `(ins (imm $x):$v)`: an operand class without sub-operands,
with a sub-arg dag of one name. -/
def immSubArg : InstrRecord :=
  { OutOperandList := { Operator := some "outs".toList, Args := [] },
    InOperandList :=
      { Operator := some "ins".toList,
        Args := [(Init.dagInit { Operator := some imm, Args := [(SubArgInit.unset, "x".toList)] },
                  "v".toList)] } }

end Example

/-! ## Notions used to state when the variant flattener ends -/

/-- The nesting depth after `s`, read from depth `d`, when only the braces that follow
neither `$` nor a backslash are counted: such a `{` adds one and such a `}` takes one away
(a `}` at depth 0 closes nothing). `prev` is the character before `s`. -/
def unescapedDepth : Option Char → StringRef → Nat → Nat
  | _, [], d => d
  | prev, c :: rest, d =>
    if prev = some '$' ∨ prev = some '\\' then unescapedDepth (some c) rest d
    else if c = '{' then unescapedDepth (some c) rest (d + 1)
    else if c = '}' then unescapedDepth (some c) rest (d - 1)
    else unescapedDepth (some c) rest d

/-- Every unescaped `{` of `s` has a matching unescaped `}`. -/
def unescapedMatched (s : StringRef) : Prop := unescapedDepth none s 0 = 0

/-- Text in which the braces are balanced the way the scan for the end of a group counts
them: every `{` opens a level, also after `$` or a backslash, and every `}` that does not
follow a backslash closes one. The first argument is the character before the text. -/
inductive Balanced : Char → StringRef → Prop
  | done (prev : Char) : Balanced prev []
  | plain (prev c : Char) (rest : StringRef) :
      c ≠ '{' → c ≠ '}' → Balanced c rest → Balanced prev (c :: rest)
  | escapedClose (rest : StringRef) : Balanced '}' rest → Balanced '\\' ('}' :: rest)
  | nested (prev : Char) (inner rest : StringRef) :
      Balanced '{' inner → ('{' :: inner).getLast? ≠ some '\\' → Balanced '}' rest →
      Balanced prev ('{' :: (inner ++ '}' :: rest))

/-- A string whose variant groups are all closed: text without an unescaped `{`, or such
text `P` not ending in `$` or a backslash, a group `{B}` with balanced `B` whose `}` does
not follow a backslash, and a string of the same kind. -/
inductive Flattenable : StringRef → Prop
  | text (s : StringRef) : bracesEscaped s → Flattenable s
  | group (P B T : StringRef) :
      bracesEscaped P → P.getLast? ≠ some '$' → P.getLast? ≠ some '\\' →
      Balanced '{' B → ('{' :: B).getLast? ≠ some '\\' → Flattenable T →
      Flattenable (P ++ '{' :: (B ++ '}' :: T))

/-! ## References that name a slot -/

/-- The pair `p` names a sub-operand slot of the list: operand `p.1` exists and has more
than `p.2` slots. The pairs that `ParseOperandName` returns are used unchecked as indices
by its callers. -/
def namesSlot (Ops : CGIOperandList) (p : Nat × Nat) : Bool :=
  match Ops.OperandList[p.1]? with
  | none => false
  | some Opnd => decide (p.2 < Opnd.MINumOperands)

/-- Every operand holds one encoding exclusion bit per sub-operand slot, as the
`OperandInfo` constructor makes it. -/
def EncodeSized (L : CGIOperandList) : Prop :=
  ∀ Op ∈ L.OperandList, Op.DoNotEncode.length = Op.MINumOperands

/-- The tokens of an encoding exclusion list, left to right: the list is cut at every
space, comma and tab and the empty pieces are dropped. -/
def encodingTokens (s : StringRef) : List StringRef :=
  (s.splitOnP (fun c => " ,\t".toList.contains c)).filter (fun piece => !piece.isEmpty)

/-- What `ProcessDisableEncoding` does with one token (lines 417-420): the token is
resolved with `AllowWholeOp = false` and the bit of the resolved slot is set. -/
def disableToken (L : CGIOperandList) (tok : StringRef) : Except Error CGIOperandList :=
  match L.ParseOperandName tok false with
  | .error e => .error e
  | .ok Op => L.setDoNotEncode Op

/-- The tokens of a list processed in order, stopping at the first failure. -/
def disableAll : List StringRef → CGIOperandList → Except Error CGIOperandList
  | [], L => .ok L
  | tok :: rest, L =>
    match disableToken L tok with
    | .error e => .error e
    | .ok L1 => disableAll rest L1

namespace Example

/-- The instruction `(outs variable_ops, (mem $lo, $hi):$d, GPR:$e)`, `(ins GPR:$a)`: the
marker stands before the defs. -/
def markerFirst : InstrRecord :=
  { OutOperandList :=
      { Operator := some "outs".toList,
        Args := [(Init.defInit variable_ops, []),
                 (Init.dagInit { Operator := some mem,
                                 Args := [(SubArgInit.unset, "lo".toList),
                                          (SubArgInit.unset, "hi".toList)] },
                  "d".toList),
                 (Init.defInit GPR, "e".toList)] },
    InOperandList :=
      { Operator := some "ins".toList, Args := [(Init.defInit GPR, "a".toList)] } }

end Example

/-! # Lemmas -/

/-! ## The sub-arg loop -/

theorem subArgLoop_spec (i : Nat) (M : Option MIOperandInfoDag) :
    ∀ (args : List (SubArgInit × StringRef)) (j : Nat) (s s' : SubArgState),
      subArgLoop i M args j s = .ok s' →
      s'.OpInfo.Name = s.OpInfo.Name ∧ s'.OpInfo.MIOperandNo = s.OpInfo.MIOperandNo ∧
      s'.OpInfo.MINumOperands = s.OpInfo.MINumOperands ∧
      s'.OperandNames = s.OperandNames ++ args.map (fun A => A.2) ∧
      (∀ m ∈ args.map (fun A => A.2), m ≠ []) ∧
      (s.OperandNames.Nodup → s'.OperandNames.Nodup) := by
  intro args
  induction args with
  | nil =>
    intro j s s' h
    simp only [subArgLoop, Except.ok.injEq] at h
    subst h
    simp
  | cons a rest ih =>
    intro j s s' h
    obtain ⟨SubArg, SubArgName⟩ := a
    simp only [subArgLoop] at h
    split at h
    · cases h
    split at h
    · cases h
    split at h
    · cases h
    rename_i hne hdup
    split at h
    · cases h
    rename_i Info
    split at h
    · cases h
    · cases h
    rename_i SubRec nm hget
    have := ih _ _ _ h
    obtain ⟨h1, h2, h3, h4, h5, h6⟩ := this
    have hne' : SubArgName ≠ [] := by
      intro hc; apply hne; simp [hc]
    have hnotin : SubArgName ∉ s.OperandNames := by
      intro hc; apply hdup; simpa using hc
    refine ⟨?_, ?_, ?_, ?_, ?_, ?_⟩
    · rw [h1]; cases SubRec.EncoderMethod <;> rfl
    · rw [h2]; cases SubRec.EncoderMethod <;> rfl
    · rw [h3]; cases SubRec.EncoderMethod <;> rfl
    · rw [h4]; simp
    · intro m hm
      simp only [List.map_cons, List.mem_cons] at hm
      rcases hm with hm | hm
      · rw [hm]; exact hne'
      · exact h5 m hm
    · intro hnd
      apply h6
      simp only
      rw [List.nodup_append]
      refine ⟨hnd, by simp, ?_⟩
      intro x hx hx'
      simp only [List.mem_singleton] at hx'
      subst hx'
      exact hnotin hx

/-! ## One loop iteration -/

theorem addOperand_spec {i : Nat} {D : Option SubArgDagInit} {Rec : Record}
    {n PM EM OT ON : StringRef} {NumOps : Nat} {M : Option MIOperandInfoDag}
    {st st' : BuildState} (hN : 1 ≤ NumOps)
    (h : addOperand i D Rec n PM EM OT ON NumOps M st = .ok st') :
    AddsOperand n (subArgDagNames D) st st' := by
  unfold addOperand at h
  split at h
  · cases h
  rename_i hne
  split at h
  · cases h
  rename_i hdup
  have hne' : n ≠ [] := by
    intro hc; apply hne; simp [hc]
  have hnotin : n ∉ st.OperandNames := by
    intro hc; apply hdup; simpa using hc
  have hnd : st.OperandNames.Nodup → (st.OperandNames ++ [n]).Nodup := by
    intro hnd
    rw [List.nodup_append]
    refine ⟨hnd, by simp, ?_⟩
    intro x hx hx'
    simp only [List.mem_singleton] at hx'
    subst hx'
    exact hnotin hx
  cases D with
  | none =>
    simp only [Except.ok.injEq] at h
    subst h
    refine ⟨⟨_, rfl, ?_, ?_, ?_, ?_⟩, rfl, by simp [subArgDagNames],
      ⟨hne', by simp [subArgDagNames]⟩, hnd⟩
    · split <;> rfl
    · split <;> rfl
    · split <;> exact hN
    · split <;> rfl
  | some d =>
    simp only at h
    split at h
    · cases h
    split at h
    · cases h
    rename_i s hs
    simp only [Except.ok.injEq] at h
    subst h
    obtain ⟨h1, h2, h3, h4, h5, h6⟩ := subArgLoop_spec _ _ _ _ _ _ hs
    refine ⟨⟨_, rfl, ?_, ?_, ?_, ?_⟩, rfl, ?_, ⟨hne', h5⟩, ?_⟩
    · rw [h1]; rfl
    · rw [h2]; rfl
    · rw [h3]; exact hN
    · simp only [h3]; rfl
    · simp only [h4]; simp [subArgDagNames]
    · intro hh; exact h6 (hnd hh)

theorem processArg_spec {NumDefs i : Nat} {a : Init} {n : StringRef} {st st' : BuildState}
    (h : processArg NumDefs i a n st = .ok st') :
    (a.isVariableOps = true ∧ st'.OperandList = st.OperandList ∧
        st'.MIOperandNo = st.MIOperandNo ∧ st'.OperandNames = st.OperandNames ∧
        st'.VariadicOuts = (if i < NumDefs then true else st.VariadicOuts)) ∨
      (a.isVariableOps = false ∧ AddsOperand n a.subArgNames st st') := by
  have hsub : subArgDagNames a.subArgDag = a.subArgNames := rfl
  unfold processArg at h
  unfold Init.isVariableOps
  split at h
  · cases h
  rename_i Rec hRec
  split at h
  · rename_i hc
    right
    refine ⟨by rw [hc]; rfl, ?_⟩
    rw [← hsub]
    exact addOperand_spec (le_refl 1) h
  rename_i hc1
  have e1 := Bool.eq_false_iff.mpr hc1
  split at h
  · rename_i hc2
    split at h
    · cases h
    right
    refine ⟨by rw [e1, hc2]; rfl, ?_⟩
    rw [← hsub]
    have hN : 1 ≤ (if Rec.MIOperandInfo.Args.length ≠ 0 then Rec.MIOperandInfo.Args.length
        else 1) := by
      split <;> omega
    have := addOperand_spec hN h
    refine ⟨?_, ?_, ?_, this.nonempty, ?_⟩
    · obtain ⟨op, h1, h2, h3, h4, h5⟩ := this.op
      refine ⟨op, ?_, h2, ?_, h4, ?_⟩
      · rw [h1]; split <;> [rfl; (split <;> rfl)]
      · rw [h3]; split <;> [rfl; (split <;> rfl)]
      · rw [h5]; split <;> [rfl; (split <;> rfl)]
    · rw [this.variadic]; split <;> [rfl; (split <;> rfl)]
    · rw [this.names]; split <;> [rfl; (split <;> rfl)]
    · have h7 := this.nodup
      intro hh
      apply h7
      revert hh
      split <;> [exact id; (split <;> exact id)]
  rename_i hc2
  have e2 := Bool.eq_false_iff.mpr hc2
  split at h
  · rename_i hc3
    left
    simp only [Except.ok.injEq] at h
    subst h
    refine ⟨by rw [e1, e2, decide_eq_true hc3]; rfl, rfl, rfl, rfl, rfl⟩
  rename_i hc3
  have e3 := decide_eq_false hc3
  split at h
  · right
    refine ⟨by rw [e1, e2, e3]; rfl, ?_⟩
    rw [← hsub]
    exact addOperand_spec (le_refl 1) h
  split at h
  · cases h
  · right
    refine ⟨by rw [e1, e2, e3]; rfl, ?_⟩
    rw [← hsub]
    exact addOperand_spec (le_refl 1) h

/-! ## The loop over the arguments -/

theorem argLoop_append (NumDefs : Nat) :
    ∀ (xs ys : List (Init × StringRef)) (i : Nat) (st : BuildState),
      argLoop NumDefs (xs ++ ys) i st =
        match argLoop NumDefs xs i st with
        | .error e => .error e
        | .ok st1 => argLoop NumDefs ys (i + xs.length) st1 := by
  intro xs
  induction xs with
  | nil => intro ys i st; simp [argLoop]
  | cons a rest ih =>
    intro ys i st
    obtain ⟨ai, an⟩ := a
    simp only [List.cons_append, argLoop, List.length_cons]
    cases hp : processArg NumDefs i ai an st with
    | error e => rfl
    | ok st1 =>
      simp only
      have e := ih ys (i + 1) st1
      have : i + 1 + rest.length = i + (rest.length + 1) := by omega
      rw [this] at e
      exact e

theorem operandArgNames_append (xs ys : List (Init × StringRef)) :
    operandArgNames (xs ++ ys) = operandArgNames xs ++ operandArgNames ys := by
  induction xs with
  | nil => rfl
  | cons a rest ih =>
    simp only [List.cons_append, operandArgNames]
    split <;> simp [ih]

theorem declaredNames_append (xs ys : List (Init × StringRef)) :
    declaredNames (xs ++ ys) = declaredNames xs ++ declaredNames ys := by
  induction xs with
  | nil => rfl
  | cons a rest ih =>
    simp only [List.cons_append, declaredNames]
    split <;> simp [ih]

/-- Names: the set of names after the loop is the set before it followed by every declared
name, no declared name is empty, distinctness is preserved, and the operands appended are
those of the arguments that are not the marker. -/
theorem argLoop_names (NumDefs : Nat) :
    ∀ (args : List (Init × StringRef)) (i : Nat) (st st' : BuildState),
      argLoop NumDefs args i st = .ok st' →
      st'.OperandNames = st.OperandNames ++ declaredNames args ∧
      (∀ n ∈ declaredNames args, n ≠ []) ∧
      (st.OperandNames.Nodup → st'.OperandNames.Nodup) ∧
      st'.OperandList.map (fun Op => Op.Name) =
        st.OperandList.map (fun Op => Op.Name) ++ operandArgNames args := by
  intro args
  induction args with
  | nil =>
    intro i st st' h
    simp only [argLoop, Except.ok.injEq] at h
    subst h
    simp [declaredNames, operandArgNames]
  | cons a rest ih =>
    intro i st st' h
    obtain ⟨ai, an⟩ := a
    simp only [argLoop] at h
    split at h
    · cases h
    rename_i st1 hp
    obtain ⟨h1, h2, h3, h4⟩ := ih _ _ _ h
    rcases processArg_spec hp with ⟨hv, hl, _, hn, _⟩ | ⟨hv, hadd⟩
    · simp only [declaredNames, operandArgNames, hv, if_true]
      rw [hn] at h1 h3
      rw [hl] at h4
      exact ⟨h1, h2, h3, h4⟩
    · simp only [declaredNames, operandArgNames, hv]
      obtain ⟨op, ho1, ho2, _, _, _⟩ := hadd.op
      refine ⟨?_, ?_, ?_, ?_⟩
      · rw [h1, hadd.names]; simp
      · intro n hn
        simp only [Bool.false_eq_true, if_false, List.cons_append, List.mem_cons,
          List.mem_append] at hn
        rcases hn with hn | hn | hn
        · rw [hn]; exact hadd.nonempty.1
        · exact hadd.nonempty.2 n hn
        · exact h2 n hn
      · intro hnd; exact h3 (hadd.nodup hnd)
      · rw [h4, ho1]; simp [ho2]

theorem totalSlots_append (l : List OperandInfo) (op : OperandInfo) :
    totalSlots (l ++ [op]) = totalSlots l + op.MINumOperands := by
  simp [totalSlots]

theorem Tiled_append (op : OperandInfo) :
    ∀ (l : List OperandInfo) (b : Nat), Tiled b l → op.MIOperandNo = b + totalSlots l →
      1 ≤ op.MINumOperands → Tiled b (l ++ [op]) := by
  intro l
  induction l with
  | nil =>
    intro b _ h2 h3
    simp only [totalSlots, List.map_nil, List.sum_nil, Nat.add_zero] at h2
    exact ⟨h2, h3, trivial⟩
  | cons x rest ih =>
    intro b h1 h2 h3
    obtain ⟨ha, hb, hc⟩ := h1
    refine ⟨ha, hb, ih _ hc ?_ h3⟩
    rw [h2]
    simp only [totalSlots, List.map_cons, List.sum_cons]
    omega

theorem argLoop_tiled (NumDefs : Nat) :
    ∀ (args : List (Init × StringRef)) (i : Nat) (st st' : BuildState),
      argLoop NumDefs args i st = .ok st' →
      Tiled 0 st.OperandList → st.MIOperandNo = totalSlots st.OperandList →
      Tiled 0 st'.OperandList ∧ st'.MIOperandNo = totalSlots st'.OperandList := by
  intro args
  induction args with
  | nil =>
    intro i st st' h h1 h2
    simp only [argLoop, Except.ok.injEq] at h
    subst h
    exact ⟨h1, h2⟩
  | cons a rest ih =>
    intro i st st' h h1 h2
    obtain ⟨ai, an⟩ := a
    simp only [argLoop] at h
    split at h
    · cases h
    rename_i st1 hp
    rcases processArg_spec hp with ⟨_, hl, hm, _, _⟩ | ⟨_, hadd⟩
    · apply ih _ _ _ h
      · rw [hl]; exact h1
      · rw [hl, hm]; exact h2
    · obtain ⟨op, ho1, _, ho3, ho4, ho5⟩ := hadd.op
      apply ih _ _ _ h
      · rw [ho1]
        exact Tiled_append op _ _ h1 (by rw [ho3, h2]; omega) ho4
      · rw [ho5, ho1, totalSlots_append, h2]

/-- The flag `VariadicOuts` while the loop index stays below `NumDefs`: it is set exactly
when one of the arguments visited is the marker. -/
theorem argLoop_variadic_outs (NumDefs : Nat) :
    ∀ (args : List (Init × StringRef)) (i : Nat) (st st' : BuildState),
      argLoop NumDefs args i st = .ok st' → i + args.length ≤ NumDefs →
      st'.VariadicOuts = (st.VariadicOuts || args.any (fun a => a.1.isVariableOps)) := by
  intro args
  induction args with
  | nil =>
    intro i st st' h _
    simp only [argLoop, Except.ok.injEq] at h
    subst h
    simp
  | cons a rest ih =>
    intro i st st' h hi
    obtain ⟨ai, an⟩ := a
    simp only [argLoop] at h
    split at h
    · cases h
    rename_i st1 hp
    simp only [List.length_cons] at hi
    have := ih _ _ _ h (by omega)
    rw [this]
    rcases processArg_spec hp with ⟨hv, _, _, _, hvo⟩ | ⟨hv, hadd⟩
    · rw [hvo, if_pos (by omega)]
      simp [hv]
    · rw [hadd.variadic]
      simp [hv]

/-- The flag `VariadicOuts` once the loop index has reached `NumDefs`: unchanged. -/
theorem argLoop_variadic_ins (NumDefs : Nat) :
    ∀ (args : List (Init × StringRef)) (i : Nat) (st st' : BuildState),
      argLoop NumDefs args i st = .ok st' → NumDefs ≤ i →
      st'.VariadicOuts = st.VariadicOuts := by
  intro args
  induction args with
  | nil =>
    intro i st st' h _
    simp only [argLoop, Except.ok.injEq] at h
    subst h
    rfl
  | cons a rest ih =>
    intro i st st' h hi
    obtain ⟨ai, an⟩ := a
    simp only [argLoop] at h
    split at h
    · cases h
    rename_i st1 hp
    rw [ih _ _ _ h (by omega)]
    rcases processArg_spec hp with ⟨_, _, _, _, hvo⟩ | ⟨_, hadd⟩
    · rw [hvo, if_neg (by omega)]
    · exact hadd.variadic

/-- What a successful construction is made of: the two operator checks passed and the loop
over the arguments of `outs` followed by those of `ins` ended in a state `st`. -/
theorem construct_ok {R : InstrRecord} {L : CGIOperandList}
    (h : CGIOperandList.construct R = .ok L) :
    ∃ st : BuildState,
      argLoop R.OutOperandList.Args.length
        (R.OutOperandList.Args ++ R.InOperandList.Args) 0 BuildState.init = .ok st ∧
      L.NumDefs = (if st.VariadicOuts then R.OutOperandList.Args.length - 1
        else R.OutOperandList.Args.length) ∧
      L.OperandList = st.OperandList ∧ L.SubOpAliases = st.SubOpAliases := by
  unfold CGIOperandList.construct at h
  simp only at h
  split at h
  · cases h
  split at h
  · cases h
  split at h
  · cases h
  split at h
  · cases h
  split at h
  · cases h
  rename_i st hst
  simp only [Except.ok.injEq] at h
  subst h
  exact ⟨st, hst, rfl, rfl, rfl⟩

/-! ## Consequences of the tiling invariant -/

theorem Tiled_succ :
    ∀ (l : List OperandInfo) (b k : Nat) (p q : OperandInfo), Tiled b l →
      l[k]? = some p → l[k + 1]? = some q →
      q.MIOperandNo = p.MIOperandNo + p.MINumOperands := by
  intro l
  induction l with
  | nil => intro b k p q _ h; simp at h
  | cons x rest ih =>
    intro b k p q ht hp hq
    obtain ⟨ha, _, hc⟩ := ht
    cases k with
    | zero =>
      simp only [List.getElem?_cons_zero, Option.some.injEq] at hp
      subst hp
      cases rest with
      | nil => simp at hq
      | cons y rest2 =>
        simp only [List.getElem?_cons_succ, List.getElem?_cons_zero, Option.some.injEq] at hq
        subst hq
        rw [hc.1, ha]
    | succ k =>
      simp only [List.getElem?_cons_succ] at hp hq
      exact ih _ k p q hc hp hq

theorem Tiled_pos :
    ∀ (l : List OperandInfo) (b : Nat), Tiled b l → ∀ op ∈ l, 1 ≤ op.MINumOperands := by
  intro l
  induction l with
  | nil => intro b _ op h; simp at h
  | cons x rest ih =>
    intro b ht op hop
    obtain ⟨_, hb, hc⟩ := ht
    simp only [List.mem_cons] at hop
    rcases hop with hop | hop
    · rw [hop]; exact hb
    · exact ih _ hc op hop

theorem Tiled_last :
    ∀ (l : List OperandInfo) (b : Nat) (op : OperandInfo), Tiled b l →
      l.getLast? = some op → op.MIOperandNo + op.MINumOperands = b + totalSlots l := by
  intro l
  induction l with
  | nil => intro b op _ h; simp at h
  | cons x rest ih =>
    intro b op ht hl
    obtain ⟨ha, _, hc⟩ := ht
    cases rest with
    | nil =>
      simp only [List.getLast?_singleton, Option.some.injEq] at hl
      subst hl
      simp [totalSlots, ha]
    | cons y rest2 =>
      rw [List.getLast?_cons_cons] at hl
      rw [ih _ _ hc hl]
      simp only [totalSlots, List.map_cons, List.sum_cons]
      omega

theorem operandArgNames_subset_declaredNames :
    ∀ (args : List (Init × StringRef)) (n : StringRef),
      n ∈ operandArgNames args → n ∈ declaredNames args := by
  intro args
  induction args with
  | nil => intro n h; simp [operandArgNames] at h
  | cons a rest ih =>
    intro n h
    simp only [operandArgNames, declaredNames] at h ⊢
    split
    · rename_i hv
      rw [if_pos hv] at h
      exact ih n h
    · rename_i hv
      rw [if_neg hv] at h
      simp only [List.mem_cons] at h
      simp only [List.cons_append, List.mem_cons, List.mem_append]
      rcases h with h | h
      · exact Or.inl h
      · exact Or.inr (Or.inr (ih n h))

theorem operandArgNames_length (args : List (Init × StringRef)) :
    (operandArgNames args).length + args.countP (fun a => a.1.isVariableOps) = args.length := by
  induction args with
  | nil => rfl
  | cons a rest ih =>
    simp only [operandArgNames, List.countP_cons, List.length_cons]
    by_cases hv : a.1.isVariableOps = true
    · rw [if_pos hv, if_pos hv]; omega
    · rw [if_neg hv, if_neg hv, List.length_cons]; omega

theorem any_isVariableOps_iff (args : List (Init × StringRef)) :
    args.any (fun a => a.1.isVariableOps) = true ↔
      0 < args.countP (fun a => a.1.isVariableOps) := by
  rw [List.countP_pos_iff]
  simp

/-- The final value of `VariadicOuts`: set exactly when an argument of `outs` is the
marker. -/
theorem construct_variadic {R : InstrRecord} {L : CGIOperandList}
    (h : CGIOperandList.construct R = .ok L) :
    ∃ st : BuildState,
      argLoop R.OutOperandList.Args.length
        (R.OutOperandList.Args ++ R.InOperandList.Args) 0 BuildState.init = .ok st ∧
      st.VariadicOuts = R.OutOperandList.Args.any (fun a => a.1.isVariableOps) ∧
      L.NumDefs = (if st.VariadicOuts then R.OutOperandList.Args.length - 1
        else R.OutOperandList.Args.length) ∧
      L.OperandList = st.OperandList := by
  obtain ⟨st, hst, hN, hL, _⟩ := construct_ok h
  refine ⟨st, hst, ?_, hN, hL⟩
  rw [argLoop_append] at hst
  split at hst
  · cases hst
  rename_i st1 h1
  have hv1 := argLoop_variadic_outs _ _ _ _ _ h1 (by omega)
  have hv2 := argLoop_variadic_ins _ _ _ _ _ hst (by omega)
  rw [hv2, hv1]
  simp only [BuildState.init, Bool.false_or]

/-! ## String scanning -/

theorem substr_eq (s : StringRef) (a n : Nat) : s.substr a n = (s.drop a).take n := by
  unfold StringRef.substr
  have e1 : s.drop (min a s.length) = s.drop a := by
    by_cases h : a ≤ s.length
    · rw [Nat.min_eq_left h]
    · rw [Nat.min_eq_right (by omega), List.drop_of_length_le (le_refl _),
        List.drop_of_length_le (by omega)]
  have e2 : s.length - min a s.length = (s.drop a).length := by
    rw [List.length_drop]
    omega
  rw [e1, e2]
  by_cases hn : n ≤ (s.drop a).length
  · rw [Nat.min_eq_left hn]
  · rw [Nat.min_eq_right (by omega), List.take_of_length_le (le_refl _),
      List.take_of_length_le (by omega)]

theorem substr_npos (s : StringRef) (a : Nat) (h : s.length < 2 ^ 64) :
    s.substr a npos = s.drop a := by
  rw [substr_eq]
  apply List.take_of_length_le
  simp only [List.length_drop, npos]
  omega

theorem findIdx_skip (p : Char → Bool) :
    ∀ (mid : List Char) (y : Char) (post : List Char), (∀ x ∈ mid, p x = false) →
      p y = true → (mid ++ y :: post).findIdx p = mid.length := by
  intro mid
  induction mid with
  | nil => intro y post _ hy; simp [List.findIdx_cons, hy]
  | cons x rest ih =>
    intro y post hmid hy
    have hx : p x = false := hmid x (List.mem_cons_self _ _)
    simp only [List.cons_append, List.findIdx_cons, hx, cond_false, List.length_cons]
    rw [ih y post (fun z hz => hmid z (List.mem_cons_of_mem _ hz)) hy]

theorem findIdx_none (p : Char → Bool) :
    ∀ (s : List Char), (∀ x ∈ s, p x = false) → s.findIdx p = s.length := by
  intro s
  induction s with
  | nil => intro _; rfl
  | cons x rest ih =>
    intro h
    have hx : p x = false := h x (List.mem_cons_self _ _)
    simp only [List.findIdx_cons, hx, cond_false, List.length_cons]
    rw [ih (fun z hz => h z (List.mem_cons_of_mem _ hz))]

/-- Scanning from the end of `pre`: the characters of `mid` fail the test, `y` passes. -/
theorem findIf_skip (p : Char → Bool) (pre mid : List Char) (y : Char) (post : List Char)
    (hmid : ∀ x ∈ mid, p x = false) (hy : p y = true) :
    StringRef.findIf (pre ++ (mid ++ y :: post)) p pre.length = pre.length + mid.length := by
  unfold StringRef.findIf
  simp only [List.length_append, List.length_cons]
  rw [Nat.min_eq_left (by omega), List.drop_left, findIdx_skip p mid y post hmid hy]
  rw [if_pos (by omega)]

/-- Scanning a string none of whose characters passes the test. -/
theorem findIf_none (p : Char → Bool) (s : List Char) (hs : ∀ x ∈ s, p x = false) :
    StringRef.findIf s p 0 = npos := by
  unfold StringRef.findIf
  simp only [Nat.zero_min, List.drop_zero, Nat.zero_add]
  rw [findIdx_none p s hs, if_neg (by omega)]

theorem sizeAdd_small (a b : Nat) (h : a + b < 2 ^ 64) : sizeAdd a b = a + b := by
  unfold sizeAdd
  exact Nat.mod_eq_of_lt h

theorem sizeSub_small (a b : Nat) (hb : b ≤ a) (ha : a < 2 ^ 64) : sizeSub a b = a - b := by
  unfold sizeSub
  rw [Nat.mod_eq_of_lt (by omega : b < 2 ^ 64)]
  have : a + 2 ^ 64 - b = (a - b) + 2 ^ 64 := by omega
  rw [this, Nat.add_mod_right]
  exact Nat.mod_eq_of_lt (by omega)

/-! ## Resolving a reference without a dot -/

theorem starts_with_dollar (name : StringRef) :
    StringRef.starts_with ('$' :: name) "$".toList = true := by
  have e : "$".toList = ['$'] := rfl
  rw [e]
  simp [StringRef.starts_with, List.isPrefixOf]

theorem substr_after_dollar (name : StringRef) (hlen : name.length + 1 < 2 ^ 64) :
    StringRef.substr ('$' :: name) 1 npos = name := by
  rw [substr_npos _ _ (by simpa using hlen)]
  rfl

theorem find_dot_none (name : StringRef) (hdot : '.' ∉ name) :
    StringRef.find_first_of name ['.'] 0 = npos := by
  unfold StringRef.find_first_of
  apply findIf_none
  intro x hx
  simp only [List.contains_eq_any_beq, List.any_cons, List.any_nil, Bool.or_false,
    beq_eq_false_iff_ne, ne_eq]
  intro hc
  apply hdot
  rw [← hc]
  exact hx

/-- A reference `$name` without a dot: the alias table is consulted first, then the
operand list, where a composite operand needs `AllowWholeOp`. -/
theorem ParseOperandName_plain (L : CGIOperandList) (name : StringRef) (AllowWholeOp : Bool)
    (hlen : name.length + 1 < 2 ^ 64) (hdot : '.' ∉ name) :
    L.ParseOperandName ('$' :: name) AllowWholeOp =
      match L.findSubOperandAlias name with
      | .error e => .error e
      | .ok (some SubOp) => .ok SubOp
      | .ok none =>
        match L.getOperandNamed name with
        | .error e => .error e
        | .ok OpIdx =>
          match L.OperandList.get? OpIdx with
          | none => .error Error.outOfBounds
          | some Opnd =>
            if decide (Opnd.MINumOperands > 1) && !AllowWholeOp then
              .error Error.wholeComplexOperand
            else .ok (OpIdx, 0) := by
  unfold CGIOperandList.ParseOperandName
  simp only [starts_with_dollar, substr_after_dollar name hlen, find_dot_none name hdot,
    Bool.not_true, Bool.false_eq_true, if_false, ne_eq, not_true_eq_false, false_and,
    List.isEmpty_nil, Bool.and_true]
  rfl

/-! ## Resolving a dotted reference into an aliased name -/

theorem find_dot_first (base sub : StringRef) (hdot : '.' ∉ base) :
    StringRef.find_first_of (base ++ '.' :: sub) ['.'] 0 = base.length := by
  unfold StringRef.find_first_of
  have h := findIf_skip (fun c => ['.'].contains c) [] base '.' sub
    (by
      intro x hx
      simp only [List.contains_eq_any_beq, List.any_cons, List.any_nil, Bool.or_false,
        beq_eq_false_iff_ne, ne_eq]
      intro hc
      apply hdot
      rw [← hc]
      exact hx)
    (by decide)
  simpa using h

/-- A reference `$base.sub` whose base name is in the alias table is rejected. -/
theorem ParseOperandName_dotted_alias (L : CGIOperandList) (base sub : StringRef)
    (AllowWholeOp : Bool) (p : Nat × Nat)
    (hlen : base.length + sub.length + 2 < 2 ^ 64) (hdot : '.' ∉ base)
    (halias : L.findSubOperandAlias base = .ok (some p)) :
    L.ParseOperandName ('$' :: (base ++ '.' :: sub)) AllowWholeOp =
      .error (if sub.isEmpty then Error.emptySubOperandName
        else Error.dottedWithinSubOperand) := by
  have hl : (base ++ '.' :: sub).length + 1 < 2 ^ 64 := by
    simp only [List.length_append, List.length_cons]
    omega
  have hne : base.length ≠ npos := by
    unfold npos
    omega
  have hsub : StringRef.substr (base ++ '.' :: sub) (base.length + 1) npos = sub := by
    rw [substr_npos _ _ (by omega)]
    have : base ++ '.' :: sub = (base ++ ['.']) ++ sub := by simp
    rw [this]
    have hlen2 : (base ++ ['.']).length = base.length + 1 := by simp
    rw [← hlen2, List.drop_left]
  have hbase : StringRef.substr (base ++ '.' :: sub) 0 base.length = base := by
    rw [substr_eq, List.drop_zero, List.take_left]
  unfold CGIOperandList.ParseOperandName
  simp only [starts_with_dollar, substr_after_dollar _ hl, find_dot_first base sub hdot,
    sizeAdd_small base.length 1 (by omega), hsub, hbase, halias,
    Bool.not_true, Bool.false_eq_true, if_false, ne_eq, hne, not_false_eq_true, true_and,
    if_true]
  cases sub with
  | nil => simp
  | cons c rest => simp

/-! ## Scanning a tie clause -/

/-! ## Scanning helpers -/

theorem findIf_skip_eq (p : Char → Bool) (s pre mid : List Char) (y : Char) (post : List Char)
    (From : Nat) (hs : s = pre ++ (mid ++ y :: post)) (hF : From = pre.length)
    (hmid : ∀ x ∈ mid, p x = false) (hy : p y = true) :
    StringRef.findIf s p From = From + mid.length := by
  subst hs hF
  exact findIf_skip p pre mid y post hmid hy

theorem find_last_of_at (s pre : List Char) (y : Char) (post : List Char)
    (Chars : List Char) (From : Nat) (hs : s = pre ++ y :: post)
    (hF : From = pre.length + 1) (hy : Chars.contains y = true) :
    StringRef.find_last_of s Chars From = pre.length := by
  subst hs hF
  unfold StringRef.find_last_of
  have hm : min (pre.length + 1) (pre ++ y :: post).length = pre.length + 1 := by
    apply Nat.min_eq_left
    simp only [List.length_append, List.length_cons]
    omega
  have ht : (pre ++ y :: post).take (pre.length + 1) = pre ++ [y] := by
    have e : pre ++ y :: post = (pre ++ [y]) ++ post := by simp
    have e2 : pre.length + 1 = (pre ++ [y]).length := by simp
    rw [e, e2, List.take_left]
  simp only [hm, ht, List.reverse_append, List.reverse_cons, List.reverse_nil,
    List.nil_append, List.singleton_append, List.findIdx_cons, hy, cond_true]
  rw [if_pos (by omega)]
  omega

theorem substr_mid (s pre mid post : List Char) (a n : Nat)
    (hs : s = pre ++ (mid ++ post)) (ha : a = pre.length) (hn : n = mid.length) :
    StringRef.substr s a n = mid := by
  subst hs ha hn
  rw [substr_eq, List.drop_left, List.take_left]

theorem substr_tail (s pre post : List Char) (a : Nat)
    (hs : s = pre ++ post) (ha : a = pre.length) (hlen : s.length < 2 ^ 64) :
    StringRef.substr s a npos = post := by
  rw [substr_npos _ _ hlen]
  subst hs ha
  rw [List.drop_left]

theorem blanks_contains (c : Char) : blanks.contains c = true ↔ (c = ' ' ∨ c = '\t') := by
  simp [blanks]

theorem blanks_contains_false (c : Char) :
    blanks.contains c = false ↔ (c ≠ ' ' ∧ c ≠ '\t') := by
  simp [blanks]

theorem blank_not_in_plain (l : StringRef) (hl : plainName l) :
    ∀ x ∈ '$' :: l, blanks.contains x = false := by
  intro x hx
  simp only [List.mem_cons] at hx
  rcases hx with hx | hx
  · rw [hx]; decide
  · obtain ⟨h1, h2, _⟩ := hl x hx
    exact (blanks_contains_false x).mpr ⟨h1, h2⟩

/-- A prefix of a string that starts with `$` is not the keyword. -/
theorem take_dollar_ne_keyword (n : Nat) (x : List Char) :
    ¬ (List.take n ('$' :: x) = "@earlyclobber".toList) := by
  have e : "@earlyclobber".toList = '@' :: "earlyclobber".toList := rfl
  rw [e]
  cases n with
  | zero => simp
  | succ m =>
    rw [List.take_succ_cons]
    intro hc
    injection hc with hh _
    revert hh
    decide

/-- The tie path of `ParseConstraint`, given what the scanners return on `CStr`. -/
theorem ParseConstraint_tied_of_scan (CStr : StringRef) (Ops : CGIOperandList)
    (wpos start pos wpos1 wpos2 : Nat)
    (hw : CStr.find_first_of blanks 0 = wpos)
    (hs : CStr.find_first_not_of blanks 0 = start)
    (hTok : ¬ (CStr.substr start (sizeSub wpos start) = "@earlyclobber".toList))
    (hpos : CStr.find_first_of ['='] 0 = pos)
    (hp : ¬ (pos = npos)) (hp0 : ¬ (pos = 0))
    (ha : CStr.find_first_of blanks pos = sizeAdd pos 1)
    (hb : CStr.find_last_of blanks pos = sizeSub pos 1)
    (hw1 : CStr.find_first_of blanks start = wpos1)
    (hw1n : ¬ (wpos1 = npos)) (hw1p : ¬ (wpos1 > pos))
    (hw2 : CStr.find_first_not_of blanks (sizeAdd pos 1) = wpos2)
    (hw2n : ¬ (wpos2 = npos)) :
    ParseConstraint CStr Ops =
      match Ops.ParseOperandName (CStr.substr start (sizeSub wpos1 start)) false with
      | .error e => .error e
      | .ok LHSOp =>
        match Ops.ParseOperandName (CStr.substr wpos2 npos) false with
        | .error e => .error e
        | .ok RHSOp => tieOperands LHSOp RHSOp Ops := by
  unfold ParseConstraint
  conv_lhs => zeta
  rw [hw, hs, hpos, if_neg hTok]
  have hc : ¬ (pos = npos ∨ pos = 0 ∨ CStr.find_first_of blanks pos ≠ sizeAdd pos 1 ∨
      CStr.find_last_of blanks pos ≠ sizeSub pos 1) := by
    rw [ha, hb]
    intro h
    rcases h with h | h | h | h
    · exact hp h
    · exact hp0 h
    · exact h rfl
    · exact h rfl
  have hc1 : ¬ (wpos1 = npos ∨ wpos1 > pos) := by
    intro h
    rcases h with h | h
    · exact hw1n h
    · exact hw1p h
  rw [if_neg hc, hw1, if_neg hc1, hw2]
  cases Ops.ParseOperandName (CStr.substr start (sizeSub wpos1 start)) false with
  | error e => rfl
  | ok LHSOp => exact if_neg hw2n

/-- Parsing a tie clause with at least one blank on each side of `=`, whatever the leading
blanks: both names are resolved without `AllowWholeOp`, then the two operands are tied. -/
theorem ParseConstraint_tieClauseWith (Ops : CGIOperandList) (w1 l wsA wsB r : StringRef)
    (hw1 : allBlank w1) (hl : plainName l) (hA : allBlank wsA) (hA0 : wsA ≠ [])
    (hB : allBlank wsB) (hB0 : wsB ≠ [])
    (hlen : (tieClauseWith w1 l wsA wsB r).length + 1 < 2 ^ 64) :
    ParseConstraint (tieClauseWith w1 l wsA wsB r) Ops =
      match Ops.ParseOperandName ('$' :: l) false with
      | .error e => .error e
      | .ok LHSOp =>
        match Ops.ParseOperandName ('$' :: r) false with
        | .error e => .error e
        | .ok RHSOp => tieOperands LHSOp RHSOp Ops := by
  have hL : (tieClauseWith w1 l wsA wsB r).length =
      w1.length + l.length + wsA.length + wsB.length + r.length + 3 := by
    simp only [tieClauseWith, List.length_append, List.length_cons]
    omega
  rw [hL] at hlen
  obtain ⟨a, wsA1, hAc⟩ := List.exists_cons_of_ne_nil hA0
  obtain ⟨b, wsB1, hBc⟩ := List.exists_cons_of_ne_nil hB0
  have hAr : ∃ wsA2 a2, wsA = wsA2 ++ [a2] := by
    rcases List.eq_nil_or_concat wsA with h | ⟨L, x, h⟩
    · exact absurd h hA0
    · exact ⟨L, x, by rw [h, List.concat_eq_append]⟩
  obtain ⟨wsA2, a2, hAr⟩ := hAr
  have ha_blank : blanks.contains a = true :=
    (blanks_contains a).mpr (hA a (by rw [hAc]; exact List.mem_cons_self _ _))
  have ha2_blank : blanks.contains a2 = true :=
    (blanks_contains a2).mpr (hA a2 (by rw [hAr]; simp))
  have hb_blank : blanks.contains b = true :=
    (blanks_contains b).mpr (hB b (by rw [hBc]; exact List.mem_cons_self _ _))
  have hA2len : wsA.length = wsA2.length + 1 := by rw [hAr]; simp
  -- the scanners
  have hstart : StringRef.find_first_not_of (tieClauseWith w1 l wsA wsB r) blanks 0 =
      w1.length := by
    have h := findIf_skip_eq (fun c => !blanks.contains c) (tieClauseWith w1 l wsA wsB r)
      [] w1 '$' (l ++ (wsA ++ '=' :: (wsB ++ '$' :: r))) 0 (by simp [tieClauseWith]) rfl
      (by
        intro x hx
        have := (blanks_contains x).mpr (hw1 x hx)
        show (!blanks.contains x) = false
        rw [this]
        rfl)
      (by decide)
    simpa [StringRef.find_first_not_of] using h
  have hpos : StringRef.find_first_of (tieClauseWith w1 l wsA wsB r) ['='] 0 =
      w1.length + l.length + wsA.length + 1 := by
    have h := findIf_skip_eq (fun c => ['='].contains c) (tieClauseWith w1 l wsA wsB r)
      [] (w1 ++ '$' :: (l ++ wsA)) '=' (wsB ++ '$' :: r) 0
      (by simp [tieClauseWith]) rfl
      (by
        intro x hx
        simp only [List.mem_append, List.mem_cons] at hx
        simp only [List.contains_eq_any_beq, List.any_cons, List.any_nil, Bool.or_false,
          beq_eq_false_iff_ne, ne_eq]
        rcases hx with hx | hx | hx | hx
        · rcases hw1 x hx with h | h <;> rw [h] <;> decide
        · rw [hx]; decide
        · exact (hl x hx).2.2
        · rcases hA x hx with h | h <;> rw [h] <;> decide)
      (by decide)
    simp only [StringRef.find_first_of]
    rw [h]
    simp only [List.length_append, List.length_cons]
    omega
  have hafter : StringRef.find_first_of (tieClauseWith w1 l wsA wsB r) blanks
      (w1.length + l.length + wsA.length + 1) = w1.length + l.length + wsA.length + 2 := by
    have h := findIf_skip_eq (fun c => blanks.contains c) (tieClauseWith w1 l wsA wsB r)
      (w1 ++ '$' :: (l ++ wsA)) ['='] b (wsB1 ++ '$' :: r)
      (w1.length + l.length + wsA.length + 1)
      (by simp [tieClauseWith, hBc])
      (by simp only [List.length_append, List.length_cons]; omega)
      (by decide) hb_blank
    simp only [StringRef.find_first_of]
    rw [h]
    rfl
  have hbefore : StringRef.find_last_of (tieClauseWith w1 l wsA wsB r) blanks
      (w1.length + l.length + wsA.length + 1) = w1.length + l.length + wsA.length := by
    have h := find_last_of_at (tieClauseWith w1 l wsA wsB r) (w1 ++ '$' :: (l ++ wsA2)) a2
      ('=' :: (wsB ++ '$' :: r)) blanks (w1.length + l.length + wsA.length + 1)
      (by simp [tieClauseWith, hAr])
      (by simp only [List.length_append, List.length_cons]; omega)
      ha2_blank
    rw [h]
    simp only [List.length_append, List.length_cons]
    omega
  have hwpos1 : StringRef.find_first_of (tieClauseWith w1 l wsA wsB r) blanks w1.length =
      w1.length + l.length + 1 := by
    have h := findIf_skip_eq (fun c => blanks.contains c) (tieClauseWith w1 l wsA wsB r)
      w1 ('$' :: l) a (wsA1 ++ '=' :: (wsB ++ '$' :: r)) w1.length
      (by simp [tieClauseWith, hAc]) rfl (blank_not_in_plain l hl) ha_blank
    simp only [StringRef.find_first_of]
    rw [h]
    simp only [List.length_cons]
    omega
  have hwpos2 : StringRef.find_first_not_of (tieClauseWith w1 l wsA wsB r) blanks
      (w1.length + l.length + wsA.length + 2) =
      w1.length + l.length + wsA.length + wsB.length + 2 := by
    have h := findIf_skip_eq (fun c => !blanks.contains c) (tieClauseWith w1 l wsA wsB r)
      (w1 ++ '$' :: (l ++ (wsA ++ ['=']))) wsB '$' r
      (w1.length + l.length + wsA.length + 2)
      (by simp [tieClauseWith])
      (by simp only [List.length_append, List.length_cons, List.length_nil]; omega)
      (by
        intro x hx
        have := (blanks_contains x).mpr (hB x hx)
        show (!blanks.contains x) = false
        rw [this]
        rfl)
      (by decide)
    simp only [StringRef.find_first_not_of]
    rw [h]
    omega
  have hlhs : StringRef.substr (tieClauseWith w1 l wsA wsB r) w1.length (l.length + 1) =
      '$' :: l :=
    substr_mid _ w1 ('$' :: l) (wsA ++ '=' :: (wsB ++ '$' :: r)) _ _
      (by simp [tieClauseWith]) rfl (by simp)
  have hrhs : StringRef.substr (tieClauseWith w1 l wsA wsB r)
      (w1.length + l.length + wsA.length + wsB.length + 2) npos = '$' :: r :=
    substr_tail _ (w1 ++ '$' :: (l ++ (wsA ++ '=' :: wsB))) ('$' :: r) _
      (by simp [tieClauseWith])
      (by simp only [List.length_append, List.length_cons]; omega)
      (by rw [hL]; omega)
  have hTok : ¬ (StringRef.substr (tieClauseWith w1 l wsA wsB r) w1.length
      (sizeSub (StringRef.find_first_of (tieClauseWith w1 l wsA wsB r) blanks 0) w1.length) =
      "@earlyclobber".toList) := by
    rw [substr_eq]
    have e : (tieClauseWith w1 l wsA wsB r).drop w1.length =
        '$' :: (l ++ (wsA ++ '=' :: (wsB ++ '$' :: r))) := by
      simp only [tieClauseWith]
      rw [List.drop_left]
    rw [e]
    exact take_dollar_ne_keyword _ _
  have hsa : sizeAdd (w1.length + l.length + wsA.length + 1) 1 =
      w1.length + l.length + wsA.length + 2 := sizeAdd_small _ _ (by omega)
  have hss : sizeSub (w1.length + l.length + wsA.length + 1) 1 =
      w1.length + l.length + wsA.length := sizeSub_small _ _ (by omega) (by omega)
  have hss2 : sizeSub (w1.length + l.length + 1) w1.length = l.length + 1 := by
    rw [sizeSub_small _ _ (by omega) (by omega)]
    omega
  have key := ParseConstraint_tied_of_scan (tieClauseWith w1 l wsA wsB r) Ops
    (StringRef.find_first_of (tieClauseWith w1 l wsA wsB r) blanks 0) w1.length
    (w1.length + l.length + wsA.length + 1) (w1.length + l.length + 1)
    (w1.length + l.length + wsA.length + wsB.length + 2)
    rfl hstart hTok hpos (by unfold npos; omega) (by omega)
    (by rw [hafter, hsa]) (by rw [hbefore, hss]) hwpos1 (by unfold npos; omega) (by omega)
    (by rw [hsa, hwpos2]) (by unfold npos; omega)
  rw [key, hss2, hlhs, hrhs]

theorem tieClause_eq (l r : StringRef) : tieClause l r = tieClauseWith [] l [' '] [' '] r :=
  rfl

/-- Parsing the tie clause `$l = $r`. -/
theorem ParseConstraint_tieClause (Ops : CGIOperandList) (l r : StringRef)
    (hl : plainName l) (hlen : l.length + r.length + 6 < 2 ^ 64) :
    ParseConstraint (tieClause l r) Ops =
      match Ops.ParseOperandName ('$' :: l) false with
      | .error e => .error e
      | .ok LHSOp =>
        match Ops.ParseOperandName ('$' :: r) false with
        | .error e => .error e
        | .ok RHSOp => tieOperands LHSOp RHSOp Ops := by
  rw [tieClause_eq]
  apply ParseConstraint_tieClauseWith Ops [] l [' '] [' '] r
  · intro c hc; simp at hc
  · exact hl
  · intro c hc; simp at hc; exact Or.inl hc
  · simp
  · intro c hc; simp at hc; exact Or.inl hc
  · simp
  · simp only [tieClauseWith, List.length_append, List.length_cons, List.length_nil]
    omega

/-! ## Constraint slots -/

theorem setConstraint_ok {L L' : CGIOperandList} {Op : Nat × Nat} {C : ConstraintInfo}
    (h : L.setConstraint Op C = .ok L') :
    ∃ Opnd, L.OperandList[Op.1]? = some Opnd ∧ Op.2 < Opnd.Constraints.length ∧
      L' = { L with
             OperandList :=
               L.OperandList.set Op.1
                 { Opnd with Constraints := Opnd.Constraints.set Op.2 C } } := by
  unfold CGIOperandList.setConstraint at h
  split at h
  · cases h
  rename_i Opnd hO
  split at h
  · rename_i hlt
    simp only [Except.ok.injEq] at h
    exact ⟨Opnd, by simpa using hO, hlt, h.symm⟩
  · cases h

theorem getConstraint_set_self {L L' : CGIOperandList} {Op : Nat × Nat} {C : ConstraintInfo}
    (h : L.setConstraint Op C = .ok L') : L'.getConstraint Op = .ok C := by
  obtain ⟨Opnd, hO, hlt, hL⟩ := setConstraint_ok h
  have hk : Op.1 < L.OperandList.length := by
    rcases Nat.lt_or_ge Op.1 L.OperandList.length with hk | hk
    · exact hk
    · rw [List.getElem?_eq_none hk] at hO
      cases hO
  subst hL
  unfold CGIOperandList.getConstraint
  simp only [List.get?_eq_getElem?, List.getElem?_set_self hk,
    List.getElem?_set_self hlt]

theorem getConstraint_set_other {L L' : CGIOperandList} {Op Op2 : Nat × Nat}
    {C : ConstraintInfo} (h : L.setConstraint Op C = .ok L') (hne : Op2 ≠ Op) :
    L'.getConstraint Op2 = L.getConstraint Op2 := by
  obtain ⟨Opnd, hO, hlt, hL⟩ := setConstraint_ok h
  subst hL
  unfold CGIOperandList.getConstraint
  simp only [List.get?_eq_getElem?]
  by_cases h1 : Op.1 = Op2.1
  · have h2 : Op.2 ≠ Op2.2 := by
      intro hc
      apply hne
      exact (Prod.ext h1 hc).symm
    have hk : Op.1 < L.OperandList.length := by
      rcases Nat.lt_or_ge Op.1 L.OperandList.length with hk | hk
      · exact hk
      · rw [List.getElem?_eq_none hk] at hO
        cases hO
    rw [← h1, List.getElem?_set_self hk, hO]
    simp only [List.getElem?_set_ne h2]
  · rw [List.getElem?_set_ne h1]

theorem setConstraint_NumDefs {L L' : CGIOperandList} {Op : Nat × Nat} {C : ConstraintInfo}
    (h : L.setConstraint Op C = .ok L') : L'.NumDefs = L.NumDefs := by
  obtain ⟨Opnd, _, _, hL⟩ := setConstraint_ok h
  subst hL
  rfl

/-! ## Tying two resolved operands -/

theorem tieOperands_eq (a b : Nat × Nat) (Ops : CGIOperandList) :
    tieOperands a b Ops = tieOrdered (tieDest a b) (tieSrc a b) Ops := rfl

theorem pairLt_asymm (a b : Nat × Nat) (h : pairLt a b = true) : pairLt b a = false := by
  unfold pairLt at *
  simp only [Bool.or_eq_true, Bool.and_eq_true, decide_eq_true_eq] at h
  simp only [Bool.or_eq_false_iff, Bool.and_eq_false_iff, decide_eq_false_iff_not]
  omega

theorem pairLt_total (a b : Nat × Nat) (h1 : pairLt a b = false) (h2 : pairLt b a = false) :
    a = b := by
  unfold pairLt at *
  simp only [Bool.or_eq_false_iff, Bool.and_eq_false_iff, decide_eq_false_iff_not] at h1 h2
  apply Prod.ext <;> omega

theorem tieDest_comm (a b : Nat × Nat) : tieDest a b = tieDest b a := by
  unfold tieDest
  cases h1 : pairLt a b
  · cases h2 : pairLt b a
    · simp only [Bool.false_eq_true, if_false]
      exact (pairLt_total a b h1 h2).symm
    · simp
  · rw [pairLt_asymm a b h1]
    simp

theorem tieSrc_comm (a b : Nat × Nat) : tieSrc a b = tieSrc b a := by
  unfold tieSrc
  cases h1 : pairLt a b
  · cases h2 : pairLt b a
    · simp only [Bool.false_eq_true, if_false]
      exact pairLt_total a b h1 h2
    · simp
  · rw [pairLt_asymm a b h1]
    simp

theorem tieDest_le_tieSrc (a b : Nat × Nat) : (tieDest a b).1 ≤ (tieSrc a b).1 := by
  unfold tieDest tieSrc
  cases h1 : pairLt a b
  · simp only [Bool.false_eq_true, if_false]
    unfold pairLt at h1
    simp only [Bool.or_eq_false_iff, Bool.and_eq_false_iff, decide_eq_false_iff_not] at h1
    omega
  · simp only [if_true]
    unfold pairLt at h1
    simp only [Bool.or_eq_true, Bool.and_eq_true, decide_eq_true_eq] at h1
    omega

/-- What a successful tie consists of. -/
theorem tieOrdered_ok {D S : Nat × Nat} {Ops Ops' : CGIOperandList}
    (h : tieOrdered D S Ops = .ok Ops') :
    D.1 < Ops.NumDefs ∧ Ops.NumDefs ≤ S.1 ∧ Ops.getConstraint S = .ok ConstraintInfo.None ∧
      ∃ f, Ops.getFlattenedOperandNumber D = .ok f ∧
        checkOperands (ConstraintInfo.Tied f) Ops.OperandList = .ok () ∧
        Ops.setConstraint S (ConstraintInfo.Tied f) = .ok Ops' := by
  unfold tieOrdered at h
  split at h
  · cases h
  rename_i h1
  split at h
  · cases h
  rename_i h2
  split at h
  · cases h
  rename_i C hC
  split at h
  · cases h
  rename_i hN
  split at h
  · cases h
  rename_i f hf
  split at h
  · cases h
  rename_i u hu
  refine ⟨by omega, by omega, ?_, f, hf, ?_, h⟩
  · rw [hC]
    cases C <;> simp [ConstraintInfo.isNone] at hN ⊢
  · rw [hu]

/-! ## Name resolution does not read the constraints -/

theorem findIdx_set_same_name (n : StringRef) :
    ∀ (l : List OperandInfo) (k : Nat) (o o2 : OperandInfo), l[k]? = some o →
      o2.Name = o.Name →
      (l.set k o2).findIdx (fun Opnd => decide (Opnd.Name = n)) =
        l.findIdx (fun Opnd => decide (Opnd.Name = n)) := by
  intro l
  induction l with
  | nil => intro k o o2 h; simp at h
  | cons x rest ih =>
    intro k o o2 h hn
    cases k with
    | zero =>
      simp only [List.getElem?_cons_zero, Option.some.injEq] at h
      subst h
      simp only [List.set_cons_zero, List.findIdx_cons, hn]
    | succ k =>
      simp only [List.getElem?_cons_succ] at h
      simp only [List.set_cons_succ, List.findIdx_cons, ih k o o2 h hn]

theorem SameOperands.refl (L : CGIOperandList) : SameOperands L L :=
  ⟨rfl, rfl, rfl, fun _ => rfl, fun _ => rfl⟩

theorem SameOperands.trans {L1 L2 L3 : CGIOperandList} (h1 : SameOperands L1 L2)
    (h2 : SameOperands L2 L3) : SameOperands L1 L3 :=
  ⟨h2.numDefs.trans h1.numDefs, h2.aliases.trans h1.aliases, h2.length.trans h1.length,
    fun n => (h2.find n).trans (h1.find n), fun k => (h2.get k).trans (h1.get k)⟩

theorem setConstraint_same {L L' : CGIOperandList} {Op : Nat × Nat} {C : ConstraintInfo}
    (h : L.setConstraint Op C = .ok L') : SameOperands L L' := by
  obtain ⟨Opnd, hO, hlt, hL⟩ := setConstraint_ok h
  subst hL
  refine ⟨rfl, rfl, by simp, ?_, ?_⟩
  · intro n
    exact findIdx_set_same_name n _ _ Opnd _ hO rfl
  · intro k
    simp only
    by_cases hk : Op.1 = k
    · subst hk
      have hlt2 : Op.1 < L.OperandList.length := by
        rcases Nat.lt_or_ge Op.1 L.OperandList.length with hk | hk
        · exact hk
        · rw [List.getElem?_eq_none hk] at hO
          cases hO
      rw [List.getElem?_set_self hlt2, hO]
      simp
    · rw [List.getElem?_set_ne hk]

theorem ParseOperandName_same {L L' : CGIOperandList} (h : SameOperands L L')
    (s : StringRef) (A : Bool) : L'.ParseOperandName s A = L.ParseOperandName s A := by
  have hAlias : ∀ n, L'.findSubOperandAlias n = L.findSubOperandAlias n := by
    intro n
    unfold CGIOperandList.findSubOperandAlias
    rw [h.aliases]
  have hNamed : ∀ n, L'.getOperandNamed n = L.getOperandNamed n := by
    intro n
    unfold CGIOperandList.getOperandNamed CGIOperandList.findOperandNamed
    rw [h.find n, h.length]
  unfold CGIOperandList.ParseOperandName
  conv_lhs => zeta
  conv_rhs => zeta
  split
  · rfl
  split
  · rfl
  rw [hAlias]
  split
  · rfl
  · rfl
  rw [hNamed]
  split
  · rfl
  rename_i OpIdx _
  have hg := h.get OpIdx
  simp only [List.get?_eq_getElem?]
  cases hL : L.OperandList[OpIdx]? with
  | none =>
    rw [hL] at hg
    cases hL2 : L'.OperandList[OpIdx]? with
    | none => rfl
    | some o2 => rw [hL2] at hg; simp at hg
  | some o =>
    rw [hL] at hg
    cases hL2 : L'.OperandList[OpIdx]? with
    | none => rw [hL2] at hg; simp at hg
    | some o2 =>
      rw [hL2] at hg
      simp only [Option.map_some', Option.some.injEq, Prod.mk.injEq] at hg
      obtain ⟨e1, e2, _, _⟩ := hg
      simp only [e1, e2]

theorem getFlattenedOperandNumber_same {L L' : CGIOperandList} (h : SameOperands L L')
    (Op : Nat × Nat) :
    L'.getFlattenedOperandNumber Op = L.getFlattenedOperandNumber Op := by
  unfold CGIOperandList.getFlattenedOperandNumber
  have hg := h.get Op.1
  simp only [List.get?_eq_getElem?]
  cases hL : L.OperandList[Op.1]? with
  | none =>
    rw [hL] at hg
    cases hL2 : L'.OperandList[Op.1]? with
    | none => rfl
    | some o2 => rw [hL2] at hg; simp at hg
  | some o =>
    rw [hL] at hg
    cases hL2 : L'.OperandList[Op.1]? with
    | none => rw [hL2] at hg; simp at hg
    | some o2 =>
      rw [hL2] at hg
      simp only [Option.map_some', Option.some.injEq, Prod.mk.injEq] at hg
      obtain ⟨_, _, e3, _⟩ := hg
      simp only [e3]

/-! ## The scan for an earlier tie to the same destination -/

theorem setConstraint_wellSized {L L' : CGIOperandList} {Op : Nat × Nat} {C : ConstraintInfo}
    (h : L.setConstraint Op C = .ok L') (hW : WellSized L) : WellSized L' := by
  obtain ⟨Opnd, hO, _, hL⟩ := setConstraint_ok h
  subst hL
  intro x hx
  simp only at hx
  rcases List.mem_or_eq_of_mem_set hx with hx | hx
  · exact hW x hx
  · subst hx
    simp only [List.length_set]
    exact hW Opnd (List.getElem?_mem hO)

theorem slotConstraint_set_self {L L' : CGIOperandList} {Op : Nat × Nat} {C : ConstraintInfo}
    (h : L.setConstraint Op C = .ok L') (hW : WellSized L) :
    slotConstraint L' Op.1 Op.2 = some C := by
  obtain ⟨Opnd, hO, hlt, hL⟩ := setConstraint_ok h
  have hk : Op.1 < L.OperandList.length := by
    rcases Nat.lt_or_ge Op.1 L.OperandList.length with hk | hk
    · exact hk
    · rw [List.getElem?_eq_none hk] at hO
      cases hO
  have hsz := hW Opnd (List.getElem?_mem hO)
  subst hL
  unfold slotConstraint
  simp only [List.getElem?_set_self hk]
  rw [if_pos (by omega), List.getElem?_set_self hlt]

theorem slotConstraint_set_other {L L' : CGIOperandList} {Op : Nat × Nat}
    {C : ConstraintInfo} (h : L.setConstraint Op C = .ok L') (k i : Nat)
    (hne : ¬ (k = Op.1 ∧ i = Op.2)) :
    slotConstraint L' k i = slotConstraint L k i := by
  obtain ⟨Opnd, hO, hlt, hL⟩ := setConstraint_ok h
  subst hL
  unfold slotConstraint
  simp only
  by_cases h1 : Op.1 = k
  · have h2 : Op.2 ≠ i := by
      intro hc
      exact hne ⟨h1.symm, hc.symm⟩
    have hk : Op.1 < L.OperandList.length := by
      rcases Nat.lt_or_ge Op.1 L.OperandList.length with hk | hk
      · exact hk
      · rw [List.getElem?_eq_none hk] at hO
        cases hO
    rw [← h1, List.getElem?_set_self hk, hO]
    simp only [List.getElem?_set_ne h2]
  · rw [List.getElem?_set_ne h1]

theorem slotConstraint_of_getConstraint {L : CGIOperandList} {Op : Nat × Nat}
    {C C2 : ConstraintInfo} (hg : L.getConstraint Op = .ok C)
    (hs : slotConstraint L Op.1 Op.2 = some C2) : C2 = C := by
  unfold CGIOperandList.getConstraint at hg
  unfold slotConstraint at hs
  simp only [List.get?_eq_getElem?] at hg
  cases hO : L.OperandList[Op.1]? with
  | none => rw [hO] at hs; cases hs
  | some Opnd =>
    rw [hO] at hs hg
    simp only at hs hg
    split at hs
    · rw [hs] at hg
      simp only [Except.ok.injEq] at hg
      exact hg
    · cases hs

/-! ## What a successful clause does -/

/-- A successful `ParseConstraint` is either an early-clobber write to a slot that held
`None`, or a tie of two resolved operands. -/
theorem ParseConstraint_ok_cases {CStr : StringRef} {Ops Ops' : CGIOperandList}
    (h : ParseConstraint CStr Ops = .ok Ops') :
    (∃ Op, Ops.getConstraint Op = .ok ConstraintInfo.None ∧
        Ops.setConstraint Op ConstraintInfo.EarlyClobber = .ok Ops') ∨
      (∃ a b, tieOperands a b Ops = .ok Ops') := by
  unfold ParseConstraint at h
  conv at h => lhs; zeta
  split at h
  · left
    split at h
    · cases h
    split at h
    · cases h
    rename_i Op _
    split at h
    · cases h
    rename_i C hC
    split at h
    · cases h
    rename_i hN
    refine ⟨Op, ?_, h⟩
    rw [hC]
    cases C <;> simp [ConstraintInfo.isNone] at hN ⊢
  · right
    split at h
    · cases h
    split at h
    · cases h
    split at h
    · cases h
    rename_i a _
    split at h
    · cases h
    split at h
    · cases h
    rename_i b _
    exact ⟨a, b, h⟩

/-- The early-clobber path of `ParseConstraint`, given what the scanners return. -/
theorem ParseConstraint_earlyclobber_of_scan (CStr : StringRef) (Ops : CGIOperandList)
    (wpos start wpos1 : Nat)
    (hw : CStr.find_first_of blanks 0 = wpos)
    (hs : CStr.find_first_not_of blanks 0 = start)
    (hTok : CStr.substr start (sizeSub wpos start) = "@earlyclobber".toList)
    (hw1 : (CStr.substr (sizeAdd wpos 1) npos).find_first_not_of blanks 0 = wpos1)
    (hw1n : ¬ (wpos1 = npos)) :
    ParseConstraint CStr Ops =
      match Ops.ParseOperandName ((CStr.substr (sizeAdd wpos 1) npos).substr wpos1 npos)
          false with
      | .error e => .error e
      | .ok Op =>
        match Ops.getConstraint Op with
        | .error e => .error e
        | .ok C =>
          if !C.isNone then .error Error.multipleConstraints
          else Ops.setConstraint Op ConstraintInfo.EarlyClobber := by
  unfold ParseConstraint
  conv_lhs => zeta
  rw [hw, hs, if_pos hTok, hw1, if_neg hw1n]

/-- The format error of the tie path: no `=`, or no blank right before or right after the
first `=`. -/
theorem ParseConstraint_unrecognized_of_scan (CStr : StringRef) (Ops : CGIOperandList)
    (wpos start pos : Nat)
    (hw : CStr.find_first_of blanks 0 = wpos)
    (hs : CStr.find_first_not_of blanks 0 = start)
    (hTok : ¬ (CStr.substr start (sizeSub wpos start) = "@earlyclobber".toList))
    (hpos : CStr.find_first_of ['='] 0 = pos)
    (hbad : pos = npos ∨ pos = 0 ∨ CStr.find_first_of blanks pos ≠ sizeAdd pos 1 ∨
      CStr.find_last_of blanks pos ≠ sizeSub pos 1) :
    ParseConstraint CStr Ops = .error Error.unrecognizedConstraint := by
  unfold ParseConstraint
  conv_lhs => zeta
  rw [hw, hs, hpos, if_neg hTok, if_pos hbad]

theorem earlyClobberClause_length (x : StringRef) :
    (earlyClobberClause x).length = x.length + 15 := by
  have e : "@earlyclobber".toList.length = 13 := rfl
  simp only [earlyClobberClause, List.length_append, List.length_cons, e]
  omega

/-- Parsing the clause `@earlyclobber $x`. -/
theorem ParseConstraint_earlyClobberClause (Ops : CGIOperandList) (x : StringRef)
    (hlen : x.length + 16 < 2 ^ 64) :
    ParseConstraint (earlyClobberClause x) Ops =
      match Ops.ParseOperandName ('$' :: x) false with
      | .error e => .error e
      | .ok Op =>
        match Ops.getConstraint Op with
        | .error e => .error e
        | .ok C =>
          if !C.isNone then .error Error.multipleConstraints
          else Ops.setConstraint Op ConstraintInfo.EarlyClobber := by
  have hkw : "@earlyclobber".toList.length = 13 := rfl
  have hL := earlyClobberClause_length x
  have hwpos : StringRef.find_first_of (earlyClobberClause x) blanks 0 = 13 := by
    have h := findIf_skip_eq (fun c => blanks.contains c) (earlyClobberClause x)
      [] "@earlyclobber".toList ' ' ('$' :: x) 0 rfl rfl (by decide) (by decide)
    simp only [StringRef.find_first_of]
    rw [h, hkw]
  have hstart : StringRef.find_first_not_of (earlyClobberClause x) blanks 0 = 0 := by
    have h := findIf_skip_eq (fun c => !blanks.contains c) (earlyClobberClause x)
      [] [] '@' ("earlyclobber".toList ++ ' ' :: '$' :: x) 0 rfl rfl (by simp) (by decide)
    simp only [StringRef.find_first_not_of]
    rw [h]
    rfl
  have hTok : StringRef.substr (earlyClobberClause x) 0 (sizeSub 13 0) =
      "@earlyclobber".toList := by
    rw [sizeSub_small 13 0 (by omega) (by omega)]
    exact substr_mid _ [] "@earlyclobber".toList (' ' :: '$' :: x) 0 13 rfl rfl rfl
  have hName : StringRef.substr (earlyClobberClause x) (sizeAdd 13 1) npos = '$' :: x := by
    rw [sizeAdd_small 13 1 (by omega)]
    exact substr_tail _ ("@earlyclobber".toList ++ [' ']) ('$' :: x) 14
      (by simp [earlyClobberClause]) rfl (by rw [hL]; omega)
  have hw1 : StringRef.find_first_not_of ('$' :: x) blanks 0 = 0 := by
    have h := findIf_skip_eq (fun c => !blanks.contains c) ('$' :: x)
      [] [] '$' x 0 rfl rfl (by simp) (by decide)
    simp only [StringRef.find_first_not_of]
    rw [h]
    rfl
  have key := ParseConstraint_earlyclobber_of_scan (earlyClobberClause x) Ops 13 0 0
    hwpos hstart hTok (by rw [hName, hw1]) (by unfold npos; omega)
  rw [key, hName, substr_npos _ _ (by simp only [List.length_cons]; omega)]
  rfl

theorem find_last_of_none (s : List Char) (Chars : List Char) (From : Nat)
    (h : ∀ x ∈ s.take (min From s.length), Chars.contains x = false) :
    StringRef.find_last_of s Chars From = npos := by
  unfold StringRef.find_last_of
  have hk : ((s.take (min From s.length)).reverse).findIdx (fun c => Chars.contains c) =
      ((s.take (min From s.length)).reverse).length :=
    findIdx_none _ _ (fun x hx => h x (List.mem_reverse.mp hx))
  simp only [hk, List.length_reverse, List.length_take]
  rw [if_neg (by omega)]

/-- When the two characters at `From` fail the test, the scan does not stop at `From + 1`. -/
theorem findIf_not_next (p : Char → Bool) (s pre : List Char) (y1 y2 : Char)
    (post : List Char) (From : Nat) (hs : s = pre ++ y1 :: y2 :: post)
    (hF : From = pre.length) (h1 : p y1 = false) (h2 : p y2 = false)
    (hlen : s.length + 1 < 2 ^ 64) :
    StringRef.findIf s p From ≠ From + 1 := by
  subst hs hF
  unfold StringRef.findIf
  simp only [List.length_append, List.length_cons] at hlen ⊢
  rw [Nat.min_eq_left (by omega), List.drop_left]
  simp only [List.findIdx_cons, h1, h2, cond_false]
  split
  · omega
  · unfold npos
    omega

/-- A clause `$l=...` without blank before the `=` is a format error. -/
theorem ParseConstraint_no_blank_before (Ops : CGIOperandList) (l wsB r : StringRef)
    (hl : plainName l) (hlen : l.length + wsB.length + r.length + 4 < 2 ^ 64) :
    ParseConstraint (tieClauseWith [] l [] wsB r) Ops = .error Error.unrecognizedConstraint := by
  have hs : tieClauseWith [] l [] wsB r = '$' :: (l ++ '=' :: (wsB ++ '$' :: r)) := rfl
  have hstart : StringRef.find_first_not_of (tieClauseWith [] l [] wsB r) blanks 0 = 0 := by
    have h := findIf_skip_eq (fun c => !blanks.contains c) (tieClauseWith [] l [] wsB r)
      [] [] '$' (l ++ '=' :: (wsB ++ '$' :: r)) 0 rfl rfl (by simp) (by decide)
    simp only [StringRef.find_first_not_of]
    rw [h]
    rfl
  have hpos : StringRef.find_first_of (tieClauseWith [] l [] wsB r) ['='] 0 = l.length + 1 := by
    have h := findIf_skip_eq (fun c => ['='].contains c) (tieClauseWith [] l [] wsB r)
      [] ('$' :: l) '=' (wsB ++ '$' :: r) 0 rfl rfl
      (by
        intro x hx
        simp only [List.mem_cons] at hx
        simp only [List.contains_eq_any_beq, List.any_cons, List.any_nil, Bool.or_false,
          beq_eq_false_iff_ne, ne_eq]
        rcases hx with hx | hx
        · rw [hx]; decide
        · exact (hl x hx).2.2)
      (by decide)
    simp only [StringRef.find_first_of]
    rw [h]
    simp only [List.length_cons]
    omega
  have hTok : ¬ (StringRef.substr (tieClauseWith [] l [] wsB r) 0
      (sizeSub (StringRef.find_first_of (tieClauseWith [] l [] wsB r) blanks 0) 0) =
      "@earlyclobber".toList) := by
    rw [substr_eq, List.drop_zero, hs]
    exact take_dollar_ne_keyword _ _
  have hlast : StringRef.find_last_of (tieClauseWith [] l [] wsB r) blanks (l.length + 1) =
      npos := by
    apply find_last_of_none
    intro x hx
    have e : (tieClauseWith [] l [] wsB r).take
        (min (l.length + 1) (tieClauseWith [] l [] wsB r).length) = '$' :: l := by
      rw [Nat.min_eq_left (by rw [hs]; simp only [List.length_cons, List.length_append]; omega)]
      have e1 : tieClauseWith [] l [] wsB r = ('$' :: l) ++ ('=' :: (wsB ++ '$' :: r)) := rfl
      have e2 : l.length + 1 = ('$' :: l).length := rfl
      rw [e1, e2, List.take_left]
    rw [e] at hx
    exact blank_not_in_plain l hl x hx
  apply ParseConstraint_unrecognized_of_scan _ Ops _ 0 (l.length + 1) rfl hstart hTok hpos
  right; right; right
  rw [hlast, sizeSub_small _ _ (by omega) (by omega)]
  unfold npos
  omega

/-- A clause `$l ... =$r` without blank after the `=` is a format error. -/
theorem ParseConstraint_no_blank_after (Ops : CGIOperandList) (l wsA r : StringRef)
    (hl : plainName l) (hA : allBlank wsA)
    (hlen : l.length + wsA.length + r.length + 4 < 2 ^ 64) :
    ParseConstraint (tieClauseWith [] l wsA [] r) Ops = .error Error.unrecognizedConstraint := by
  have hs : tieClauseWith [] l wsA [] r = '$' :: (l ++ (wsA ++ '=' :: '$' :: r)) := rfl
  have hL : (tieClauseWith [] l wsA [] r).length = l.length + wsA.length + r.length + 3 := by
    rw [hs]
    simp only [List.length_cons, List.length_append]
    omega
  have hstart : StringRef.find_first_not_of (tieClauseWith [] l wsA [] r) blanks 0 = 0 := by
    have h := findIf_skip_eq (fun c => !blanks.contains c) (tieClauseWith [] l wsA [] r)
      [] [] '$' (l ++ (wsA ++ '=' :: '$' :: r)) 0 rfl rfl (by simp) (by decide)
    simp only [StringRef.find_first_not_of]
    rw [h]
    rfl
  have hpos : StringRef.find_first_of (tieClauseWith [] l wsA [] r) ['='] 0 =
      l.length + wsA.length + 1 := by
    have h := findIf_skip_eq (fun c => ['='].contains c) (tieClauseWith [] l wsA [] r)
      [] ('$' :: (l ++ wsA)) '=' ('$' :: r) 0 (by simp [tieClauseWith]) rfl
      (by
        intro x hx
        simp only [List.mem_cons, List.mem_append] at hx
        simp only [List.contains_eq_any_beq, List.any_cons, List.any_nil, Bool.or_false,
          beq_eq_false_iff_ne, ne_eq]
        rcases hx with hx | hx | hx
        · rw [hx]; decide
        · exact (hl x hx).2.2
        · rcases hA x hx with h | h <;> rw [h] <;> decide)
      (by decide)
    simp only [StringRef.find_first_of]
    rw [h]
    simp only [List.length_cons, List.length_append]
    omega
  have hTok : ¬ (StringRef.substr (tieClauseWith [] l wsA [] r) 0
      (sizeSub (StringRef.find_first_of (tieClauseWith [] l wsA [] r) blanks 0) 0) =
      "@earlyclobber".toList) := by
    rw [substr_eq, List.drop_zero, hs]
    exact take_dollar_ne_keyword _ _
  have hnext : StringRef.find_first_of (tieClauseWith [] l wsA [] r) blanks
      (l.length + wsA.length + 1) ≠ l.length + wsA.length + 1 + 1 := by
    simp only [StringRef.find_first_of]
    exact findIf_not_next (fun c => blanks.contains c) _ ('$' :: (l ++ wsA)) '=' '$' r _
      (by simp [tieClauseWith])
      (by simp only [List.length_cons, List.length_append])
      (by decide) (by decide) (by rw [hL]; omega)
  apply ParseConstraint_unrecognized_of_scan _ Ops _ 0 (l.length + wsA.length + 1) rfl hstart
    hTok hpos
  right; right; left
  rw [sizeAdd_small _ _ (by omega)]
  exact hnext

/-! ## Tokens -/

theorem delims_contains (c : Char) : " ,\t".toList.contains c = true ↔ isDelimiter c := by
  have e : " ,\t".toList = [' ', ',', '\t'] := rfl
  rw [e]
  simp [isDelimiter]

theorem delims_contains_false (c : Char) :
    " ,\t".toList.contains c = false ↔ ¬ isDelimiter c := by
  rw [← delims_contains]
  simp

theorem slice_eq (s : StringRef) (a b : Nat) (ha : a ≤ b) (hb : b ≤ s.length) :
    s.slice a b = (s.drop a).take (b - a) := by
  unfold StringRef.slice
  have e1 : min a s.length = a := Nat.min_eq_left (by omega)
  have e2 : max b a = b := Nat.max_eq_left ha
  have e3 : min b s.length = b := Nat.min_eq_left hb
  simp only [e1, e2, e3]

/-- A non-empty token leaves a strictly shorter rest. -/
theorem getToken_rest_shorter (Source Delimiters : StringRef)
    (h : (getToken Source Delimiters).1 ≠ []) :
    (getToken Source Delimiters).2.length < Source.length := by
  unfold getToken at h ⊢
  simp only at h ⊢
  generalize Source.find_first_not_of Delimiters 0 = Start at h ⊢
  generalize Source.find_first_of Delimiters Start = End at h ⊢
  unfold StringRef.slice at h
  simp only at h
  rw [substr_eq]
  have hpos : 0 < min (max End (min Start Source.length)) Source.length -
      min Start Source.length := by
    rcases Nat.eq_zero_or_pos (min (max End (min Start Source.length)) Source.length -
      min Start Source.length) with h0 | h0
    · rw [h0] at h
      simp at h
    · exact h0
  have hE : 1 ≤ End := by omega
  have hS : 1 ≤ Source.length := by omega
  have : ((Source.drop End).take npos).length ≤ Source.length - End := by
    rw [List.length_take, List.length_drop]
    omega
  omega

/-- The number of iterations allowed does not matter once it exceeds the length. -/
theorem ProcessDisableEncodingLoop_fuel :
    ∀ (n m : Nat) (s : StringRef) (L : CGIOperandList), s.length < n → s.length < m →
      ProcessDisableEncodingLoop n s L = ProcessDisableEncodingLoop m s L := by
  intro n
  induction n with
  | zero => intro m s L h; omega
  | succ n ih =>
    intro m s L hn hm
    cases m with
    | zero => omega
    | succ m =>
      simp only [ProcessDisableEncodingLoop]
      split
      · rfl
      rename_i hne
      have hne2 : (getToken s " ,\t".toList).1 ≠ [] := by
        intro hc
        apply hne
        rw [hc]
        rfl
      have hlt := getToken_rest_shorter s " ,\t".toList hne2
      split
      · rfl
      split
      · rfl
      exact ih m _ _ (by omega) (by omega)

/-- The token at the head of a list: it ends at the first delimiter or at the end. -/
theorem getToken_head (tok rest : StringRef) (htok : tok ≠ [])
    (hnd : ∀ c ∈ tok, ¬ isDelimiter c)
    (hrest : rest = [] ∨ ∃ d rest1, rest = d :: rest1 ∧ isDelimiter d)
    (hlen : tok.length + rest.length + 1 < 2 ^ 64) :
    getToken (tok ++ rest) " ,\t".toList = (tok, rest) := by
  obtain ⟨t, tok1, ht⟩ := List.exists_cons_of_ne_nil htok
  have hstart : StringRef.find_first_not_of (tok ++ rest) " ,\t".toList 0 = 0 := by
    have h := findIf_skip_eq (fun c => !" ,\t".toList.contains c) (tok ++ rest) [] [] t
      (tok1 ++ rest) 0 (by rw [ht]; rfl) rfl (by simp)
      (by
        have := (delims_contains_false t).mpr (hnd t (by rw [ht]; exact List.mem_cons_self _ _))
        show (!" ,\t".toList.contains t) = true
        rw [this]
        rfl)
    simp only [StringRef.find_first_not_of]
    rw [h]
    rfl
  unfold getToken
  simp only
  rw [hstart]
  rcases hrest with hr | ⟨d, rest1, hr, hd⟩
  · subst hr
    have hend : StringRef.find_first_of (tok ++ []) " ,\t".toList 0 = npos := by
      simp only [StringRef.find_first_of]
      apply findIf_none
      intro x hx
      simp only [List.append_nil] at hx
      exact (delims_contains_false x).mpr (hnd x hx)
    rw [hend]
    simp only [List.append_nil] at hlen ⊢
    have h1 : StringRef.slice tok 0 npos = tok := by
      unfold StringRef.slice
      simp only [Nat.zero_min, Nat.sub_zero, List.drop_zero, Nat.max_zero]
      rw [Nat.min_eq_right (by unfold npos; simp only [List.length_nil] at hlen; omega)]
      exact List.take_length tok
    have h2 : StringRef.substr tok npos npos = [] := by
      rw [substr_eq, List.drop_of_length_le
        (by unfold npos; simp only [List.length_nil] at hlen; omega)]
      rfl
    rw [h1, h2]
  · subst hr
    have hend : StringRef.find_first_of (tok ++ d :: rest1) " ,\t".toList 0 = tok.length := by
      have h := findIf_skip_eq (fun c => " ,\t".toList.contains c) (tok ++ d :: rest1) [] tok d
        rest1 0 rfl rfl
        (fun x hx => (delims_contains_false x).mpr (hnd x hx))
        ((delims_contains d).mpr hd)
      simp only [StringRef.find_first_of]
      rw [h]
      omega
    rw [hend]
    have h1 : StringRef.slice (tok ++ d :: rest1) 0 tok.length = tok := by
      rw [slice_eq _ _ _ (Nat.zero_le _) (by simp)]
      simp
    have h2 : StringRef.substr (tok ++ d :: rest1) tok.length npos = d :: rest1 :=
      substr_tail _ tok (d :: rest1) _ rfl rfl
        (by simp only [List.length_append, List.length_cons] at hlen ⊢; omega)
    rw [h1, h2]

/-- One token of the list: it is resolved without `AllowWholeOp`, the bit of the resolved
slot is set, and the rest of the list is processed on the result. -/
theorem ProcessDisableEncoding_step (L : CGIOperandList) (tok rest : StringRef)
    (htok : tok ≠ []) (hnd : ∀ c ∈ tok, ¬ isDelimiter c)
    (hrest : rest = [] ∨ ∃ d rest1, rest = d :: rest1 ∧ isDelimiter d)
    (hlen : tok.length + rest.length + 1 < 2 ^ 64) :
    L.ProcessDisableEncoding (tok ++ rest) =
      match L.ParseOperandName tok false with
      | .error e => .error e
      | .ok Op =>
        match L.setDoNotEncode Op with
        | .error e => .error e
        | .ok L1 => L1.ProcessDisableEncoding rest := by
  unfold CGIOperandList.ProcessDisableEncoding
  simp only [ProcessDisableEncodingLoop, getToken_head tok rest htok hnd hrest hlen]
  have hne : ¬ (tok.isEmpty = true) := by
    intro hc
    apply htok
    exact List.isEmpty_iff.mp hc
  rw [if_neg hne]
  split
  · rfl
  split
  · rfl
  have hpos : 0 < tok.length := List.length_pos.mpr htok
  exact ProcessDisableEncodingLoop_fuel (tok ++ rest).length (rest.length + 1) rest _
    (by simp only [List.length_append]; omega) (by omega)

theorem setDoNotEncode_ok {L L1 : CGIOperandList} {Op : Nat × Nat}
    (h : L.setDoNotEncode Op = .ok L1) :
    doNotEncodeBit L1 Op.1 Op.2 = some true ∧
      ∀ k i, ¬ (k = Op.1 ∧ i = Op.2) → doNotEncodeBit L1 k i = doNotEncodeBit L k i := by
  unfold CGIOperandList.setDoNotEncode at h
  split at h
  · cases h
  rename_i Opnd hO
  split at h
  · rename_i hlt
    simp only [Except.ok.injEq] at h
    subst h
    simp only [List.get?_eq_getElem?] at hO
    have hk : Op.1 < L.OperandList.length := by
      rcases Nat.lt_or_ge Op.1 L.OperandList.length with hk | hk
      · exact hk
      · rw [List.getElem?_eq_none hk] at hO
        cases hO
    constructor
    · unfold doNotEncodeBit
      simp only [List.getElem?_set_self hk, List.getElem?_set_self hlt]
    · intro k i hne
      unfold doNotEncodeBit
      simp only
      by_cases h1 : Op.1 = k
      · have h2 : Op.2 ≠ i := fun hc => hne ⟨h1.symm, hc.symm⟩
        rw [← h1, List.getElem?_set_self hk, hO]
        simp only [List.getElem?_set_ne h2]
      · rw [List.getElem?_set_ne h1]
  · cases h

/-! ## A property of every operand built by the loop -/

theorem argLoop_forall2 (P : Init × StringRef → OperandInfo → Prop)
    (hP : ∀ (N i : Nat) (a : Init) (n : StringRef) (st st' : BuildState) (op : OperandInfo),
      processArg N i a n st = .ok st' → a.isVariableOps = false →
      st'.OperandList = st.OperandList ++ [op] → P (a, n) op)
    (NumDefs : Nat) :
    ∀ (args : List (Init × StringRef)) (i : Nat) (st st' : BuildState),
      argLoop NumDefs args i st = .ok st' →
      ∃ ops, st'.OperandList = st.OperandList ++ ops ∧
        List.Forall₂ P (operandArgs args) ops := by
  intro args
  induction args with
  | nil =>
    intro i st st' h
    simp only [argLoop, Except.ok.injEq] at h
    subst h
    exact ⟨[], by simp, List.Forall₂.nil⟩
  | cons a rest ih =>
    intro i st st' h
    obtain ⟨ai, an⟩ := a
    simp only [argLoop] at h
    split at h
    · cases h
    rename_i st1 hp
    obtain ⟨ops, ho, hf⟩ := ih _ _ _ h
    rcases processArg_spec hp with ⟨hv, hl, _, _, _⟩ | ⟨hv, hadd⟩
    · refine ⟨ops, by rw [ho, hl], ?_⟩
      simp only [operandArgs, hv, if_true]
      exact hf
    · obtain ⟨op, ho1, _⟩ := hadd.op
      refine ⟨op :: ops, by rw [ho, ho1]; simp, ?_⟩
      simp only [operandArgs, hv]
      exact List.Forall₂.cons (hP _ _ _ _ _ _ op hp hv ho1) hf

theorem addOperand_encoder {i : Nat} {Rec : Record} {n PM EM OT ON : StringRef}
    {NumOps : Nat} {M : Option MIOperandInfoDag} {st st' : BuildState} {op : OperandInfo}
    (h : addOperand i none Rec n PM EM OT ON NumOps M st = .ok st')
    (hop : st'.OperandList = st.OperandList ++ [op]) (hEM : EM ≠ []) :
    op.EncoderMethodNames = [(0, EM)] ∧
      op.DoNotEncode = (List.replicate op.MINumOperands true).set 0 false := by
  unfold addOperand at h
  split at h
  · cases h
  split at h
  · cases h
  simp only [Except.ok.injEq] at h
  subst h
  simp only at hop
  have hne : (!EM.isEmpty) = true := by
    cases EM with
    | nil => exact absurd rfl hEM
    | cons c r => rfl
  rw [if_pos hne] at hop
  have := List.append_cancel_left hop
  simp only [List.cons.injEq, and_true] at this
  subst this
  simp [OperandInfo.create, natMapAssign]

theorem processArg_encoder (N i : Nat) (a : Init) (n : StringRef) (st st' : BuildState)
    (op : OperandInfo) (h : processArg N i a n st = .ok st') (_hv : a.isVariableOps = false)
    (hop : st'.OperandList = st.OperandList ++ [op]) : EncoderOverride (a, n) op := by
  intro Rec ha hcls hEM
  simp only at ha
  subst ha
  unfold processArg at h
  simp only [Init.argRecord, Init.subArgDag] at h
  split at h
  · exact addOperand_encoder h hop hEM
  rename_i h1
  split at h
  · split at h
    · cases h
    have hop2 : st'.OperandList =
        (if Rec.isSubClassOf "PredicateOp".toList = true then
          ({ st with isPredicable := true } : BuildState)
        else if Rec.isSubClassOf "OptionalDefOperand".toList = true then
          { st with hasOptionalDef := true }
        else st).OperandList ++ [op] := by
      rw [hop]
      split <;> [rfl; (split <;> rfl)]
    exact addOperand_encoder h hop2 hEM
  rename_i h2
  rcases hcls with hc | hc
  · exact absurd hc h1
  · exact absurd hc h2

/-! ## The scan for the start of a variant group -/

theorem variantsStartLoop_skip (s : StringRef) (k j : Nat) (hj : j < s.length)
    (h : s[j]? = some '{' → escapedAt s j) :
    variantsStartLoop s (k + 1) j = variantsStartLoop s k (j + 1) := by
  simp only [variantsStartLoop, List.get?_eq_getElem?, List.getElem?_eq_getElem hj]
  by_cases hc : s[j] = '{'
  · have he := h (by rw [List.getElem?_eq_getElem hj, hc])
    obtain ⟨h0, h1⟩ := he
    rw [if_pos hc, if_neg (by omega)]
    rcases h1 with h1 | h1
    · rw [h1]
      simp
    · rw [h1]
      simp
  · rw [if_neg hc]

theorem variantsStartLoop_stop (s : StringRef) (k j : Nat) (hc : s[j]? = some '{')
    (h : j = 0 ∨ ∃ p, s[j - 1]? = some p ∧ p ≠ '$' ∧ p ≠ '\\') :
    variantsStartLoop s (k + 1) j = .ok j := by
  simp only [variantsStartLoop, List.get?_eq_getElem?, hc, if_true]
  rcases h with h | ⟨p, hp, h1, h2⟩
  · rw [if_pos h]
  · by_cases h0 : j = 0
    · rw [if_pos h0]
    · rw [if_neg h0, hp]
      simp only
      rw [if_pos ⟨h1, h2⟩]

/-- Without an unescaped `{` from index `j` on, the scan runs to the end. -/
theorem variantsStartLoop_end (s : StringRef) :
    ∀ (k j : Nat), j + k = s.length → (∀ i, j ≤ i → s[i]? = some '{' → escapedAt s i) →
      variantsStartLoop s k j = .ok s.length := by
  intro k
  induction k with
  | zero =>
    intro j hj _
    simp only [variantsStartLoop]
    rw [← hj]
    rfl
  | succ k ih =>
    intro j hj h
    rw [variantsStartLoop_skip s k j (by omega) (h j (le_refl j))]
    exact ih (j + 1) (by omega) (fun i hi => h i (by omega))

/-- The scan stops at the first unescaped `{`, at index `m`. -/
theorem variantsStartLoop_find (s : StringRef) (m : Nat) (hm : s[m]? = some '{')
    (hstop : m = 0 ∨ ∃ p, s[m - 1]? = some p ∧ p ≠ '$' ∧ p ≠ '\\') :
    ∀ (d j k : Nat), j + d = m → j + k = s.length →
      (∀ i, j ≤ i → i < m → s[i]? = some '{' → escapedAt s i) →
      variantsStartLoop s k j = .ok m := by
  have hlt : m < s.length := by
    rcases Nat.lt_or_ge m s.length with h | h
    · exact h
    · rw [List.getElem?_eq_none h] at hm
      cases hm
  intro d
  induction d with
  | zero =>
    intro j k hj hk _
    have : j = m := by omega
    subst this
    obtain ⟨k1, hk1⟩ : ∃ k1, k = k1 + 1 := ⟨k - 1, by omega⟩
    rw [hk1]
    exact variantsStartLoop_stop s k1 j hm hstop
  | succ d ih =>
    intro j k hj hk h
    obtain ⟨k1, hk1⟩ : ∃ k1, k = k1 + 1 := ⟨k - 1, by omega⟩
    rw [hk1, variantsStartLoop_skip s k1 j (by omega) (h j (le_refl j) (by omega))]
    exact ih (j + 1) k1 (by omega) (by omega) (fun i hi him => h i (by omega) him)

theorem slice_zero_length (s : StringRef) : s.slice 0 s.length = s := by
  rw [slice_eq s 0 s.length (Nat.zero_le _) (le_refl _)]
  simp

/-! ## The scan for the end of a variant group -/

theorem variantsEndLoop_skip (s : StringRef) (k j nb : Nat) (c : Char) (hc : s[j]? = some c)
    (h1 : c ≠ '}') (h2 : c ≠ '{') :
    variantsEndLoop s (k + 1) j nb = variantsEndLoop s k (j + 1) nb := by
  simp only [variantsEndLoop, List.get?_eq_getElem?, hc]
  rw [if_neg h1, if_neg h2]

theorem variantsEndLoop_stop (s : StringRef) (k j : Nat) (p : Char)
    (hc : s[j]? = some '}') (h0 : 0 < j) (hp : s[j - 1]? = some p) (h1 : p ≠ '\\') :
    variantsEndLoop s (k + 1) j 1 = .ok j := by
  simp only [variantsEndLoop, List.get?_eq_getElem?, hc, if_true, hp]
  rw [if_neg (by omega), if_pos h1]

/-- The scan stops at the first `}` when no brace stands before it and it is not
escaped. -/
theorem variantsEndLoop_find (s : StringRef) (m : Nat) (p : Char) (hm : s[m]? = some '}')
    (h0 : 0 < m) (hp : s[m - 1]? = some p) (hne : p ≠ '\\') :
    ∀ (d j k : Nat), j + d = m → j + k = s.length →
      (∀ i, j ≤ i → i < m → ∃ c, s[i]? = some c ∧ c ≠ '}' ∧ c ≠ '{') →
      variantsEndLoop s k j 1 = .ok m := by
  have hlt : m < s.length := by
    rcases Nat.lt_or_ge m s.length with h | h
    · exact h
    · rw [List.getElem?_eq_none h] at hm
      cases hm
  intro d
  induction d with
  | zero =>
    intro j k hj hk _
    have : j = m := by omega
    subst this
    obtain ⟨k1, hk1⟩ : ∃ k1, k = k1 + 1 := ⟨k - 1, by omega⟩
    rw [hk1]
    exact variantsEndLoop_stop s k1 j p hm h0 hp hne
  | succ d ih =>
    intro j k hj hk h
    obtain ⟨k1, hk1⟩ : ∃ k1, k = k1 + 1 := ⟨k - 1, by omega⟩
    obtain ⟨c, hc, c1, c2⟩ := h j (le_refl j) (by omega)
    rw [hk1, variantsEndLoop_skip s k1 j 1 c hc c1 c2]
    exact ih (j + 1) k1 (by omega) (by omega) (fun i hi him => h i (by omega) him)

/-- The scan never returns an index beyond the end. -/
theorem variantsEndLoop_le (s : StringRef) :
    ∀ (k j nb v : Nat), variantsEndLoop s k j nb = .ok v → v ≤ j + k := by
  intro k
  induction k with
  | zero =>
    intro j nb v h
    simp only [variantsEndLoop, Except.ok.injEq] at h
    omega
  | succ k ih =>
    intro j nb v h
    simp only [variantsEndLoop] at h
    split at h
    · cases h
    split at h
    · split at h
      · cases h
      split at h
      · cases h
      split at h
      · split at h
        · simp only [Except.ok.injEq] at h
          omega
        · have := ih _ _ _ h
          omega
      · have := ih _ _ _ h
        omega
    · split at h
      · have := ih _ _ _ h
        omega
      · have := ih _ _ _ h
        omega

theorem variantsStartLoop_le (s : StringRef) :
    ∀ (k j v : Nat), variantsStartLoop s k j = .ok v → v ≤ j + k := by
  intro k
  induction k with
  | zero =>
    intro j v h
    simp only [variantsStartLoop, Except.ok.injEq] at h
    omega
  | succ k ih =>
    intro j v h
    simp only [variantsStartLoop] at h
    split at h
    · cases h
    split at h
    · split at h
      · simp only [Except.ok.injEq] at h
        omega
      · split at h
        · cases h
        split at h
        · simp only [Except.ok.injEq] at h
          omega
        · have := ih _ _ h
          omega
    · have := ih _ _ h
      omega

/-! ## The bound on the iterations of the flattener -/

theorem flattenLoop_fuel :
    ∀ (f : Nat) (Cur : StringRef) (V : Nat) (Res : StringRef), Cur.length < f →
      flattenLoop f Cur V Res = prependRes Res (flattenLoop (Cur.length + 1) Cur V []) := by
  intro f
  induction f using Nat.strong_induction_on with
  | _ f ih =>
    intro Cur V Res hf
    obtain ⟨f1, hf1⟩ : ∃ f1, f = f1 + 1 := ⟨f - 1, by omega⟩
    subst hf1
    simp only [flattenLoop]
    cases hs : variantsStartLoop Cur Cur.length 0 with
    | error e => rfl
    | ok VS =>
      simp only
      by_cases hVS : VS = Cur.length
      · rw [if_pos hVS, if_pos hVS]
        simp [prependRes]
      · rw [if_neg hVS, if_neg hVS]
        cases he : variantsEndLoop Cur (Cur.length - (VS + 1)) (VS + 1) 1 with
        | error e => rfl
        | ok VE =>
          simp only
          by_cases hVE : VE = Cur.length
          · rw [if_pos hVE, if_pos hVE]
            rfl
          · rw [if_neg hVE, if_neg hVE]
            have hle := variantsEndLoop_le Cur _ _ _ _ he
            have hsl := variantsStartLoop_le Cur _ _ _ hs
            have hlen : (Cur.substr (VE + 1) npos).length < Cur.length := by
              rw [substr_eq, List.length_take, List.length_drop]
              omega
            rw [ih f1 (by omega) _ V _ (by omega), ih Cur.length (by omega) _ V _ hlen]
            cases flattenLoop ((Cur.substr (VE + 1) npos).length + 1)
                (Cur.substr (VE + 1) npos) V [] with
            | error e => rfl
            | ok r => simp [prependRes]

/-! ## Selecting an alternative -/

theorem split_none (a : StringRef) (sep : Char) (h : ∀ c ∈ a, c ≠ sep) :
    a.split sep = (a, []) := by
  unfold StringRef.split
  have hf : StringRef.findIf a (fun c => c == sep) 0 = npos := by
    apply findIf_none
    intro x hx
    simp only [beq_eq_false_iff_ne, ne_eq]
    exact h x hx
  simp only [hf, if_true]

theorem split_first (a t : StringRef) (sep : Char) (h : ∀ c ∈ a, c ≠ sep)
    (hlen : a.length + t.length + 2 < 2 ^ 64) :
    (a ++ sep :: t).split sep = (a, t) := by
  unfold StringRef.split
  have hf : StringRef.findIf (a ++ sep :: t) (fun c => c == sep) 0 = a.length := by
    have h1 := findIf_skip_eq (fun c => c == sep) (a ++ sep :: t) [] a sep t 0 rfl rfl
      (by
        intro x hx
        simp only [beq_eq_false_iff_ne, ne_eq]
        exact h x hx)
      (by simp)
    rw [h1]
    omega
  have hne : ¬ (a.length = npos) := by
    unfold npos
    omega
  simp only [hf, hne, if_false]
  have h1 : StringRef.slice (a ++ sep :: t) 0 a.length = a := by
    rw [slice_eq _ _ _ (Nat.zero_le _) (by simp)]
    simp
  have h2 : StringRef.slice (a ++ sep :: t) (sizeAdd a.length 1) npos = t := by
    rw [sizeAdd_small _ _ (by omega)]
    unfold StringRef.slice
    have e1 : min (a.length + 1) (a ++ sep :: t).length = a.length + 1 := by
      apply Nat.min_eq_left
      simp only [List.length_append, List.length_cons]
      omega
    have e2 : max npos (a.length + 1) = npos := by
      apply Nat.max_eq_left
      unfold npos
      omega
    have e3 : min npos (a ++ sep :: t).length = (a ++ sep :: t).length := by
      apply Nat.min_eq_right
      simp only [List.length_append, List.length_cons]
      unfold npos
      omega
    simp only [e1, e2, e3]
    have e4 : a ++ sep :: t = (a ++ [sep]) ++ t := by simp
    have e5 : a.length + 1 = (a ++ [sep]).length := by simp
    rw [e4, e5, List.drop_left]
    apply List.take_of_length_le
    simp only [List.length_append, List.length_cons, List.length_nil]
    omega
  rw [h1, h2]

/-- The variant selected from the joined alternatives is the `n`-th alternative, or the
empty string when there is none. -/
theorem select_joinAlts :
    ∀ (A : List StringRef) (n : Nat), (∀ a ∈ A, plainAlt a) →
      (joinAlts A).length + 2 < 2 ^ 64 →
      ((skipVariants n (joinAlts A)).split '|').1 = A.getD n [] := by
  have hempty : ∀ n, skipVariants n [] = [] := by
    intro n
    induction n with
    | zero => rfl
    | succ n ih =>
      simp only [skipVariants]
      rw [split_none [] '|' (by simp)]
      exact ih
  intro A
  induction A with
  | nil =>
    intro n _ _
    simp only [joinAlts, hempty]
    rw [split_none [] '|' (by simp)]
    simp
  | cons a tail ih =>
    intro n hA hlen
    have ha : ∀ c ∈ a, c ≠ '|' := fun c hc => (hA a (List.mem_cons_self _ _) c hc).2.2.1
    cases tail with
    | nil =>
      simp only [joinAlts]
      cases n with
      | zero =>
        simp only [skipVariants]
        rw [split_none a '|' ha]
        rfl
      | succ n =>
        simp only [skipVariants]
        rw [split_none a '|' ha]
        simp only [hempty]
        rw [split_none [] '|' (by simp)]
        simp
    | cons b rest =>
      simp only [joinAlts] at hlen ⊢
      simp only [List.length_append, List.length_cons] at hlen
      cases n with
      | zero =>
        simp only [skipVariants]
        rw [split_first a _ '|' ha (by omega)]
        rfl
      | succ n =>
        simp only [skipVariants]
        rw [split_first a _ '|' ha (by omega)]
        simp only
        rw [ih n (fun x hx => hA x (List.mem_cons_of_mem _ hx)) (by omega)]
        rfl

theorem joinAlts_plain :
    ∀ (A : List StringRef), (∀ a ∈ A, plainAlt a) →
      ∀ c ∈ joinAlts A, c ≠ '{' ∧ c ≠ '}' ∧ c ≠ '\\' := by
  intro A
  induction A with
  | nil => intro _ c hc; simp [joinAlts] at hc
  | cons a tail ih =>
    intro hA c hc
    have ha := hA a (List.mem_cons_self _ _)
    cases tail with
    | nil =>
      simp only [joinAlts] at hc
      exact ⟨(ha c hc).1, (ha c hc).2.1, (ha c hc).2.2.2⟩
    | cons b rest =>
      simp only [joinAlts, List.mem_append, List.mem_cons] at hc
      rcases hc with hc | hc | hc
      · exact ⟨(ha c hc).1, (ha c hc).2.1, (ha c hc).2.2.2⟩
      · rw [hc]
        decide
      · exact ih (fun x hx => hA x (List.mem_cons_of_mem _ hx)) c hc

/-! ## One variant group -/

theorem group_getElem_before (P T : StringRef) (i : Nat) (hi : i < P.length) :
    (P ++ T)[i]? = P[i]? := List.getElem?_append_left hi

theorem group_getElem_inner (P J T : StringRef) (c : Char) (i : Nat) (hi1 : P.length + 1 ≤ i)
    (hi2 : i < P.length + 1 + J.length) :
    (P ++ c :: (J ++ T))[i]? = J[i - (P.length + 1)]? := by
  have e : P ++ c :: (J ++ T) = (P ++ [c]) ++ (J ++ T) := by simp
  rw [e, List.getElem?_append_right (by simp; omega)]
  simp only [List.length_append, List.length_cons, List.length_nil]
  rw [List.getElem?_append_left (by omega)]

theorem group_getElem_open (P T : StringRef) (c : Char) : (P ++ c :: T)[P.length]? = some c := by
  rw [List.getElem?_append_right (le_refl _)]
  simp

theorem group_getElem_close (P J T : StringRef) (c d : Char) :
    (P ++ c :: (J ++ d :: T))[P.length + 1 + J.length]? = some d := by
  have e : P ++ c :: (J ++ d :: T) = (P ++ c :: J) ++ d :: T := by simp
  have e2 : P.length + 1 + J.length = (P ++ c :: J).length := by
    simp only [List.length_append, List.length_cons]
    omega
  rw [e, e2]
  exact group_getElem_open _ _ _

/-- One iteration of the flattener on `P{J}S`, where `P` holds no `{` and does not end in
`$` or a backslash and `J` holds no brace and no backslash. -/
theorem flatten_one_group (P J S : StringRef) (n : Nat) (hP : ∀ c ∈ P, c ≠ '{')
    (hPend : ∀ P1 p, P = P1 ++ [p] → p ≠ '$' ∧ p ≠ '\\')
    (hJ : ∀ c ∈ J, c ≠ '{' ∧ c ≠ '}' ∧ c ≠ '\\')
    (hlen : P.length + J.length + S.length + 3 < 2 ^ 64) :
    FlattenAsmStringVariants (P ++ '{' :: (J ++ '}' :: S)) n =
      prependRes (P ++ ((skipVariants n J).split '|').1) (FlattenAsmStringVariants S n) := by
  have hL : (P ++ '{' :: (J ++ '}' :: S)).length = P.length + J.length + S.length + 2 := by
    simp only [List.length_append, List.length_cons]
    omega
  -- the start of the group
  have hstart : variantsStartLoop (P ++ '{' :: (J ++ '}' :: S))
      (P ++ '{' :: (J ++ '}' :: S)).length 0 = .ok P.length := by
    apply variantsStartLoop_find _ P.length (group_getElem_open _ _ _) _ P.length 0 _
      (by omega) (by omega)
    · intro i _ hi hc
      rw [group_getElem_before _ _ _ hi] at hc
      exact absurd rfl (hP '{' (List.getElem?_mem hc))
    · rcases List.eq_nil_or_concat P with h | ⟨P1, p, h⟩
      · left
        rw [h]
        rfl
      · right
        rw [List.concat_eq_append] at h
        refine ⟨p, ?_, hPend P1 p h⟩
        have hlen1 : P.length - 1 = P1.length := by rw [h]; simp
        rw [group_getElem_before _ _ _ (by rw [h]; simp), hlen1, h]
        simp
  -- the end of the group
  have hprev : ∃ p, (P ++ '{' :: (J ++ '}' :: S))[P.length + 1 + J.length - 1]? = some p ∧
      p ≠ '\\' := by
    rcases Nat.eq_zero_or_pos J.length with h0 | h0
    · have hJ0 : J = [] := List.length_eq_zero.mp h0
      subst hJ0
      refine ⟨'{', ?_, by decide⟩
      simp only [List.length_nil, Nat.add_zero, Nat.add_sub_cancel]
      exact group_getElem_open _ _ _
    · have hi : J.length - 1 < J.length := by omega
      refine ⟨J[J.length - 1], ?_, (hJ _ (List.getElem_mem hi)).2.2⟩
      rw [group_getElem_inner P J ('}' :: S) '{' _ (by omega) (by omega)]
      have : P.length + 1 + J.length - 1 - (P.length + 1) = J.length - 1 := by omega
      rw [this]
      exact List.getElem?_eq_getElem hi
  obtain ⟨p, hp, hpne⟩ := hprev
  have hend : variantsEndLoop (P ++ '{' :: (J ++ '}' :: S))
      ((P ++ '{' :: (J ++ '}' :: S)).length - (P.length + 1)) (P.length + 1) 1 =
      .ok (P.length + 1 + J.length) := by
    apply variantsEndLoop_find _ (P.length + 1 + J.length) p (group_getElem_close _ _ _ _ _)
      (by omega) hp hpne J.length (P.length + 1) _ (by omega) (by omega)
    intro i hi1 hi2
    have hlt : i - (P.length + 1) < J.length := by omega
    refine ⟨J[i - (P.length + 1)], ?_, ?_, ?_⟩
    · rw [group_getElem_inner P J ('}' :: S) '{' i hi1 hi2]
      exact List.getElem?_eq_getElem hlt
    · exact (hJ _ (List.getElem_mem hlt)).2.1
    · exact (hJ _ (List.getElem_mem hlt)).1
  have hsl : StringRef.slice (P ++ '{' :: (J ++ '}' :: S)) 0 P.length = P := by
    rw [slice_eq _ _ _ (Nat.zero_le _) (by rw [hL]; omega)]
    simp
  have hsel : StringRef.substr (P ++ '{' :: (J ++ '}' :: S)) (P.length + 1)
      (P.length + 1 + J.length - (P.length + 1)) = J :=
    substr_mid _ (P ++ ['{']) J ('}' :: S) _ _ (by simp) (by simp) (by omega)
  have hrest : StringRef.substr (P ++ '{' :: (J ++ '}' :: S)) (P.length + 1 + J.length + 1)
      npos = S :=
    substr_tail _ (P ++ '{' :: (J ++ ['}'])) S _ (by simp)
      (by simp only [List.length_append, List.length_cons, List.length_nil]; omega)
      (by rw [hL]; omega)
  unfold FlattenAsmStringVariants
  simp only [flattenLoop, hstart]
  rw [if_neg (by rw [hL]; omega)]
  simp only [hend]
  rw [if_neg (by rw [hL]; omega), hsl, hsel, hrest, List.nil_append]
  exact flattenLoop_fuel _ S n _ (by rw [hL]; omega)

/-! ## The order of flattened numbers -/

theorem construct_tiled {R : InstrRecord} {L : CGIOperandList}
    (h : CGIOperandList.construct R = .ok L) : Tiled 0 L.OperandList := by
  obtain ⟨st, hst, _, hL, _⟩ := construct_ok h
  have ht := (argLoop_tiled _ _ _ _ _ hst trivial rfl).1
  rw [← hL] at ht
  exact ht

/-- In a tiled list every operand starts at or after its base. -/
theorem Tiled_base_le :
    ∀ (l : List OperandInfo) (b k : Nat) (p : OperandInfo), Tiled b l → l[k]? = some p →
      b ≤ p.MIOperandNo := by
  intro l
  induction l with
  | nil => intro b k p _ h; simp at h
  | cons x rest ih =>
    intro b k p ht hp
    obtain ⟨ha, _, hc⟩ := ht
    cases k with
    | zero =>
      simp only [List.getElem?_cons_zero, Option.some.injEq] at hp
      subst hp
      omega
    | succ k =>
      simp only [List.getElem?_cons_succ] at hp
      have := ih _ k p hc hp
      omega

/-- In a tiled list a later operand starts where an earlier one has ended, or after. -/
theorem Tiled_lt :
    ∀ (l : List OperandInfo) (b i j : Nat) (p q : OperandInfo), Tiled b l →
      l[i]? = some p → l[j]? = some q → i < j →
      p.MIOperandNo + p.MINumOperands ≤ q.MIOperandNo := by
  intro l
  induction l with
  | nil => intro b i j p q _ h; simp at h
  | cons x rest ih =>
    intro b i j p q ht hp hq hij
    obtain ⟨ha, _, hc⟩ := ht
    cases j with
    | zero => omega
    | succ j =>
      simp only [List.getElem?_cons_succ] at hq
      cases i with
      | zero =>
        simp only [List.getElem?_cons_zero, Option.some.injEq] at hp
        subst hp
        have := Tiled_base_le _ _ j q hc hq
        omega
      | succ i =>
        simp only [List.getElem?_cons_succ] at hp
        exact ih _ i j p q hc hp hq (by omega)

/-! ## What a constraint write leaves alone -/

theorem setConstraint_frame {L L' : CGIOperandList} {Op : Nat × Nat} {C : ConstraintInfo}
    (h : L.setConstraint Op C = .ok L') :
    L'.OperandList.map operandFrame = L.OperandList.map operandFrame ∧
      L'.SubOpAliases = L.SubOpAliases := by
  obtain ⟨Opnd, hO, _, hL⟩ := setConstraint_ok h
  subst hL
  refine ⟨?_, rfl⟩
  simp only
  apply List.ext_getElem?
  intro k
  rw [List.getElem?_map, List.getElem?_map]
  by_cases hk : Op.1 = k
  · subst hk
    have hlt : Op.1 < L.OperandList.length := by
      rcases Nat.lt_or_ge Op.1 L.OperandList.length with hk | hk
      · exact hk
      · rw [List.getElem?_eq_none hk] at hO
        cases hO
    rw [List.getElem?_set_self hlt, hO]
    rfl
  · rw [List.getElem?_set_ne hk]

/-- A successful `ParseConstraint` is one write of a constraint other than `None` to a
slot that held `None`. -/
theorem ParseConstraint_one_write {CStr : StringRef} {Ops Ops' : CGIOperandList}
    (h : ParseConstraint CStr Ops = .ok Ops') :
    ∃ (Op : Nat × Nat) (C : ConstraintInfo),
      (C = ConstraintInfo.EarlyClobber ∨ ∃ f, C = ConstraintInfo.Tied f) ∧
        Ops.getConstraint Op = .ok ConstraintInfo.None ∧ Ops.setConstraint Op C = .ok Ops' := by
  rcases ParseConstraint_ok_cases h with ⟨Op, hg, hs⟩ | ⟨a, b, ht⟩
  · exact ⟨Op, _, Or.inl rfl, hg, hs⟩
  · rw [tieOperands_eq] at ht
    obtain ⟨_, _, hg, f, _, _, hs⟩ := tieOrdered_ok ht
    exact ⟨_, _, Or.inr ⟨f, rfl⟩, hg, hs⟩

/-! ## The pieces of a constraint list -/

theorem findIf_none_from (p : Char → Bool) (pre suf : List Char)
    (hs : ∀ x ∈ suf, p x = false) :
    StringRef.findIf (pre ++ suf) p pre.length = npos := by
  unfold StringRef.findIf
  simp only [List.length_append]
  rw [Nat.min_eq_left (by omega), List.drop_left, findIdx_none p suf hs, if_neg (by omega)]

/-- Every string is a run of commas, or a run of commas, a non-empty comma-free piece and
a rest that is empty or starts with a comma. -/
theorem comma_decompose :
    ∀ suf : StringRef, (∀ c ∈ suf, c = ',') ∨
      ∃ commas piece rest : StringRef, suf = commas ++ (piece ++ rest) ∧
        (∀ c ∈ commas, c = ',') ∧ piece ≠ [] ∧ (∀ c ∈ piece, c ≠ ',') ∧
        (rest = [] ∨ ∃ r, rest = ',' :: r) := by
  intro suf
  induction suf with
  | nil => left; simp
  | cons c t ih =>
    by_cases hc : c = ','
    · rcases ih with hall | ⟨commas, piece, rest, ht, h1, h2, h3, h4⟩
      · left
        intro x hx
        simp only [List.mem_cons] at hx
        rcases hx with hx | hx
        · rw [hx, hc]
        · exact hall x hx
      · right
        refine ⟨c :: commas, piece, rest, by rw [ht]; rfl, ?_, h2, h3, h4⟩
        intro x hx
        simp only [List.mem_cons] at hx
        rcases hx with hx | hx
        · rw [hx, hc]
        · exact h1 x hx
    · right
      have hsingle : ∀ x ∈ [c], x ≠ ',' := by
        intro x hx
        simp only [List.mem_singleton] at hx
        rw [hx]
        exact hc
      rcases ih with hall | ⟨commas, piece, rest, ht, h1, h2, h3, h4⟩
      · cases t with
        | nil => exact ⟨[], [c], [], rfl, by simp, by simp, hsingle, Or.inl rfl⟩
        | cons y r =>
          have hy : y = ',' := hall y (List.mem_cons_self _ _)
          subst hy
          exact ⟨[], [c], ',' :: r, rfl, by simp, by simp, hsingle, Or.inr ⟨r, rfl⟩⟩
      · cases commas with
        | nil =>
          refine ⟨[], c :: piece, rest, by rw [ht]; rfl, by simp, by simp, ?_, h4⟩
          intro x hx
          simp only [List.mem_cons] at hx
          rcases hx with hx | hx
          · rw [hx]; exact hc
          · exact h3 x hx
        | cons y cs =>
          have hy : y = ',' := h1 y (List.mem_cons_self _ _)
          subst hy
          exact ⟨[], [c], t, rfl, by simp, by simp, hsingle, Or.inr ⟨_, ht⟩⟩

theorem commaPieces_nil : commaPieces [] = [] := rfl

theorem commaPieces_comma (r : StringRef) : commaPieces (',' :: r) = commaPieces r := by
  unfold commaPieces
  rw [List.splitOnP_cons]
  simp

theorem commaPieces_commas :
    ∀ (commas r : StringRef), (∀ c ∈ commas, c = ',') →
      commaPieces (commas ++ r) = commaPieces r := by
  intro commas
  induction commas with
  | nil => intro r _; rfl
  | cons c cs ih =>
    intro r h
    have hc : c = ',' := h c (List.mem_cons_self _ _)
    subst hc
    rw [List.cons_append, commaPieces_comma]
    exact ih r (fun x hx => h x (List.mem_cons_of_mem _ hx))

theorem commaPieces_piece (piece rest : StringRef) (h2 : piece ≠ [])
    (h3 : ∀ c ∈ piece, c ≠ ',') (h4 : rest = [] ∨ ∃ r, rest = ',' :: r) :
    commaPieces (piece ++ rest) = piece :: commaPieces rest := by
  have hp : ∀ x ∈ piece, ¬ ((fun c : Char => c == ',') x = true) := by
    intro x hx
    simp only [beq_iff_eq]
    exact h3 x hx
  have hne : (!piece.isEmpty) = true := by
    cases piece with
    | nil => exact absurd rfl h2
    | cons _ _ => rfl
  rcases h4 with h4 | ⟨r, h4⟩
  · subst h4
    rw [List.append_nil, commaPieces_nil]
    unfold commaPieces
    rw [List.splitOnP_eq_single (fun c : Char => c == ',') piece hp]
    simp only [List.filter_cons, hne, if_true, List.filter_nil]
  · subst h4
    rw [commaPieces_comma]
    unfold commaPieces
    rw [List.splitOnP_first (fun c : Char => c == ',') piece hp ',' (by simp)]
    simp only [List.filter_cons, hne, if_true]

theorem splitOnP_append_sep (p : Char → Bool) (sep : Char) (hsep : p sep = true) :
    ∀ (s1 s2 : List Char),
      (s1 ++ sep :: s2).splitOnP p = s1.splitOnP p ++ s2.splitOnP p := by
  intro s1
  induction s1 with
  | nil =>
    intro s2
    rw [List.nil_append, List.splitOnP_cons, if_pos hsep, List.splitOnP_nil]
    rfl
  | cons x t ih =>
    intro s2
    rw [List.cons_append, List.splitOnP_cons, List.splitOnP_cons, ih s2]
    by_cases hx : p x = true
    · rw [if_pos hx, if_pos hx]
      rfl
    · rw [if_neg hx, if_neg hx]
      cases h : List.splitOnP p t with
      | nil => exact absurd h (List.splitOnP_ne_nil _ _)
      | cons a b => rfl

theorem commaPieces_append (s1 s2 : StringRef) :
    commaPieces (s1 ++ ',' :: s2) = commaPieces s1 ++ commaPieces s2 := by
  unfold commaPieces
  rw [splitOnP_append_sep _ ',' (by simp), List.filter_append]

theorem commaPieces_replicate (n : Nat) : commaPieces (List.replicate n ',') = [] := by
  have h := commaPieces_commas (List.replicate n ',') []
    (fun c hc => (List.mem_replicate.mp hc).2)
  rw [List.append_nil] at h
  rw [h, commaPieces_nil]

theorem parseAll_append :
    ∀ (a b : List StringRef) (Ops : CGIOperandList),
      parseAll (a ++ b) Ops = (parseAll a Ops >>= parseAll b) := by
  intro a
  induction a with
  | nil => intro b Ops; rfl
  | cons c rest ih =>
    intro b Ops
    simp only [List.cons_append, parseAll]
    cases h : ParseConstraint c Ops with
    | error e => rfl
    | ok Ops1 => exact ih b Ops1

/-! ## The loop of `ParseConstraints` -/

theorem ParseConstraintsLoop_done (fuel : Nat) (s : StringRef) (Ops : CGIOperandList) :
    ParseConstraintsLoop (fuel + 1) s npos Ops = .ok Ops := by
  rw [ParseConstraintsLoop, if_pos rfl]

theorem ParseConstraintsLoop_step (fuel : Nat) (s : StringRef) (bidx eidx : Nat)
    (piece : StringRef) (Ops : CGIOperandList) (hb : bidx ≠ npos)
    (he : (if s.find_first_of [','] bidx = npos then s.length
      else s.find_first_of [','] bidx) = eidx)
    (hp : s.substr bidx (sizeSub eidx bidx) = piece) :
    ParseConstraintsLoop (fuel + 1) s bidx Ops =
      match ParseConstraint piece Ops with
      | .error e => .error e
      | .ok Ops1 => ParseConstraintsLoop fuel s (s.find_first_not_of [','] eidx) Ops1 := by
  subst he
  subst hp
  rw [ParseConstraintsLoop, if_neg hb]

theorem not_comma_false (c : Char) (hc : c = ',') :
    (fun x : Char => !([','].contains x)) c = false := by
  subst hc
  rfl

theorem not_comma_true (c : Char) (hc : c ≠ ',') :
    (fun x : Char => !([','].contains x)) c = true := by
  simp only [List.contains_eq_any_beq, List.any_cons, List.any_nil, Bool.or_false,
    Bool.not_eq_true', beq_eq_false_iff_ne, ne_eq]
  exact hc

theorem is_comma_false (c : Char) (hc : c ≠ ',') :
    (fun x : Char => [','].contains x) c = false := by
  simp only [List.contains_eq_any_beq, List.any_cons, List.any_nil, Bool.or_false,
    beq_eq_false_iff_ne, ne_eq]
  exact hc

/-- From a position at the start of the suffix `suf`, the loop parses the pieces of `suf`
in order. -/
theorem ParseConstraintsLoop_pieces :
    ∀ (n : Nat) (pre suf : StringRef) (Ops : CGIOperandList) (fuel : Nat),
      suf.length ≤ n → suf.length < fuel → (pre ++ suf).length < 2 ^ 64 →
      ParseConstraintsLoop fuel (pre ++ suf)
        (StringRef.find_first_not_of (pre ++ suf) [','] pre.length) Ops =
        parseAll (commaPieces suf) Ops := by
  intro n
  induction n with
  | zero =>
    intro pre suf Ops fuel hn hf _
    have hs : suf = [] := List.length_eq_zero.mp (by omega)
    subst hs
    obtain ⟨f, rfl⟩ : ∃ f, fuel = f + 1 := ⟨fuel - 1, by simp at hf; omega⟩
    unfold StringRef.find_first_not_of
    rw [findIf_none_from _ pre [] (by simp), ParseConstraintsLoop_done, commaPieces_nil]
    rfl
  | succ n ih =>
    intro pre suf Ops fuel hn hf hlen
    obtain ⟨f, rfl⟩ : ∃ f, fuel = f + 1 := ⟨fuel - 1, by omega⟩
    rcases comma_decompose suf with hall | ⟨commas, piece, rest, hs, h1, h2, h3, h4⟩
    · unfold StringRef.find_first_not_of
      rw [findIf_none_from _ pre suf (fun x hx => not_comma_false x (hall x hx)),
        ParseConstraintsLoop_done]
      have hc := commaPieces_commas suf [] hall
      rw [List.append_nil] at hc
      rw [hc, commaPieces_nil]
      rfl
    · obtain ⟨y, pt, rfl⟩ : ∃ y pt, piece = y :: pt := by
        cases piece with
        | nil => exact absurd rfl h2
        | cons y pt => exact ⟨y, pt, rfl⟩
      have hy : y ≠ ',' := h3 y (List.mem_cons_self _ _)
      have hsl : suf.length = commas.length + ((y :: pt).length + rest.length) := by
        rw [hs]
        simp only [List.length_append]
      simp only [List.length_append, List.length_cons] at hlen hsl
      have hb : StringRef.find_first_not_of (pre ++ suf) [','] pre.length =
          pre.length + commas.length := by
        unfold StringRef.find_first_not_of
        exact findIf_skip_eq _ (pre ++ suf) pre commas y (pt ++ rest) pre.length
          (by rw [hs]; simp) rfl (fun x hx => not_comma_false x (h1 x hx))
          (not_comma_true y hy)
      have hsplit : pre ++ suf = (pre ++ commas) ++ ((y :: pt) ++ rest) := by
        rw [hs]
        simp
      have he : (if StringRef.find_first_of (pre ++ suf) [','] (pre.length + commas.length)
            = npos then (pre ++ suf).length
          else StringRef.find_first_of (pre ++ suf) [','] (pre.length + commas.length)) =
          pre.length + commas.length + (pt.length + 1) := by
        rcases h4 with h4 | ⟨r, h4⟩
        · subst h4
          have hnone : StringRef.find_first_of (pre ++ suf) [','] (pre.length + commas.length)
              = npos := by
            unfold StringRef.find_first_of
            have := findIf_none_from (fun c => [','].contains c) (pre ++ commas) (y :: pt)
              (fun x hx => is_comma_false x (h3 x hx))
            rw [List.length_append] at this
            rw [hsplit, List.append_nil]
            exact this
          rw [if_pos hnone, hs]
          simp only [List.length_append, List.length_cons, List.length_nil]
          omega
        · subst h4
          have hfound : StringRef.find_first_of (pre ++ suf) [','] (pre.length + commas.length)
              = pre.length + commas.length + (pt.length + 1) := by
            unfold StringRef.find_first_of
            exact findIf_skip_eq _ (pre ++ suf) (pre ++ commas) (y :: pt) ',' r
              (pre.length + commas.length) hsplit (by simp) (fun x hx => is_comma_false x (h3 x hx))
              rfl
          rw [hfound, if_neg]
          unfold npos
          simp only [List.length_cons] at hlen hsl
          omega
      have hp : StringRef.substr (pre ++ suf) (pre.length + commas.length)
          (sizeSub (pre.length + commas.length + (pt.length + 1)) (pre.length + commas.length)) =
          y :: pt := by
        rw [sizeSub_small _ _ (by omega) (by omega)]
        exact substr_mid (pre ++ suf) (pre ++ commas) (y :: pt) rest _ _ hsplit (by simp)
          (by simp)
      rw [hb, ParseConstraintsLoop_step f (pre ++ suf) _ _ (y :: pt) Ops
        (by unfold npos; omega) he hp]
      have hc : commaPieces suf = (y :: pt) :: commaPieces rest := by
        rw [hs, commaPieces_commas commas _ h1, commaPieces_piece _ _ h2 h3 h4]
      rw [hc]
      simp only [parseAll]
      cases hpc : ParseConstraint (y :: pt) Ops with
      | error e => rfl
      | ok Ops1 =>
        simp only
        have hsplit2 : pre ++ suf = (pre ++ commas ++ (y :: pt)) ++ rest := by
          rw [hs]
          simp
        have hl2 : (pre ++ commas ++ (y :: pt)).length =
            pre.length + commas.length + (pt.length + 1) := by
          simp only [List.length_append, List.length_cons]
        have := ih (pre ++ commas ++ (y :: pt)) rest Ops1 f (by omega) (by omega)
          (by rw [← hsplit2]; simp only [List.length_append]; omega)
        rw [← hsplit2, hl2] at this
        exact this

theorem ParseConstraints_eq_parseAll (s : StringRef) (Ops : CGIOperandList)
    (hlen : s.length < 2 ^ 64) : ParseConstraints s Ops = parseAll (commaPieces s) Ops := by
  unfold ParseConstraints
  cases s with
  | nil => rfl
  | cons c t =>
    rw [if_neg (by simp)]
    exact ParseConstraintsLoop_pieces (c :: t).length [] (c :: t) Ops _ (le_refl _)
      (by omega) hlen

/-! ## The flattener reads inside the string and ends -/

theorem variantsStartLoop_ok (s : StringRef) :
    ∀ (k j : Nat), j + k ≤ s.length → ∃ v, variantsStartLoop s k j = .ok v := by
  intro k
  induction k with
  | zero => intro j _; exact ⟨j, rfl⟩
  | succ k ih =>
    intro j hj
    have hlt : j < s.length := by omega
    simp only [variantsStartLoop, List.get?_eq_getElem?, List.getElem?_eq_getElem hlt]
    by_cases hc : s[j] = '{'
    · rw [if_pos hc]
      by_cases h0 : j = 0
      · rw [if_pos h0]
        exact ⟨j, rfl⟩
      · rw [if_neg h0, List.getElem?_eq_getElem (by omega : j - 1 < s.length)]
        simp only
        by_cases hp : s[j - 1] ≠ '$' ∧ s[j - 1] ≠ '\\'
        · rw [if_pos hp]
          exact ⟨j, rfl⟩
        · rw [if_neg hp]
          exact ih (j + 1) (by omega)
    · rw [if_neg hc]
      exact ih (j + 1) (by omega)

theorem variantsEndLoop_ok (s : StringRef) :
    ∀ (k j nb : Nat), 0 < j → j + k ≤ s.length → ∃ v, variantsEndLoop s k j nb = .ok v := by
  intro k
  induction k with
  | zero => intro j nb _ _; exact ⟨j, rfl⟩
  | succ k ih =>
    intro j nb h0 hj
    have hlt : j < s.length := by omega
    simp only [variantsEndLoop, List.get?_eq_getElem?, List.getElem?_eq_getElem hlt]
    by_cases hc : s[j] = '}'
    · rw [if_pos hc, if_neg (by omega), List.getElem?_eq_getElem (by omega : j - 1 < s.length)]
      simp only
      by_cases hp : s[j - 1] ≠ '\\'
      · rw [if_pos hp]
        by_cases hn : nb - 1 = 0
        · rw [if_pos hn]
          exact ⟨j, rfl⟩
        · rw [if_neg hn]
          exact ih (j + 1) _ (by omega) (by omega)
      · rw [if_neg hp]
        exact ih (j + 1) _ (by omega) (by omega)
    · rw [if_neg hc]
      by_cases hb : s[j] = '{'
      · rw [if_pos hb]
        exact ih (j + 1) _ (by omega) (by omega)
      · rw [if_neg hb]
        exact ih (j + 1) _ (by omega) (by omega)

/-- The scan for the end never returns an index before its start. -/
theorem variantsEndLoop_ge (s : StringRef) :
    ∀ (k j nb v : Nat), variantsEndLoop s k j nb = .ok v → j ≤ v := by
  intro k
  induction k with
  | zero =>
    intro j nb v h
    simp only [variantsEndLoop, Except.ok.injEq] at h
    omega
  | succ k ih =>
    intro j nb v h
    simp only [variantsEndLoop] at h
    split at h
    · cases h
    split at h
    · split at h
      · cases h
      split at h
      · cases h
      split at h
      · split at h
        · simp only [Except.ok.injEq] at h
          omega
        · have := ih _ _ _ h
          omega
      · have := ih _ _ _ h
        omega
    · split at h
      · have := ih _ _ _ h
        omega
      · have := ih _ _ _ h
        omega

/-- With enough iterations the flattener returns a string or stops at its assertion: it
neither runs out of iterations nor reads outside the string. -/
theorem flattenLoop_total :
    ∀ (f : Nat) (Cur : StringRef) (V : Nat) (Res : StringRef), Cur.length < f →
      (∃ r, flattenLoop f Cur V Res = .ok r) ∨
        flattenLoop f Cur V Res = .error Error.assertion := by
  intro f
  induction f with
  | zero => intro Cur V Res hf; omega
  | succ f ih =>
    intro Cur V Res hf
    simp only [flattenLoop]
    obtain ⟨VS, hs⟩ := variantsStartLoop_ok Cur Cur.length 0 (by omega)
    rw [hs]
    simp only
    by_cases hVS : VS = Cur.length
    · rw [if_pos hVS]
      exact Or.inl ⟨_, rfl⟩
    · rw [if_neg hVS]
      have hsl := variantsStartLoop_le Cur _ _ _ hs
      obtain ⟨VE, he⟩ := variantsEndLoop_ok Cur (Cur.length - (VS + 1)) (VS + 1) 1 (by omega)
        (by omega)
      rw [he]
      simp only
      by_cases hVE : VE = Cur.length
      · rw [if_pos hVE]
        exact Or.inr rfl
      · rw [if_neg hVE]
        have hle := variantsEndLoop_le Cur _ _ _ _ he
        apply ih
        rw [substr_eq, List.length_take, List.length_drop]
        omega

/-! ## The scan for the end of a group over balanced text -/

theorem getElem_at (A : StringRef) (c : Char) (Z : StringRef) (i : Nat) (hi : i = A.length) :
    (A ++ c :: Z)[i]? = some c := by
  subst hi
  exact group_getElem_open A Z c

theorem variantsEndLoop_open (s : StringRef) (k j nb : Nat) (hc : s[j]? = some '{') :
    variantsEndLoop s (k + 1) j nb = variantsEndLoop s k (j + 1) (nb + 1) := by
  simp only [variantsEndLoop, List.get?_eq_getElem?, hc]
  rw [if_neg (by decide), if_pos trivial]

theorem variantsEndLoop_escaped (s : StringRef) (k j nb : Nat) (hc : s[j]? = some '}')
    (h0 : 0 < j) (hp : s[j - 1]? = some '\\') :
    variantsEndLoop s (k + 1) j nb = variantsEndLoop s k (j + 1) nb := by
  simp only [variantsEndLoop, List.get?_eq_getElem?, hc, if_true, hp]
  rw [if_neg (by omega), if_neg (by simp)]

theorem variantsEndLoop_close (s : StringRef) (k j nb : Nat) (p : Char)
    (hc : s[j]? = some '}') (h0 : 0 < j) (hp : s[j - 1]? = some p) (h1 : p ≠ '\\')
    (hn : nb - 1 ≠ 0) :
    variantsEndLoop s (k + 1) j nb = variantsEndLoop s k (j + 1) (nb - 1) := by
  simp only [variantsEndLoop, List.get?_eq_getElem?, hc, if_true, hp]
  rw [if_neg (by omega), if_pos h1, if_neg hn]

/-- Over balanced text the scan moves on to the end of the text and is at the depth it
started with. -/
theorem variantsEndLoop_balanced :
    ∀ (prev : Char) (B : StringRef), Balanced prev B →
      ∀ (X0 Y : StringRef) (k d : Nat), 1 ≤ d →
        variantsEndLoop (X0 ++ prev :: (B ++ Y)) (k + B.length) (X0.length + 1) d =
          variantsEndLoop (X0 ++ prev :: (B ++ Y)) k (X0.length + 1 + B.length) d := by
  intro prev B hB
  induction hB with
  | done prev => intro X0 Y k d _; rfl
  | plain prev c rest h1 h2 _ ih =>
    intro X0 Y k d hd
    have hs : X0 ++ prev :: ((c :: rest) ++ Y) = (X0 ++ [prev]) ++ c :: (rest ++ Y) := by simp
    have hk : k + (c :: rest).length = (k + rest.length) + 1 := rfl
    rw [hk, variantsEndLoop_skip _ _ _ _ c (by rw [hs]; exact getElem_at _ _ _ _ (by simp))
      h2 h1, hs]
    have := ih (X0 ++ [prev]) Y k d hd
    simp only [List.length_append, List.length_cons, List.length_nil] at this ⊢
    rw [this]
    congr 1
    omega
  | escapedClose rest _ ih =>
    intro X0 Y k d hd
    have hs : X0 ++ '\\' :: (('}' :: rest) ++ Y) = (X0 ++ ['\\']) ++ '}' :: (rest ++ Y) := by
      simp
    have hk : k + ('}' :: rest).length = (k + rest.length) + 1 := rfl
    rw [hk, variantsEndLoop_escaped _ _ _ _ (by rw [hs]; exact getElem_at _ _ _ _ (by simp))
      (by omega) (by simp only [Nat.add_sub_cancel]; exact getElem_at _ _ _ _ rfl), hs]
    have := ih (X0 ++ ['\\']) Y k d hd
    simp only [List.length_append, List.length_cons, List.length_nil] at this ⊢
    rw [this]
    congr 1
    omega
  | nested prev inner rest _ hlast _ ih1 ih2 =>
    intro X0 Y k d hd
    -- the character before the closing brace
    obtain ⟨L0, p, hL⟩ : ∃ L0 p, '{' :: inner = L0 ++ [p] := by
      rcases List.eq_nil_or_concat ('{' :: inner) with h | ⟨L0, p, h⟩
      · cases h
      · exact ⟨L0, p, by rw [h, List.concat_eq_append]⟩
    have hp : p ≠ '\\' := by
      intro hc
      apply hlast
      rw [hL, hc]
      simp
    have hL0 : L0.length = inner.length := by
      have := congrArg List.length hL
      simp only [List.length_cons, List.length_append, List.length_nil] at this
      omega
    have hs1 : X0 ++ prev :: (('{' :: (inner ++ '}' :: rest)) ++ Y) =
        (X0 ++ [prev]) ++ '{' :: (inner ++ ('}' :: (rest ++ Y))) := by simp
    have hs2 : X0 ++ prev :: (('{' :: (inner ++ '}' :: rest)) ++ Y) =
        (X0 ++ prev :: L0) ++ p :: ('}' :: (rest ++ Y)) := by
      have : X0 ++ prev :: (('{' :: (inner ++ '}' :: rest)) ++ Y) =
          X0 ++ prev :: (('{' :: inner) ++ '}' :: (rest ++ Y)) := by simp
      rw [this, hL]
      simp
    have hs3 : X0 ++ prev :: (('{' :: (inner ++ '}' :: rest)) ++ Y) =
        (X0 ++ prev :: (L0 ++ [p])) ++ '}' :: (rest ++ Y) := by
      rw [hs2]
      simp
    have hk : k + ('{' :: (inner ++ '}' :: rest)).length =
        ((k + rest.length + 1) + inner.length) + 1 := by
      simp only [List.length_cons, List.length_append]
      omega
    have hlen1 : (X0 ++ [prev]).length = X0.length + 1 := by
      rw [List.length_append, List.length_singleton]
    have hlen2 : (X0 ++ prev :: L0).length = X0.length + 1 + inner.length := by
      rw [List.length_append, List.length_cons, hL0]
      omega
    have hlen3 : (X0 ++ prev :: (L0 ++ [p])).length = X0.length + 1 + inner.length + 1 := by
      rw [List.length_append, List.length_cons, List.length_append, List.length_singleton,
        hL0]
      omega
    have hlen4 : (X0 ++ prev :: '{' :: inner).length = X0.length + 1 + inner.length + 1 := by
      rw [List.length_append, List.length_cons, List.length_cons]
      omega
    have hopen : (X0 ++ prev :: (('{' :: (inner ++ '}' :: rest)) ++ Y))[X0.length + 1]? =
        some '{' := by
      rw [hs1]
      exact getElem_at _ _ _ _ hlen1.symm
    have hclose : (X0 ++ prev :: (('{' :: (inner ++ '}' :: rest)) ++ Y))[
        X0.length + 1 + inner.length + 1]? = some '}' := by
      rw [hs3]
      exact getElem_at _ _ _ _ hlen3.symm
    have hbefore : (X0 ++ prev :: (('{' :: (inner ++ '}' :: rest)) ++ Y))[
        X0.length + 1 + inner.length + 1 - 1]? = some p := by
      rw [hs2, Nat.add_sub_cancel]
      exact getElem_at _ _ _ _ hlen2.symm
    rw [hk, variantsEndLoop_open _ _ _ _ hopen]
    have e1 := ih1 (X0 ++ [prev]) ('}' :: (rest ++ Y)) (k + rest.length + 1) (d + 1)
      (by omega)
    have a1 : X0.length + 1 + 1 + inner.length = X0.length + 1 + inner.length + 1 := by omega
    rw [← hs1, hlen1, a1] at e1
    rw [e1, variantsEndLoop_close _ _ _ _ p hclose (by omega) hbefore hp (by omega)]
    have e2 := ih2 (X0 ++ prev :: '{' :: inner) Y k d hd
    have hs4 : X0 ++ prev :: (('{' :: (inner ++ '}' :: rest)) ++ Y) =
        (X0 ++ prev :: '{' :: inner) ++ '}' :: (rest ++ Y) := by simp
    rw [← hs4, hlen4] at e2
    have a2 : d + 1 - 1 = d := by omega
    rw [a2, e2]
    congr 1
    simp only [List.length_cons, List.length_append]
    omega

/-! ## Strings whose variant groups are closed -/

/-- One iteration of the flattener on `P{B}T`, where every `{` of `P` is escaped, `P` does
not end in `$` or a backslash, `B` is balanced and the closing `}` does not follow a
backslash. -/
theorem flatten_balanced_group (P B T : StringRef) (n : Nat) (hP : bracesEscaped P)
    (hP1 : P.getLast? ≠ some '$') (hP2 : P.getLast? ≠ some '\\') (hB : Balanced '{' B)
    (hBl : ('{' :: B).getLast? ≠ some '\\')
    (hlen : (P ++ '{' :: (B ++ '}' :: T)).length < 2 ^ 64) :
    FlattenAsmStringVariants (P ++ '{' :: (B ++ '}' :: T)) n =
      prependRes (P ++ ((skipVariants n B).split '|').1) (FlattenAsmStringVariants T n) := by
  have hL : (P ++ '{' :: (B ++ '}' :: T)).length = P.length + B.length + T.length + 2 := by
    simp only [List.length_append, List.length_cons]
    omega
  rw [hL] at hlen
  -- the start of the group
  have hstart : variantsStartLoop (P ++ '{' :: (B ++ '}' :: T))
      (P ++ '{' :: (B ++ '}' :: T)).length 0 = .ok P.length := by
    apply variantsStartLoop_find _ P.length (group_getElem_open _ _ _) _ P.length 0 _
      (by omega) (by omega)
    · intro i _ hi hc
      rw [group_getElem_before _ _ _ hi] at hc
      obtain ⟨h0, h1⟩ := hP i hc
      refine ⟨h0, ?_⟩
      rw [group_getElem_before _ _ _ (by omega)]
      exact h1
    · rcases List.eq_nil_or_concat P with h | ⟨P1, p, h⟩
      · left
        rw [h]
        rfl
      · right
        rw [List.concat_eq_append] at h
        have hl : P.getLast? = some p := by rw [h]; simp
        refine ⟨p, ?_, ?_, ?_⟩
        · have hlen1 : P.length - 1 = P1.length := by rw [h]; simp
          rw [group_getElem_before _ _ _ (by rw [h]; simp), hlen1, h]
          simp
        · intro hc
          rw [hl, hc] at hP1
          exact hP1 rfl
        · intro hc
          rw [hl, hc] at hP2
          exact hP2 rfl
  -- the end of the group
  obtain ⟨L0, p, hLp⟩ : ∃ L0 p, '{' :: B = L0 ++ [p] := by
    rcases List.eq_nil_or_concat ('{' :: B) with h | ⟨L0, p, h⟩
    · cases h
    · exact ⟨L0, p, by rw [h, List.concat_eq_append]⟩
  have hp : p ≠ '\\' := by
    intro hc
    apply hBl
    rw [hLp, hc]
    simp
  have hL0 : L0.length = B.length := by
    have := congrArg List.length hLp
    simp only [List.length_cons, List.length_append, List.length_nil] at this
    omega
  have hbefore : (P ++ '{' :: (B ++ '}' :: T))[P.length + 1 + B.length - 1]? = some p := by
    have e : P ++ '{' :: (B ++ '}' :: T) = (P ++ L0) ++ p :: ('}' :: T) := by
      have : P ++ '{' :: (B ++ '}' :: T) = P ++ (('{' :: B) ++ '}' :: T) := by simp
      rw [this, hLp]
      simp
    rw [e]
    exact getElem_at _ _ _ _ (by rw [List.length_append, hL0]; omega)
  have hend : variantsEndLoop (P ++ '{' :: (B ++ '}' :: T))
      ((P ++ '{' :: (B ++ '}' :: T)).length - (P.length + 1)) (P.length + 1) 1 =
      .ok (P.length + 1 + B.length) := by
    have hk : (P ++ '{' :: (B ++ '}' :: T)).length - (P.length + 1) =
        (T.length + 1) + B.length := by
      rw [hL]
      omega
    rw [hk, variantsEndLoop_balanced '{' B hB P ('}' :: T) (T.length + 1) 1 (le_refl 1)]
    exact variantsEndLoop_stop _ T.length _ p (group_getElem_close _ _ _ _ _) (by omega)
      hbefore hp
  have hsl : StringRef.slice (P ++ '{' :: (B ++ '}' :: T)) 0 P.length = P := by
    rw [slice_eq _ _ _ (Nat.zero_le _) (by rw [hL]; omega)]
    simp
  have hsel : StringRef.substr (P ++ '{' :: (B ++ '}' :: T)) (P.length + 1)
      (P.length + 1 + B.length - (P.length + 1)) = B :=
    substr_mid _ (P ++ ['{']) B ('}' :: T) _ _ (by simp) (by simp) (by omega)
  have hrest : StringRef.substr (P ++ '{' :: (B ++ '}' :: T)) (P.length + 1 + B.length + 1)
      npos = T :=
    substr_tail _ (P ++ '{' :: (B ++ ['}'])) T _ (by simp)
      (by simp only [List.length_append, List.length_cons, List.length_nil]; omega)
      (by rw [hL]; omega)
  unfold FlattenAsmStringVariants
  simp only [flattenLoop, hstart]
  rw [if_neg (by rw [hL]; omega)]
  simp only [hend]
  rw [if_neg (by rw [hL]; omega), hsl, hsel, hrest, List.nil_append]
  exact flattenLoop_fuel _ T n _ (by rw [hL]; omega)

theorem flatten_text (s : StringRef) (n : Nat) (h : bracesEscaped s) :
    FlattenAsmStringVariants s n = .ok s := by
  unfold FlattenAsmStringVariants
  simp only [flattenLoop]
  rw [variantsStartLoop_end s s.length 0 (by omega) (fun i _ hi => h i hi)]
  simp only [if_true, List.nil_append]
  rw [slice_zero_length]

/-- On a string whose groups are all closed the flattener returns a string. -/
theorem flatten_flattenable :
    ∀ s : StringRef, Flattenable s → ∀ n : Nat, s.length < 2 ^ 64 →
      ∃ r, FlattenAsmStringVariants s n = .ok r := by
  intro s hs
  induction hs with
  | text s h => intro n _; exact ⟨s, flatten_text s n h⟩
  | group P B T hP hP1 hP2 hB hBl _ ih =>
    intro n hlen
    have hT : T.length < 2 ^ 64 := by
      simp only [List.length_append, List.length_cons] at hlen
      omega
    obtain ⟨r, hr⟩ := ih n hT
    rw [flatten_balanced_group P B T n hP hP1 hP2 hB hBl hlen, hr]
    exact ⟨_, rfl⟩

theorem bracesEscaped_of_no_brace (s : StringRef) (h : ∀ c ∈ s, c ≠ '{') : bracesEscaped s := by
  intro i hi
  exact absurd rfl (h '{' (List.getElem?_mem hi))

/-! ## The scan for an earlier tie, on a list with one constraint per slot -/

theorem checkSlots_free (Op : OperandInfo) (C : ConstraintInfo) :
    ∀ (idxs : List Nat), (∀ i ∈ idxs, i < Op.Constraints.length) →
      (∀ i ∈ idxs, Op.Constraints[i]? ≠ some C) → checkSlots Op C idxs = .ok () := by
  intro idxs
  induction idxs with
  | nil => intro _ _; rfl
  | cons j rest ih =>
    intro hlt hne
    have hj : j < Op.Constraints.length := hlt j (List.mem_cons_self _ _)
    have hcj := hne j (List.mem_cons_self _ _)
    simp only [checkSlots, List.get?_eq_getElem?, List.getElem?_eq_getElem hj]
    rw [List.getElem?_eq_getElem hj] at hcj
    rw [if_neg (fun hc => hcj (by rw [hc]))]
    exact ih (fun i hi => hlt i (List.mem_cons_of_mem _ hi))
      (fun i hi => hne i (List.mem_cons_of_mem _ hi))

theorem checkSlots_taken (Op : OperandInfo) (C : ConstraintInfo) :
    ∀ (idxs : List Nat), (∀ i ∈ idxs, i < Op.Constraints.length) →
      (∃ i ∈ idxs, Op.Constraints[i]? = some C) →
      checkSlots Op C idxs = .error Error.multipleOperandsTied := by
  intro idxs
  induction idxs with
  | nil => intro _ h; obtain ⟨i, hi, _⟩ := h; simp at hi
  | cons j rest ih =>
    intro hlt hex
    have hj : j < Op.Constraints.length := hlt j (List.mem_cons_self _ _)
    simp only [checkSlots, List.get?_eq_getElem?, List.getElem?_eq_getElem hj]
    by_cases hc : Op.Constraints[j] = C
    · rw [if_pos hc]
    · rw [if_neg hc]
      apply ih (fun i hi => hlt i (List.mem_cons_of_mem _ hi))
      obtain ⟨i, hi, hci⟩ := hex
      simp only [List.mem_cons] at hi
      rcases hi with hi | hi
      · subst hi
        rw [List.getElem?_eq_getElem hj] at hci
        exact absurd (Option.some.inj hci) hc
      · exact ⟨i, hi, hci⟩

theorem checkOperands_free (C : ConstraintInfo) :
    ∀ (ops : List OperandInfo), (∀ Op ∈ ops, Op.Constraints.length = Op.MINumOperands) →
      (∀ Op ∈ ops, ∀ i, i < Op.MINumOperands → Op.Constraints[i]? ≠ some C) →
      checkOperands C ops = .ok () := by
  intro ops
  induction ops with
  | nil => intro _ _; rfl
  | cons x rest ih =>
    intro hW hne
    have hx := hW x (List.mem_cons_self _ _)
    simp only [checkOperands]
    rw [checkSlots_free x C _ (fun i hi => by rw [hx]; exact List.mem_range.mp hi)
      (fun i hi => hne x (List.mem_cons_self _ _) i (List.mem_range.mp hi))]
    exact ih (fun Op hOp => hW Op (List.mem_cons_of_mem _ hOp))
      (fun Op hOp => hne Op (List.mem_cons_of_mem _ hOp))

theorem checkOperands_taken (C : ConstraintInfo) :
    ∀ (ops : List OperandInfo), (∀ Op ∈ ops, Op.Constraints.length = Op.MINumOperands) →
      (∃ Op ∈ ops, ∃ i, i < Op.MINumOperands ∧ Op.Constraints[i]? = some C) →
      checkOperands C ops = .error Error.multipleOperandsTied := by
  intro ops
  induction ops with
  | nil => intro _ h; obtain ⟨Op, hOp, _⟩ := h; simp at hOp
  | cons x rest ih =>
    intro hW hex
    have hx := hW x (List.mem_cons_self _ _)
    simp only [checkOperands]
    by_cases hcx : ∃ i, i < x.MINumOperands ∧ x.Constraints[i]? = some C
    · obtain ⟨i, hi, hci⟩ := hcx
      rw [checkSlots_taken x C _ (fun i hi => by rw [hx]; exact List.mem_range.mp hi)
        ⟨i, List.mem_range.mpr hi, hci⟩]
    · rw [checkSlots_free x C _ (fun i hi => by rw [hx]; exact List.mem_range.mp hi)
        (fun i hi hc => hcx ⟨i, List.mem_range.mp hi, hc⟩)]
      apply ih (fun Op hOp => hW Op (List.mem_cons_of_mem _ hOp))
      obtain ⟨Op, hOp, i, hi, hci⟩ := hex
      simp only [List.mem_cons] at hOp
      rcases hOp with hOp | hOp
      · subst hOp
        exact absurd ⟨i, hi, hci⟩ hcx
      · exact ⟨Op, hOp, i, hi, hci⟩

theorem checkOperands_no_slot {Ops : CGIOperandList} {C : ConstraintInfo} (hW : WellSized Ops)
    (h : ∀ k i, slotConstraint Ops k i ≠ some C) :
    checkOperands C Ops.OperandList = .ok () := by
  apply checkOperands_free C _ hW
  intro Op hOp i hi hc
  obtain ⟨k, hk, hget⟩ := List.getElem_of_mem hOp
  apply h k i
  unfold slotConstraint
  rw [List.getElem?_eq_getElem hk, hget]
  simp only
  rw [if_pos hi]
  exact hc

theorem checkOperands_some_slot {Ops : CGIOperandList} {C : ConstraintInfo}
    (hW : WellSized Ops) (k i : Nat) (h : slotConstraint Ops k i = some C) :
    checkOperands C Ops.OperandList = .error Error.multipleOperandsTied := by
  apply checkOperands_taken C _ hW
  unfold slotConstraint at h
  split at h
  · cases h
  rename_i Op hOp
  split at h
  · rename_i hi
    exact ⟨Op, List.getElem?_mem hOp, i, hi, h⟩
  · cases h

/-- A write of a constraint other than `C` to a slot that did not hold `C` does not change
the outcome of the scan for `C`. -/
theorem checkOperands_after_write {L L' : CGIOperandList} {Op : Nat × Nat}
    {C0 Cold C : ConstraintInfo} (hW : WellSized L)
    (hs : L.setConstraint Op C0 = .ok L') (hg : L.getConstraint Op = .ok Cold)
    (h0 : C ≠ C0) (hold : C ≠ Cold) :
    checkOperands C L'.OperandList = checkOperands C L.OperandList := by
  have hW' := setConstraint_wellSized hs hW
  by_cases hex : ∃ k i, slotConstraint L k i = some C
  · obtain ⟨k, i, hki⟩ := hex
    have hne : ¬ (k = Op.1 ∧ i = Op.2) := by
      rintro ⟨e1, e2⟩
      subst e1 e2
      exact hold (slotConstraint_of_getConstraint hg hki)
    rw [checkOperands_some_slot hW k i hki,
      checkOperands_some_slot hW' k i (by rw [slotConstraint_set_other hs k i hne]; exact hki)]
  · have hall : ∀ k i, slotConstraint L k i ≠ some C := fun k i hc => hex ⟨k, i, hc⟩
    rw [checkOperands_no_slot hW hall]
    apply checkOperands_no_slot hW'
    intro k i hc
    by_cases hki : k = Op.1 ∧ i = Op.2
    · obtain ⟨e1, e2⟩ := hki
      subst e1 e2
      rw [slotConstraint_set_self hs hW] at hc
      exact h0 (Option.some.inj hc).symm
    · rw [slotConstraint_set_other hs k i hki] at hc
      exact hall k i hc

/-! ## Writes to a pair that names a slot -/

theorem namesSlot_iff {Ops : CGIOperandList} {p : Nat × Nat} :
    namesSlot Ops p = true ↔
      ∃ Opnd, Ops.OperandList[p.1]? = some Opnd ∧ p.2 < Opnd.MINumOperands := by
  unfold namesSlot
  cases h : Ops.OperandList[p.1]? with
  | none => simp
  | some Opnd => simp

theorem setConstraint_of_slot {Ops : CGIOperandList} {p : Nat × Nat} (C : ConstraintInfo)
    (hW : WellSized Ops) (hp : namesSlot Ops p = true) :
    ∃ Ops', Ops.setConstraint p C = .ok Ops' := by
  obtain ⟨Opnd, hO, hlt⟩ := namesSlot_iff.mp hp
  have hsz := hW Opnd (List.getElem?_mem hO)
  unfold CGIOperandList.setConstraint
  simp only [List.get?_eq_getElem?, hO]
  rw [if_pos (by omega)]
  exact ⟨_, rfl⟩

theorem getConstraint_of_slot {Ops : CGIOperandList} {p : Nat × Nat}
    (hW : WellSized Ops) (hp : namesSlot Ops p = true) :
    ∃ C, Ops.getConstraint p = .ok C ∧ slotConstraint Ops p.1 p.2 = some C := by
  obtain ⟨Opnd, hO, hlt⟩ := namesSlot_iff.mp hp
  have hsz := hW Opnd (List.getElem?_mem hO)
  have hlt2 : p.2 < Opnd.Constraints.length := by omega
  refine ⟨Opnd.Constraints[p.2], ?_, ?_⟩
  · unfold CGIOperandList.getConstraint
    simp only [List.get?_eq_getElem?, hO, List.getElem?_eq_getElem hlt2]
  · unfold slotConstraint
    simp only [hO]
    rw [if_pos hlt, List.getElem?_eq_getElem hlt2]

theorem namesSlot_same {L L' : CGIOperandList} (h : SameOperands L L') (p : Nat × Nat) :
    namesSlot L' p = namesSlot L p := by
  have hg := h.get p.1
  unfold namesSlot
  cases hL : L.OperandList[p.1]? with
  | none =>
    rw [hL] at hg
    cases hL2 : L'.OperandList[p.1]? with
    | none => rfl
    | some o2 => rw [hL2] at hg; simp at hg
  | some o =>
    rw [hL] at hg
    cases hL2 : L'.OperandList[p.1]? with
    | none => rw [hL2] at hg; simp at hg
    | some o2 =>
      rw [hL2] at hg
      simp only [Option.map_some', Option.some.injEq, Prod.mk.injEq] at hg
      simp only
      rw [hg.1]

/-! ## The tokens of an encoding exclusion list -/

theorem isDelimiter_iff (c : Char) :
    (fun x : Char => " ,\t".toList.contains x) c = true ↔ isDelimiter c :=
  delims_contains c

/-- Every string is a run of delimiters, or a run of delimiters, a non-empty token and a
rest that is empty or starts with a delimiter. -/
theorem token_decompose :
    ∀ suf : StringRef, (∀ c ∈ suf, isDelimiter c) ∨
      ∃ seps tok rest : StringRef, suf = seps ++ (tok ++ rest) ∧
        (∀ c ∈ seps, isDelimiter c) ∧ tok ≠ [] ∧ (∀ c ∈ tok, ¬ isDelimiter c) ∧
        (rest = [] ∨ ∃ d rest1, rest = d :: rest1 ∧ isDelimiter d) := by
  intro suf
  induction suf with
  | nil => left; simp
  | cons c t ih =>
    by_cases hc : isDelimiter c
    · rcases ih with hall | ⟨seps, tok, rest, ht, h1, h2, h3, h4⟩
      · left
        intro x hx
        simp only [List.mem_cons] at hx
        rcases hx with hx | hx
        · rw [hx]; exact hc
        · exact hall x hx
      · right
        refine ⟨c :: seps, tok, rest, by rw [ht]; rfl, ?_, h2, h3, h4⟩
        intro x hx
        simp only [List.mem_cons] at hx
        rcases hx with hx | hx
        · rw [hx]; exact hc
        · exact h1 x hx
    · right
      have hsingle : ∀ x ∈ [c], ¬ isDelimiter x := by
        intro x hx
        simp only [List.mem_singleton] at hx
        rw [hx]
        exact hc
      rcases ih with hall | ⟨seps, tok, rest, ht, h1, h2, h3, h4⟩
      · cases t with
        | nil => exact ⟨[], [c], [], rfl, by simp, by simp, hsingle, Or.inl rfl⟩
        | cons y r =>
          exact ⟨[], [c], y :: r, rfl, by simp, by simp, hsingle,
            Or.inr ⟨y, r, rfl, hall y (List.mem_cons_self _ _)⟩⟩
      · cases seps with
        | nil =>
          refine ⟨[], c :: tok, rest, by rw [ht]; rfl, by simp, by simp, ?_, h4⟩
          intro x hx
          simp only [List.mem_cons] at hx
          rcases hx with hx | hx
          · rw [hx]; exact hc
          · exact h3 x hx
        | cons y cs =>
          exact ⟨[], [c], t, rfl, by simp, by simp, hsingle,
            Or.inr ⟨y, cs ++ (tok ++ rest), ht, h1 y (List.mem_cons_self _ _)⟩⟩

theorem encodingTokens_nil : encodingTokens [] = [] := rfl

theorem encodingTokens_delimiter (d : Char) (r : StringRef) (hd : isDelimiter d) :
    encodingTokens (d :: r) = encodingTokens r := by
  unfold encodingTokens
  rw [List.splitOnP_cons, if_pos ((isDelimiter_iff d).mpr hd)]
  simp

theorem encodingTokens_delimiters :
    ∀ (seps r : StringRef), (∀ c ∈ seps, isDelimiter c) →
      encodingTokens (seps ++ r) = encodingTokens r := by
  intro seps
  induction seps with
  | nil => intro r _; rfl
  | cons c cs ih =>
    intro r h
    rw [List.cons_append, encodingTokens_delimiter c _ (h c (List.mem_cons_self _ _))]
    exact ih r (fun x hx => h x (List.mem_cons_of_mem _ hx))

theorem encodingTokens_token (tok rest : StringRef) (h2 : tok ≠ [])
    (h3 : ∀ c ∈ tok, ¬ isDelimiter c)
    (h4 : rest = [] ∨ ∃ d rest1, rest = d :: rest1 ∧ isDelimiter d) :
    encodingTokens (tok ++ rest) = tok :: encodingTokens rest := by
  have hp : ∀ x ∈ tok, ¬ ((fun c : Char => " ,\t".toList.contains c) x = true) := by
    intro x hx hc
    exact h3 x hx ((isDelimiter_iff x).mp hc)
  have hne : (!tok.isEmpty) = true := by
    cases tok with
    | nil => exact absurd rfl h2
    | cons _ _ => rfl
  rcases h4 with h4 | ⟨d, r, h4, hd⟩
  · subst h4
    rw [List.append_nil, encodingTokens_nil]
    unfold encodingTokens
    rw [List.splitOnP_eq_single (fun c : Char => " ,\t".toList.contains c) tok hp]
    simp only [List.filter_cons, hne, if_true, List.filter_nil]
  · subst h4
    rw [encodingTokens_delimiter d r hd]
    unfold encodingTokens
    rw [List.splitOnP_first (fun c : Char => " ,\t".toList.contains c) tok hp d
      ((isDelimiter_iff d).mpr hd)]
    simp only [List.filter_cons, hne, if_true]

/-! ## The token after leading delimiters -/

theorem getToken_none (s : StringRef) (h : ∀ c ∈ s, isDelimiter c) (hlen : s.length < 2 ^ 64) :
    (getToken s " ,\t".toList).1 = [] := by
  have hstart : StringRef.find_first_not_of s " ,\t".toList 0 = npos := by
    simp only [StringRef.find_first_not_of]
    apply findIf_none
    intro x hx
    have := (delims_contains x).mpr (h x hx)
    show (!" ,\t".toList.contains x) = false
    rw [this]
    rfl
  unfold getToken
  simp only
  rw [hstart]
  unfold StringRef.slice
  simp only
  have e1 : min npos s.length = s.length := Nat.min_eq_right (by unfold npos; omega)
  rw [e1, List.drop_of_length_le (le_refl _)]
  exact List.take_nil

/-- The token of a list that starts with delimiters: the first run of non-delimiters, and
what follows it. -/
theorem getToken_after_delimiters (seps tok rest : StringRef)
    (hseps : ∀ c ∈ seps, isDelimiter c) (htok : tok ≠ [])
    (hnd : ∀ c ∈ tok, ¬ isDelimiter c)
    (hrest : rest = [] ∨ ∃ d rest1, rest = d :: rest1 ∧ isDelimiter d)
    (hlen : (seps ++ (tok ++ rest)).length < 2 ^ 64) :
    getToken (seps ++ (tok ++ rest)) " ,\t".toList = (tok, rest) := by
  obtain ⟨t, tok1, ht⟩ := List.exists_cons_of_ne_nil htok
  have hL : (seps ++ (tok ++ rest)).length = seps.length + tok.length + rest.length := by
    simp only [List.length_append]
    omega
  rw [hL] at hlen
  have hstart : StringRef.find_first_not_of (seps ++ (tok ++ rest)) " ,\t".toList 0 =
      seps.length := by
    have h := findIf_skip_eq (fun c => !" ,\t".toList.contains c) (seps ++ (tok ++ rest)) []
      seps t (tok1 ++ rest) 0 (by rw [ht]; rfl) rfl
      (by
        intro x hx
        have := (delims_contains x).mpr (hseps x hx)
        show (!" ,\t".toList.contains x) = false
        rw [this]
        rfl)
      (by
        have := (delims_contains_false t).mpr (hnd t (by rw [ht]; exact List.mem_cons_self _ _))
        show (!" ,\t".toList.contains t) = true
        rw [this]
        rfl)
    simp only [StringRef.find_first_not_of]
    rw [h]
    omega
  unfold getToken
  simp only
  rw [hstart]
  rcases hrest with hr | ⟨d, rest1, hr, hd⟩
  · subst hr
    have hend : StringRef.find_first_of (seps ++ (tok ++ [])) " ,\t".toList seps.length =
        npos := by
      simp only [StringRef.find_first_of]
      exact findIf_none_from _ seps (tok ++ [])
        (fun x hx => (delims_contains_false x).mpr (hnd x (by simpa using hx)))
    rw [hend]
    simp only [List.append_nil, List.length_nil] at hlen hL ⊢
    have h1 : StringRef.slice (seps ++ tok) seps.length npos = tok := by
      unfold StringRef.slice
      simp only [List.length_append]
      have e1 : min seps.length (seps.length + tok.length) = seps.length :=
        Nat.min_eq_left (by omega)
      have e2 : max npos seps.length = npos := Nat.max_eq_left (by unfold npos; omega)
      have e3 : min npos (seps.length + tok.length) = seps.length + tok.length :=
        Nat.min_eq_right (by unfold npos; omega)
      simp only [e1, e2, e3]
      rw [List.drop_left, Nat.add_sub_cancel_left]
      exact List.take_length tok
    have h2 : StringRef.substr (seps ++ tok) npos npos = [] := by
      rw [substr_eq, List.drop_of_length_le
        (by simp only [List.length_append]; unfold npos; omega)]
      rfl
    rw [h1, h2]
  · subst hr
    have hend : StringRef.find_first_of (seps ++ (tok ++ d :: rest1)) " ,\t".toList
        seps.length = seps.length + tok.length := by
      simp only [StringRef.find_first_of]
      exact findIf_skip_eq (fun c => " ,\t".toList.contains c) (seps ++ (tok ++ d :: rest1))
        seps tok d rest1 seps.length rfl rfl
        (fun x hx => (delims_contains_false x).mpr (hnd x hx))
        ((delims_contains d).mpr hd)
    rw [hend]
    have h1 : StringRef.slice (seps ++ (tok ++ d :: rest1)) seps.length
        (seps.length + tok.length) = tok := by
      rw [slice_eq _ _ _ (by omega) (by simp only [List.length_append]; omega)]
      rw [List.drop_left, Nat.add_sub_cancel_left, List.take_left]
    have h2 : StringRef.substr (seps ++ (tok ++ d :: rest1)) (seps.length + tok.length)
        npos = d :: rest1 :=
      substr_tail _ (seps ++ tok) (d :: rest1) _ (by simp) (by simp)
        (by rw [hL]; omega)
    rw [h1, h2]

/-! ## The loop of `ProcessDisableEncoding` -/

theorem ProcessDisableEncoding_done (L : CGIOperandList) (s : StringRef)
    (h : ∀ c ∈ s, isDelimiter c) (hlen : s.length < 2 ^ 64) :
    L.ProcessDisableEncoding s = .ok L := by
  unfold CGIOperandList.ProcessDisableEncoding
  simp only [ProcessDisableEncodingLoop, getToken_none s h hlen]
  rfl

theorem ProcessDisableEncoding_token (L : CGIOperandList) (seps tok rest : StringRef)
    (hseps : ∀ c ∈ seps, isDelimiter c) (htok : tok ≠ [])
    (hnd : ∀ c ∈ tok, ¬ isDelimiter c)
    (hrest : rest = [] ∨ ∃ d rest1, rest = d :: rest1 ∧ isDelimiter d)
    (hlen : (seps ++ (tok ++ rest)).length < 2 ^ 64) :
    L.ProcessDisableEncoding (seps ++ (tok ++ rest)) =
      match disableToken L tok with
      | .error e => .error e
      | .ok L1 => L1.ProcessDisableEncoding rest := by
  unfold CGIOperandList.ProcessDisableEncoding disableToken
  simp only [ProcessDisableEncodingLoop,
    getToken_after_delimiters seps tok rest hseps htok hnd hrest hlen]
  have hne : ¬ (tok.isEmpty = true) := by
    intro hc
    apply htok
    exact List.isEmpty_iff.mp hc
  rw [if_neg hne]
  cases L.ParseOperandName tok false with
  | error e => rfl
  | ok Op =>
    simp only
    cases L.setDoNotEncode Op with
    | error e => rfl
    | ok L1 =>
      simp only
      have hpos : 0 < tok.length := List.length_pos.mpr htok
      exact ProcessDisableEncodingLoop_fuel (seps ++ (tok ++ rest)).length (rest.length + 1)
        rest _ (by simp only [List.length_append]; omega) (by omega)

/-- The loop processes the tokens of the list in order. -/
theorem ProcessDisableEncoding_eq_disableAll :
    ∀ (n : Nat) (s : StringRef) (L : CGIOperandList), s.length ≤ n → s.length < 2 ^ 64 →
      L.ProcessDisableEncoding s = disableAll (encodingTokens s) L := by
  intro n
  induction n with
  | zero =>
    intro s L hn hlen
    have hs : s = [] := List.length_eq_zero.mp (by omega)
    subst hs
    rw [ProcessDisableEncoding_done L [] (by simp) hlen, encodingTokens_nil]
    rfl
  | succ n ih =>
    intro s L hn hlen
    rcases token_decompose s with hall | ⟨seps, tok, rest, hs, h1, h2, h3, h4⟩
    · have ht := encodingTokens_delimiters s [] hall
      rw [List.append_nil] at ht
      rw [ProcessDisableEncoding_done L s hall hlen, ht, encodingTokens_nil]
      rfl
    · subst hs
      have hpos : 0 < tok.length := List.length_pos.mpr h2
      simp only [List.length_append] at hn hlen
      rw [ProcessDisableEncoding_token L seps tok rest h1 h2 h3 h4
          (by simp only [List.length_append]; omega),
        encodingTokens_delimiters seps _ h1, encodingTokens_token tok rest h2 h3 h4]
      simp only [disableAll]
      cases disableToken L tok with
      | error e => rfl
      | ok L1 => exact ih rest L1 (by omega) (by omega)

/-! ## Setting an encoding exclusion bit -/

theorem setDoNotEncode_same {L L1 : CGIOperandList} {Op : Nat × Nat}
    (h : L.setDoNotEncode Op = .ok L1) : SameOperands L L1 := by
  unfold CGIOperandList.setDoNotEncode at h
  split at h
  · cases h
  rename_i Opnd hO
  split at h
  · simp only [Except.ok.injEq] at h
    subst h
    simp only [List.get?_eq_getElem?] at hO
    refine ⟨rfl, rfl, by simp, ?_, ?_⟩
    · intro n
      exact findIdx_set_same_name n _ _ Opnd _ hO rfl
    · intro k
      simp only
      by_cases hk : Op.1 = k
      · subst hk
        have hlt2 : Op.1 < L.OperandList.length := by
          rcases Nat.lt_or_ge Op.1 L.OperandList.length with hk | hk
          · exact hk
          · rw [List.getElem?_eq_none hk] at hO
            cases hO
        rw [List.getElem?_set_self hlt2, hO]
        rfl
      · rw [List.getElem?_set_ne hk]
  · cases h

theorem setDoNotEncode_sized {L L1 : CGIOperandList} {Op : Nat × Nat}
    (h : L.setDoNotEncode Op = .ok L1) (hE : EncodeSized L) : EncodeSized L1 := by
  unfold CGIOperandList.setDoNotEncode at h
  split at h
  · cases h
  rename_i Opnd hO
  split at h
  · simp only [Except.ok.injEq] at h
    subst h
    simp only [List.get?_eq_getElem?] at hO
    intro x hx
    simp only at hx
    rcases List.mem_or_eq_of_mem_set hx with hx | hx
    · exact hE x hx
    · subst hx
      simp only [List.length_set]
      exact hE Opnd (List.getElem?_mem hO)
  · cases h

theorem setDoNotEncode_of_slot {L : CGIOperandList} {p : Nat × Nat} (hE : EncodeSized L)
    (hp : namesSlot L p = true) : ∃ L1, L.setDoNotEncode p = .ok L1 := by
  obtain ⟨Opnd, hO, hlt⟩ := namesSlot_iff.mp hp
  have hsz := hE Opnd (List.getElem?_mem hO)
  unfold CGIOperandList.setDoNotEncode
  simp only [List.get?_eq_getElem?, hO]
  rw [if_pos (by omega)]
  exact ⟨_, rfl⟩

/-! ## All tokens of a list -/

/-- When every token resolves to a slot, the list is processed to the end, the bit of every
resolved slot is set and no other bit changes. -/
theorem disableAll_slots :
    ∀ (toks : List StringRef) (L : CGIOperandList), EncodeSized L →
      (∀ tok ∈ toks, ∃ Op, L.ParseOperandName tok false = .ok Op ∧ namesSlot L Op = true) →
      ∃ L', disableAll toks L = .ok L' ∧ SameOperands L L' ∧ EncodeSized L' ∧
        (∀ tok ∈ toks, ∀ Op, L.ParseOperandName tok false = .ok Op →
          doNotEncodeBit L' Op.1 Op.2 = some true) ∧
        (∀ k i, (∀ tok ∈ toks, L.ParseOperandName tok false ≠ .ok (k, i)) →
          doNotEncodeBit L' k i = doNotEncodeBit L k i) := by
  intro toks
  induction toks with
  | nil =>
    intro L hE _
    exact ⟨L, rfl, SameOperands.refl L, hE, fun tok h => by simp at h, fun _ _ _ => rfl⟩
  | cons t rest ih =>
    intro L hE hall
    obtain ⟨Op, hOp, hslot⟩ := hall t (List.mem_cons_self _ _)
    obtain ⟨L1, hL1⟩ := setDoNotEncode_of_slot hE hslot
    have hsame1 := setDoNotEncode_same hL1
    have hE1 := setDoNotEncode_sized hL1 hE
    obtain ⟨hbit, hother⟩ := setDoNotEncode_ok hL1
    obtain ⟨L', hL', hsame', hE', hset, hkeep⟩ := ih L1 hE1 (by
      intro tok htok
      obtain ⟨Op2, hOp2, hs2⟩ := hall tok (List.mem_cons_of_mem _ htok)
      exact ⟨Op2, by rw [ParseOperandName_same hsame1]; exact hOp2,
        by rw [namesSlot_same hsame1]; exact hs2⟩)
    refine ⟨L', ?_, SameOperands.trans hsame1 hsame', hE', ?_, ?_⟩
    · simp only [disableAll, disableToken, hOp, hL1]
      exact hL'
    · intro tok htok Op2 hOp2
      simp only [List.mem_cons] at htok
      by_cases hlater : ∃ tok2 ∈ rest, L.ParseOperandName tok2 false = .ok Op2
      · obtain ⟨tok2, htok2, hres2⟩ := hlater
        exact hset tok2 htok2 Op2 (by rw [ParseOperandName_same hsame1]; exact hres2)
      · have hOp2eq : Op2 = Op := by
          rcases htok with htok | htok
          · subst htok
            rw [hOp] at hOp2
            exact (Except.ok.inj hOp2).symm
          · exact absurd ⟨tok, htok, hOp2⟩ hlater
        subst hOp2eq
        rw [hkeep Op2.1 Op2.2 (by
          intro tok2 htok2 hc
          rw [ParseOperandName_same hsame1] at hc
          exact hlater ⟨tok2, htok2, hc⟩)]
        exact hbit
    · intro k i hnone
      rw [hkeep k i (by
        intro tok2 htok2 hc
        rw [ParseOperandName_same hsame1] at hc
        exact hnone tok2 (List.mem_cons_of_mem _ htok2) hc)]
      apply hother k i
      rintro ⟨e1, e2⟩
      apply hnone t (List.mem_cons_self _ _)
      rw [hOp, e1, e2]

/-- A token that no list with the same operands resolves makes the processing fail. -/
theorem disableAll_fails :
    ∀ (toks : List StringRef) (L : CGIOperandList) (tok : StringRef), tok ∈ toks →
      (∃ e, L.ParseOperandName tok false = .error e) →
      ∃ e, disableAll toks L = .error e := by
  intro toks
  induction toks with
  | nil => intro L tok h; simp at h
  | cons t rest ih =>
    intro L tok htok hbad
    simp only [disableAll]
    cases hd : disableToken L t with
    | error e => exact ⟨e, rfl⟩
    | ok L1 =>
      simp only
      simp only [List.mem_cons] at htok
      rcases htok with htok | htok
      · subst htok
        obtain ⟨e, he⟩ := hbad
        unfold disableToken at hd
        rw [he] at hd
        cases hd
      · have hsame : SameOperands L L1 := by
          unfold disableToken at hd
          split at hd
          · cases hd
          · exact setDoNotEncode_same hd
        apply ih L1 tok htok
        obtain ⟨e, he⟩ := hbad
        exact ⟨e, by rw [ParseOperandName_same hsame]; exact he⟩

/-- A reference `$name` to an operand with more than one slot is not resolved when whole
operands are not allowed. -/
theorem ParseOperandName_whole_rejected (L : CGIOperandList) (name : StringRef) (k : Nat)
    (Opnd : OperandInfo) (hlen : name.length + 1 < 2 ^ 64) (hdot : '.' ∉ name)
    (halias : L.findSubOperandAlias name = .ok none)
    (hk : L.findOperandNamed name = .ok (some k)) (hO : L.OperandList[k]? = some Opnd)
    (hmulti : 1 < Opnd.MINumOperands) :
    L.ParseOperandName ('$' :: name) false = .error Error.wholeComplexOperand := by
  rw [ParseOperandName_plain L name false hlen hdot, halias]
  simp only [CGIOperandList.getOperandNamed, hk, List.get?_eq_getElem?, hO]
  have : decide (Opnd.MINumOperands > 1) = true := decide_eq_true hmulti
  simp [this]

/-! ## Properties of the constructor -/

/-- C1: on success, `NumDefs` is the number of arguments of the `outs` dag, minus one when
at least one of them is the `variable_ops` marker. -/
theorem NumDefs_eq_outs_arg_count (R : InstrRecord) (L : CGIOperandList)
    (h : CGIOperandList.construct R = .ok L) :
    L.NumDefs =
      if R.OutOperandList.Args.any (fun a => a.1.isVariableOps) then
        R.OutOperandList.Args.length - 1
      else R.OutOperandList.Args.length := by
  obtain ⟨st, _, hv, hN, _⟩ := construct_variadic h
  rw [hN, hv]

theorem NumDefs_eq_outs_arg_count_witness :
    CGIOperandList.construct Example.unmerge = .ok (builtList Example.unmerge) ∧
      (builtList Example.unmerge).NumDefs = 1 :=
  ⟨by decide,
    (NumDefs_eq_outs_arg_count Example.unmerge (builtList Example.unmerge) (by decide)).trans
      (by decide)⟩

/-- C2: on success the bases `MIOperandNo` tile the flattened range: the first operand
starts at 0, each later operand starts where the previous one ends, every operand occupies
at least one slot (so the bases increase strictly), and the last operand ends at the total
number of flattened slots. -/
theorem MIOperandNo_tiles (R : InstrRecord) (L : CGIOperandList)
    (h : CGIOperandList.construct R = .ok L) :
    (∀ op, L.OperandList.head? = some op → op.MIOperandNo = 0) ∧
    (∀ k p q, L.OperandList[k]? = some p → L.OperandList[k + 1]? = some q →
      q.MIOperandNo = p.MIOperandNo + p.MINumOperands ∧ p.MIOperandNo < q.MIOperandNo) ∧
    (∀ op ∈ L.OperandList, 1 ≤ op.MINumOperands) ∧
    (∀ op, L.OperandList.getLast? = some op →
      op.MIOperandNo + op.MINumOperands = totalSlots L.OperandList) := by
  obtain ⟨st, hst, _, hL, _⟩ := construct_ok h
  have ht := (argLoop_tiled _ _ _ _ _ hst trivial rfl).1
  rw [← hL] at ht
  have hpos := Tiled_pos _ _ ht
  refine ⟨?_, ?_, hpos, ?_⟩
  · intro op hop
    cases hl : L.OperandList with
    | nil => rw [hl] at hop; simp at hop
    | cons x rest =>
      rw [hl] at hop ht
      simp only [List.head?_cons, Option.some.injEq] at hop
      subst hop
      exact ht.1
  · intro k p q hp hq
    have e := Tiled_succ _ _ k p q ht hp hq
    have hm : p ∈ L.OperandList := List.getElem?_mem hp
    have := hpos p hm
    exact ⟨e, by omega⟩
  · intro op hop
    have := Tiled_last _ _ op ht hop
    omega

theorem MIOperandNo_tiles_witness :
    CGIOperandList.construct Example.load = .ok (builtList Example.load) ∧
      (builtList Example.load).OperandList.map (fun Op => (Op.MIOperandNo, Op.MINumOperands)) =
        [(0, 1), (1, 1), (2, 2)] ∧
      ∀ op, (builtList Example.load).OperandList.getLast? = some op →
        op.MIOperandNo + op.MINumOperands = totalSlots (builtList Example.load).OperandList :=
  ⟨by decide, by decide,
    (MIOperandNo_tiles Example.load (builtList Example.load) (by decide)).2.2.2⟩

/-- C3: construction succeeds only if every created operand has a non-empty name and the
declared names (operand names and sub-arg names of all arguments that are not the marker,
in declaration order) are non-empty and pairwise distinct. -/
theorem names_nonempty_distinct (R : InstrRecord) (L : CGIOperandList)
    (h : CGIOperandList.construct R = .ok L) :
    (∀ op ∈ L.OperandList, op.Name ≠ []) ∧
    (∀ n ∈ declaredNames (R.OutOperandList.Args ++ R.InOperandList.Args), n ≠ []) ∧
    (declaredNames (R.OutOperandList.Args ++ R.InOperandList.Args)).Nodup ∧
    L.OperandList.map (fun Op => Op.Name) =
      operandArgNames (R.OutOperandList.Args ++ R.InOperandList.Args) := by
  obtain ⟨st, hst, _, hL, _⟩ := construct_ok h
  obtain ⟨h1, h2, h3, h4⟩ := argLoop_names _ _ _ _ _ hst
  simp only [BuildState.init, List.nil_append, List.map_nil] at h1 h3 h4
  rw [← hL] at h4
  refine ⟨?_, h2, ?_, h4⟩
  · intro op hop
    apply h2
    apply operandArgNames_subset_declaredNames
    rw [← h4]
    exact List.mem_map_of_mem _ hop
  · rw [← h1]
    exact h3 List.nodup_nil

theorem names_nonempty_distinct_witness :
    CGIOperandList.construct Example.load = .ok (builtList Example.load) ∧
      declaredNames (Example.load.OutOperandList.Args ++ Example.load.InOperandList.Args) =
        ["d".toList, "a".toList, "addr".toList, "b".toList, "o".toList] ∧
      (declaredNames
        (Example.load.OutOperandList.Args ++ Example.load.InOperandList.Args)).Nodup :=
  ⟨by decide, by decide,
    (names_nonempty_distinct Example.load (builtList Example.load) (by decide)).2.2.1⟩

/-- C4 (evaluation at a failing input): for `(outs variable_ops)`,
`(ins (mem $b, $o):$addr, GPR:$x)` the operand `addr` is stored at position 0 of the
operand list and carries the sub-arg names `b`, `o`, yet the alias table sends `b` to
`(1, 0)` and `o` to `(1, 1)` (the argument number, not the position in the operand list),
and `ParseOperandName("$b", false)` returns `(1, 0)`. -/
theorem alias_uses_argument_number :
    CGIOperandList.construct Example.variadicStore = .ok (builtList Example.variadicStore) ∧
      (builtList Example.variadicStore).OperandList.map (fun Op => (Op.Name, Op.SubOpNames)) =
        [("addr".toList, ["b".toList, "o".toList]), ("x".toList, [[]])] ∧
      (builtList Example.variadicStore).SubOpAliases =
        [("b".toList, (1, 0)), ("o".toList, (1, 1))] ∧
      (builtList Example.variadicStore).ParseOperandName "$b".toList false = .ok (1, 0) := by
  decide

/-- C5 (evaluation at a failing input): for `(outs variable_ops)`,
`(ins (mem $b, $o):$addr, GPR:$x)` the distinct names `x` and `b` resolve to the same pair
`(1, 0)`, although `b` is the alias of slot 0 of the operand `addr` (position 0), not of the
operand `x` (position 1). -/
theorem distinct_names_same_pair :
    CGIOperandList.construct Example.variadicStore = .ok (builtList Example.variadicStore) ∧
      (builtList Example.variadicStore).OperandList.map (fun Op => (Op.Name, Op.SubOpNames)) =
        [("addr".toList, ["b".toList, "o".toList]), ("x".toList, [[]])] ∧
      (builtList Example.variadicStore).ParseOperandName "$x".toList true = .ok (1, 0) ∧
      (builtList Example.variadicStore).ParseOperandName "$b".toList true = .ok (1, 0) ∧
      (builtList Example.variadicStore).ParseOperandName "$addr".toList true = .ok (0, 0) := by
  decide

/-- C6 (as stated, refuted): for `(outs variable_ops, variable_ops)`, `(ins GPR:$a)` the
only operand, at position 0, is the one declared by `ins` (the `outs` dag declares no
operand), yet `NumDefs` is 1, so position 0 lies below `NumDefs`. -/
theorem NumDefs_not_split_point_two_markers :
    CGIOperandList.construct Example.twoMarkers = .ok (builtList Example.twoMarkers) ∧
      operandArgNames Example.twoMarkers.OutOperandList.Args = [] ∧
      (builtList Example.twoMarkers).OperandList.map (fun Op => Op.Name) =
        operandArgNames Example.twoMarkers.InOperandList.Args ∧
      (builtList Example.twoMarkers).OperandList.length = 1 ∧
      (builtList Example.twoMarkers).NumDefs = 1 := by
  decide

/-- C6 (amended): when the `outs` dag holds at most one `variable_ops` marker, `NumDefs` is
the def/use split point of a successfully built operand list: the operands at positions
below `NumDefs` are exactly the operands declared by `outs`, in order, and the operands at
positions from `NumDefs` on are exactly those declared by `ins`, in order. -/
theorem NumDefs_is_split_point (R : InstrRecord) (L : CGIOperandList)
    (h : CGIOperandList.construct R = .ok L)
    (hm : R.OutOperandList.Args.countP (fun a => a.1.isVariableOps) ≤ 1) :
    L.NumDefs = (operandArgNames R.OutOperandList.Args).length ∧
    L.NumDefs ≤ L.OperandList.length ∧
    L.OperandList.length =
      (operandArgNames R.OutOperandList.Args).length +
        (operandArgNames R.InOperandList.Args).length ∧
    (∀ k, k < L.NumDefs →
      (L.OperandList[k]?).map (fun Op => Op.Name) =
        (operandArgNames R.OutOperandList.Args)[k]?) ∧
    (∀ k, L.NumDefs ≤ k →
      (L.OperandList[k]?).map (fun Op => Op.Name) =
        (operandArgNames R.InOperandList.Args)[k - L.NumDefs]?) := by
  obtain ⟨st, hst, hv, hN, hst2⟩ := construct_variadic h
  rw [hv] at hN
  have hnames := (argLoop_names _ _ _ _ _ hst).2.2.2
  simp only [BuildState.init, List.nil_append, List.map_nil] at hnames
  rw [← hst2, operandArgNames_append] at hnames
  have hlen := operandArgNames_length R.OutOperandList.Args
  have hany := any_isVariableOps_iff R.OutOperandList.Args
  have hD : L.NumDefs = (operandArgNames R.OutOperandList.Args).length := by
    rw [hN]
    split
    · rename_i hc
      have := hany.mp hc
      omega
    · rename_i hc
      have : ¬ 0 < R.OutOperandList.Args.countP (fun a => a.1.isVariableOps) :=
        fun hp => hc (hany.mpr hp)
      omega
  have hL : L.OperandList.length =
      (operandArgNames R.OutOperandList.Args).length +
        (operandArgNames R.InOperandList.Args).length := by
    have := congrArg List.length hnames
    simpa using this
  refine ⟨hD, by omega, hL, ?_, ?_⟩
  · intro k hk
    rw [← List.getElem?_map, hnames, List.getElem?_append_left (by omega)]
  · intro k hk
    rw [← List.getElem?_map, hnames, List.getElem?_append_right (by omega), hD]

theorem NumDefs_is_split_point_witness :
    CGIOperandList.construct Example.unmerge = .ok (builtList Example.unmerge) ∧
      Example.unmerge.OutOperandList.Args.countP (fun a => a.1.isVariableOps) ≤ 1 ∧
      (builtList Example.unmerge).NumDefs =
        (operandArgNames Example.unmerge.OutOperandList.Args).length :=
  ⟨by decide, by decide,
    (NumDefs_is_split_point Example.unmerge (builtList Example.unmerge) (by decide)
      (by decide)).1⟩

/-! ## Properties of the name resolver -/

/-- C7: for a reference `$name` with no dot, where `name` is not in the alias table and
names the operand at position `k`, `ParseOperandName` fails when that operand has more
than one slot and `AllowWholeOp` is false, and returns `(k, 0)` otherwise. -/
theorem whole_operand_reference (L : CGIOperandList) (name : StringRef) (k : Nat)
    (AllowWholeOp : Bool) (hlen : name.length + 1 < 2 ^ 64) (hdot : '.' ∉ name)
    (halias : L.findSubOperandAlias name = .ok none)
    (hk : L.findOperandNamed name = .ok (some k)) :
    ∃ Opnd, L.OperandList[k]? = some Opnd ∧
      L.ParseOperandName ('$' :: name) AllowWholeOp =
        if 1 < Opnd.MINumOperands ∧ AllowWholeOp = false then
          .error Error.wholeComplexOperand
        else .ok (k, 0) := by
  have hlt : k < L.OperandList.length := by
    unfold CGIOperandList.findOperandNamed at hk
    split at hk
    · cases hk
    simp only at hk
    split at hk
    · simp only [Except.ok.injEq, Option.some.injEq] at hk
      omega
    · cases hk
  refine ⟨L.OperandList[k], List.getElem?_eq_getElem hlt, ?_⟩
  rw [ParseOperandName_plain L name AllowWholeOp hlen hdot, halias]
  simp only [CGIOperandList.getOperandNamed, hk, List.get?_eq_getElem?,
    List.getElem?_eq_getElem hlt]
  cases AllowWholeOp <;> simp

theorem whole_operand_reference_witness :
    ∃ Opnd, (builtList Example.load).OperandList[2]? = some Opnd ∧
      (builtList Example.load).ParseOperandName ('$' :: "addr".toList) false =
        if 1 < Opnd.MINumOperands ∧ false = false then .error Error.wholeComplexOperand
        else .ok (2, 0) :=
  whole_operand_reference (builtList Example.load) "addr".toList 2 false (by decide)
    (by decide) (by decide) (by decide)

/-- C8: when the base name of a reference is a key of the alias table, `ParseOperandName`
returns the aliased pair for the undotted reference, whatever `AllowWholeOp`, and fails
for every dotted reference `$base.sub`. -/
theorem alias_reference (L : CGIOperandList) (base sub : StringRef) (p : Nat × Nat)
    (AllowWholeOp : Bool) (hlen : base.length + sub.length + 2 < 2 ^ 64)
    (hdot : '.' ∉ base) (halias : L.findSubOperandAlias base = .ok (some p)) :
    L.ParseOperandName ('$' :: base) AllowWholeOp = .ok p ∧
      L.ParseOperandName ('$' :: (base ++ '.' :: sub)) AllowWholeOp =
        .error (if sub.isEmpty then Error.emptySubOperandName
          else Error.dottedWithinSubOperand) := by
  constructor
  · rw [ParseOperandName_plain L base AllowWholeOp (by omega) hdot, halias]
  · exact ParseOperandName_dotted_alias L base sub AllowWholeOp p hlen hdot halias

theorem alias_reference_witness :
    (builtList Example.load).ParseOperandName ('$' :: "o".toList) true = .ok (2, 1) ∧
      (builtList Example.load).ParseOperandName ('$' :: ("o".toList ++ '.' :: "x".toList)) true =
        .error (if "x".toList.isEmpty then Error.emptySubOperandName
          else Error.dottedWithinSubOperand) :=
  alias_reference (builtList Example.load) "o".toList "x".toList (2, 1) true (by decide)
    (by decide) (by decide)

/-! ## Properties of the constraint parser -/

/-- C9: on `(outs variable_ops, (mem $lo, $hi):$d, GPR:$e)`, `(ins GPR:$a)` the operands
are `d` (flattened slots 0 and 1), `e` (slot 2) and `a` (slot 3), and `NumDefs` is 2. The
alias table gives `hi` the pair `(1, 1)`, which counts the marker, instead of `(0, 1)`. For
the clause `$hi = $a` the destination pair `(1, 1)` passes the test against `NumDefs`, the
clause is accepted, and `a` is tied to the flattened number 3: the slot of `a` itself, in
an operand whose index 2 is not below `NumDefs`. -/
theorem tie_accepted_with_use_target :
    CGIOperandList.construct Example.markerFirst = .ok (builtList Example.markerFirst) ∧
      (builtList Example.markerFirst).NumDefs = 2 ∧
      (builtList Example.markerFirst).OperandList.map
          (fun Op => (Op.Name, Op.MIOperandNo, Op.MINumOperands)) =
        [("d".toList, 0, 2), ("e".toList, 2, 1), ("a".toList, 3, 1)] ∧
      (builtList Example.markerFirst).ParseOperandName "$hi".toList false = .ok (1, 1) ∧
      (builtList Example.markerFirst).ParseOperandName "$a".toList false = .ok (2, 0) ∧
      ParseConstraint "$hi = $a".toList (builtList Example.markerFirst) =
        .ok (constrained "$hi = $a".toList (builtList Example.markerFirst)) ∧
      (constrained "$hi = $a".toList (builtList Example.markerFirst)).OperandList.map
          (fun Op => (Op.Name, Op.Constraints)) =
        [("d".toList, [ConstraintInfo.None, ConstraintInfo.None]),
          ("e".toList, [ConstraintInfo.None]),
          ("a".toList, [ConstraintInfo.Tied 3])] := by
  decide

/-- C10: on `(outs variable_ops, (mem $lo, $hi):$d, GPR:$e)`, `(ins GPR:$a)` the clause
`$hi = $a` succeeds with `Dest = (1, 1)` and `Src = (2, 0)`. The pair `(1, 1)` names no
slot (operand 1 is `e`, with one slot), and the flattened number computed for it,
`MIOperandNo` of `e` plus 1, is 3, which is the flattened number of the `Src` slot: the
slot that the tie points to is the slot that the clause changes, from `None` to
`Tied 3`. -/
theorem tie_destination_names_no_slot :
    ParseConstraint (tieClause "hi".toList "a".toList) (builtList Example.markerFirst) =
        .ok (constrained (tieClause "hi".toList "a".toList)
          (builtList Example.markerFirst)) ∧
      (builtList Example.markerFirst).ParseOperandName "$hi".toList false = .ok (1, 1) ∧
      (builtList Example.markerFirst).ParseOperandName "$a".toList false = .ok (2, 0) ∧
      tieDest (1, 1) (2, 0) = (1, 1) ∧ tieSrc (1, 1) (2, 0) = (2, 0) ∧
      namesSlot (builtList Example.markerFirst) (1, 1) = false ∧
      (builtList Example.markerFirst).getFlattenedOperandNumber (1, 1) = .ok 3 ∧
      (builtList Example.markerFirst).getFlattenedOperandNumber (2, 0) = .ok 3 ∧
      slotConstraint (builtList Example.markerFirst) 2 0 = some ConstraintInfo.None ∧
      slotConstraint
          (constrained (tieClause "hi".toList "a".toList) (builtList Example.markerFirst))
          2 0 = some (ConstraintInfo.Tied 3) := by
  decide

/-- C11: for all operand references `$l` and `$r`, the clauses `$l = $r` and `$r = $l` have
the same outcome on every operand list: both fail, or both succeed with the same
resulting operand list. -/
theorem tie_symmetric (Ops : CGIOperandList) (l r : StringRef)
    (hl : plainName l) (hr : plainName r) (hlen : l.length + r.length + 6 < 2 ^ 64) :
    ∀ Ops', ParseConstraint (tieClause l r) Ops = .ok Ops' ↔
      ParseConstraint (tieClause r l) Ops = .ok Ops' := by
  intro Ops'
  rw [ParseConstraint_tieClause Ops l r hl hlen,
    ParseConstraint_tieClause Ops r l hr (by omega)]
  cases hpl : Ops.ParseOperandName ('$' :: l) false with
  | error e =>
    cases hpr : Ops.ParseOperandName ('$' :: r) false with
    | error e2 => simp
    | ok pr => simp
  | ok pl =>
    cases hpr : Ops.ParseOperandName ('$' :: r) false with
    | error e2 => simp
    | ok pr =>
      simp only [tieOperands_eq, tieDest_comm pl pr, tieSrc_comm pl pr]

theorem tie_symmetric_witness :
    ParseConstraint (tieClause "a".toList "d".toList) (builtList Example.load) =
        .ok (constrained (tieClause "a".toList "d".toList) (builtList Example.load)) ∧
      (ParseConstraint (tieClause "d".toList "a".toList) (builtList Example.load) =
          .ok (constrained (tieClause "a".toList "d".toList) (builtList Example.load)) ↔
        ParseConstraint (tieClause "a".toList "d".toList) (builtList Example.load) =
          .ok (constrained (tieClause "a".toList "d".toList) (builtList Example.load))) :=
  ⟨by decide,
    tie_symmetric (builtList Example.load) "d".toList "a".toList
      (by unfold plainName; decide) (by unfold plainName; decide) (by decide)
      (constrained (tieClause "a".toList "d".toList) (builtList Example.load))⟩

/-- C13 (as stated, refuted): on `(outs GPR:$d)`, `(ins GPR:$a, (mem $b, $o):$addr)` the
clause `@earlyclobber $d` succeeds and puts `EarlyClobber` on the slot of `d`, and the
following clause `$d = $a` is accepted: the tie is stored on the slot of `a`. -/
theorem earlyclobber_def_then_tie_accepted :
    ParseConstraint (earlyClobberClause "d".toList) (builtList Example.load) =
        .ok (constrained (earlyClobberClause "d".toList) (builtList Example.load)) ∧
      (constrained (earlyClobberClause "d".toList) (builtList Example.load)).getConstraint
          (0, 0) = .ok ConstraintInfo.EarlyClobber ∧
      ParseConstraint (tieClause "d".toList "a".toList)
          (constrained (earlyClobberClause "d".toList) (builtList Example.load)) =
        .ok (constrained (tieClause "d".toList "a".toList)
          (constrained (earlyClobberClause "d".toList) (builtList Example.load))) ∧
      (constrained (tieClause "d".toList "a".toList)
          (constrained (earlyClobberClause "d".toList) (builtList Example.load))).getConstraint
          (1, 0) = .ok (ConstraintInfo.Tied 0) := by
  decide

/-- C13 (amended): for references `$x` and `$y` that resolve to slots of the list, after a
successful `@earlyclobber $x` the slot of `x`, which held `None`, carries `EarlyClobber`.
A following clause `$x = $y` in which the slot of `x` is the source of the tie (the larger
of the two resolved pairs) is rejected: with the multiple-constraints error once the
def/use checks of the tie have passed. When the slot of `x` is the destination, the
early-clobber does not bear on the tie: the clause is rejected after it exactly when it is
rejected without it, with the same error. -/
theorem earlyclobber_then_tie (Ops Ops1 : CGIOperandList) (x y : StringRef)
    (px py : Nat × Nat) (hW : WellSized Ops) (hx : plainName x)
    (hlen : x.length + y.length + 16 < 2 ^ 64)
    (hpx : Ops.ParseOperandName ('$' :: x) false = .ok px)
    (hpy : Ops.ParseOperandName ('$' :: y) false = .ok py)
    (hsx : namesSlot Ops px = true) (hsy : namesSlot Ops py = true)
    (he : ParseConstraint (earlyClobberClause x) Ops = .ok Ops1) :
    slotConstraint Ops px.1 px.2 = some ConstraintInfo.None ∧
      slotConstraint Ops1 px.1 px.2 = some ConstraintInfo.EarlyClobber ∧
      (tieSrc px py = px →
        ParseConstraint (tieClause x y) Ops1 =
          .error (if Ops1.NumDefs ≤ (tieDest px py).1 then Error.inputOperandsTied
            else if px.1 < Ops1.NumDefs then Error.outputOperandsTied
            else Error.multipleConstraints)) ∧
      (tieSrc px py ≠ px →
        ∀ e, ParseConstraint (tieClause x y) Ops1 = .error e ↔
          ParseConstraint (tieClause x y) Ops = .error e) := by
  rw [ParseConstraint_earlyClobberClause Ops x (by omega), hpx] at he
  simp only at he
  obtain ⟨Cx, hgx, hslotx⟩ := getConstraint_of_slot hW hsx
  rw [hgx] at he
  simp only at he
  split at he
  · cases he
  rename_i hnone
  have hCx : Cx = ConstraintInfo.None := by
    cases Cx <;> simp [ConstraintInfo.isNone] at hnone ⊢
  subst hCx
  have hself := getConstraint_set_self he
  have hsame := setConstraint_same he
  have hW1 := setConstraint_wellSized he hW
  refine ⟨hslotx, slotConstraint_set_self he hW, ?_, ?_⟩
  · intro hsrc
    rw [ParseConstraint_tieClause Ops1 x y hx (by omega), ParseOperandName_same hsame, hpx,
      ParseOperandName_same hsame, hpy]
    simp only
    rw [tieOperands_eq, hsrc]
    unfold tieOrdered
    by_cases h1 : Ops1.NumDefs ≤ (tieDest px py).1
    · rw [if_pos h1, if_pos h1]
    · rw [if_neg h1, if_neg h1]
      by_cases h2 : px.1 < Ops1.NumDefs
      · rw [if_pos h2, if_pos h2]
      · rw [if_neg h2, if_neg h2, hself]
        rfl
  · intro hdst e
    have hlt : pairLt px py = true := by
      by_cases hc : pairLt px py = true
      · exact hc
      · exfalso
        apply hdst
        unfold tieSrc
        rw [if_neg hc]
    have hS : tieSrc px py = py := by
      unfold tieSrc
      rw [if_pos hlt]
    have hD : tieDest px py = px := by
      unfold tieDest
      rw [if_pos hlt]
    have hne : py ≠ px := by
      intro hc
      apply hdst
      rw [hS, hc]
    rw [ParseConstraint_tieClause Ops1 x y hx (by omega), ParseOperandName_same hsame, hpx,
      ParseOperandName_same hsame, hpy, ParseConstraint_tieClause Ops x y hx (by omega), hpx,
      hpy]
    simp only
    rw [tieOperands_eq, tieOperands_eq, hS, hD]
    unfold tieOrdered
    rw [hsame.numDefs, getConstraint_set_other he hne,
      getFlattenedOperandNumber_same hsame]
    by_cases h1 : px.1 ≥ Ops.NumDefs
    · rw [if_pos h1, if_pos h1]
    rw [if_neg h1, if_neg h1]
    by_cases h2 : py.1 < Ops.NumDefs
    · rw [if_pos h2, if_pos h2]
    rw [if_neg h2, if_neg h2]
    cases hgy : Ops.getConstraint py with
    | error e2 => simp only
    | ok Cy =>
      simp only
      by_cases h3 : (!Cy.isNone) = true
      · rw [if_pos h3, if_pos h3]
      rw [if_neg h3, if_neg h3]
      cases hf : Ops.getFlattenedOperandNumber px with
      | error e2 => simp only
      | ok f =>
        simp only
        rw [checkOperands_after_write hW he hgx (by simp) (by simp)]
        cases hc : checkOperands (ConstraintInfo.Tied f) Ops.OperandList with
        | error e2 => simp only
        | ok u =>
          simp only
          obtain ⟨A, hA⟩ := setConstraint_of_slot (ConstraintInfo.Tied f) hW hsy
          obtain ⟨B, hB⟩ := setConstraint_of_slot (ConstraintInfo.Tied f) hW1
            (by rw [namesSlot_same hsame]; exact hsy)
          rw [hA, hB]
          simp

theorem earlyclobber_then_tie_witness :
    slotConstraint (constrained (earlyClobberClause "a".toList) (builtList Example.load)) 1 0 =
        some ConstraintInfo.EarlyClobber ∧
      ParseConstraint (tieClause "a".toList "d".toList)
          (constrained (earlyClobberClause "a".toList) (builtList Example.load)) =
        .error Error.multipleConstraints ∧
      ParseConstraint (tieClause "d".toList "a".toList)
          (constrained (earlyClobberClause "d".toList) (builtList Example.load)) =
        .ok (constrained (tieClause "d".toList "a".toList)
          (constrained (earlyClobberClause "d".toList) (builtList Example.load))) ∧
      ∀ e, ParseConstraint (tieClause "d".toList "a".toList)
          (constrained (earlyClobberClause "d".toList) (builtList Example.load)) = .error e ↔
        ParseConstraint (tieClause "d".toList "a".toList) (builtList Example.load) = .error e :=
  ⟨(earlyclobber_then_tie (builtList Example.load)
      (constrained (earlyClobberClause "a".toList) (builtList Example.load))
      "a".toList "d".toList (1, 0) (0, 0) (by unfold WellSized; decide)
      (by unfold plainName; decide) (by decide) (by decide) (by decide) (by decide)
      (by decide) (by decide)).2.1,
    (earlyclobber_then_tie (builtList Example.load)
      (constrained (earlyClobberClause "a".toList) (builtList Example.load))
      "a".toList "d".toList (1, 0) (0, 0) (by unfold WellSized; decide)
      (by unfold plainName; decide) (by decide) (by decide) (by decide) (by decide)
      (by decide) (by decide)).2.2.1 (by decide),
    by decide,
    (earlyclobber_then_tie (builtList Example.load)
      (constrained (earlyClobberClause "d".toList) (builtList Example.load))
      "d".toList "a".toList (0, 0) (1, 0) (by unfold WellSized; decide)
      (by unfold plainName; decide) (by decide) (by decide) (by decide) (by decide)
      (by decide) (by decide)).2.2.2 (by decide)⟩

/-- C14 (as stated, refuted): on `(outs GPR:$d)`, `(ins GPR:$a, (mem $b, $o):$addr)` the
clause with two spaces after the `=`, the clause with two spaces before it and the clause
with tabs around it are accepted, and tie `a` to `d` as `$d = $a` does. -/
theorem tie_accepts_other_spacing :
    ParseConstraint "$d =  $a".toList (builtList Example.load) =
        ParseConstraint "$d = $a".toList (builtList Example.load) ∧
      ParseConstraint "$d  = $a".toList (builtList Example.load) =
        ParseConstraint "$d = $a".toList (builtList Example.load) ∧
      ParseConstraint "$d\t=\t$a".toList (builtList Example.load) =
        ParseConstraint "$d = $a".toList (builtList Example.load) ∧
      ParseConstraint "$d = $a".toList (builtList Example.load) =
        .ok (constrained (tieClause "d".toList "a".toList) (builtList Example.load)) ∧
      (constrained (tieClause "d".toList "a".toList) (builtList Example.load)).getConstraint
          (1, 0) = .ok (ConstraintInfo.Tied 0) := by
  decide

/-- C14 (amended): a tie clause `$l`, blanks, `=`, blanks, `$r` is accepted only if at
least one space or tab stands immediately before the `=` and at least one immediately
after it: without a blank on either side it is rejected as a format error, and with any
non-empty runs of spaces and tabs on both sides it has the outcome of `$l = $r`. -/
theorem tie_needs_blank_around_eq (Ops : CGIOperandList) (l r wsA wsB : StringRef)
    (hl : plainName l) (hA : allBlank wsA) (hB : allBlank wsB)
    (hlen : l.length + wsA.length + wsB.length + r.length + 6 < 2 ^ 64) :
    ((wsA = [] ∨ wsB = []) →
      ParseConstraint (tieClauseWith [] l wsA wsB r) Ops =
        .error Error.unrecognizedConstraint) ∧
    (wsA ≠ [] → wsB ≠ [] →
      ParseConstraint (tieClauseWith [] l wsA wsB r) Ops =
        ParseConstraint (tieClause l r) Ops) := by
  constructor
  · intro h
    by_cases hA0 : wsA = []
    · subst hA0
      exact ParseConstraint_no_blank_before Ops l wsB r hl
        (by simp only [List.length_nil] at hlen; omega)
    · rcases h with h | h
      · exact absurd h hA0
      · subst h
        exact ParseConstraint_no_blank_after Ops l wsA r hl hA
          (by simp only [List.length_nil] at hlen; omega)
  · intro hA0 hB0
    rw [ParseConstraint_tieClause Ops l r hl (by omega)]
    apply ParseConstraint_tieClauseWith Ops [] l wsA wsB r _ hl hA hA0 hB hB0
    · simp only [tieClauseWith, List.length_append, List.length_cons, List.length_nil]
      omega
    · intro c hc
      simp at hc

theorem tie_needs_blank_around_eq_witness :
    ParseConstraint (tieClauseWith [] "d".toList [] [' '] "a".toList) (builtList Example.load) =
        .error Error.unrecognizedConstraint ∧
      ParseConstraint (tieClauseWith [] "d".toList [' ', '\t'] ['\t'] "a".toList)
          (builtList Example.load) =
        ParseConstraint (tieClause "d".toList "a".toList) (builtList Example.load) :=
  ⟨(tie_needs_blank_around_eq (builtList Example.load) "d".toList "a".toList [] [' ']
      (by unfold plainName; decide) (by unfold allBlank; decide) (by unfold allBlank; decide)
      (by decide)).1 (Or.inl rfl),
    (tie_needs_blank_around_eq (builtList Example.load) "d".toList "a".toList [' ', '\t']
      ['\t'] (by unfold plainName; decide) (by unfold allBlank; decide)
      (by unfold allBlank; decide) (by decide)).2 (by decide) (by decide)⟩

/-- C15 (as stated, refuted): on `(outs GPR:$d)`, `(ins GPR:$a, (mem $b, $o):$addr)` the
clauses `$d = $a` and `@earlyclobber $d` succeed, but `$d = $a` followed by a space is
rejected (the space is taken into the operand name) and `@earlyclobber $d` preceded by a
space is rejected as an unrecognized constraint. -/
theorem clause_not_trimmed :
    ParseConstraint "$d = $a".toList (builtList Example.load) =
        .ok (constrained "$d = $a".toList (builtList Example.load)) ∧
      ParseConstraint "$d = $a ".toList (builtList Example.load) =
        .error Error.noOperandNamed ∧
      ParseConstraint "@earlyclobber $d".toList (builtList Example.load) =
        .ok (constrained "@earlyclobber $d".toList (builtList Example.load)) ∧
      ParseConstraint " @earlyclobber $d".toList (builtList Example.load) =
        .error Error.unrecognizedConstraint ∧
      ParseConstraint "@earlyclobber $d ".toList (builtList Example.load) =
        .error Error.noOperandNamed := by
  decide

/-- C15 (amended): leading whitespace of a tie clause is skipped: for every tie clause
`$l = $r` and every string `w1` of spaces and tabs, `ParseConstraint` on `w1` followed by
the clause has the same outcome as on the clause. -/
theorem tie_leading_blanks_skipped (Ops : CGIOperandList) (w1 l r : StringRef)
    (hw1 : allBlank w1) (hl : plainName l)
    (hlen : w1.length + l.length + r.length + 6 < 2 ^ 64) :
    ParseConstraint (w1 ++ tieClause l r) Ops = ParseConstraint (tieClause l r) Ops := by
  have e : w1 ++ tieClause l r = tieClauseWith w1 l [' '] [' '] r := rfl
  rw [e, ParseConstraint_tieClause Ops l r hl (by omega)]
  apply ParseConstraint_tieClauseWith Ops w1 l [' '] [' '] r hw1 hl
  · intro c hc; simp at hc; exact Or.inl hc
  · simp
  · intro c hc; simp at hc; exact Or.inl hc
  · simp
  · simp only [tieClauseWith, List.length_append, List.length_cons, List.length_nil]
    omega

theorem tie_leading_blanks_skipped_witness :
    ParseConstraint ([' ', '\t'] ++ tieClause "d".toList "a".toList) (builtList Example.load) =
      ParseConstraint (tieClause "d".toList "a".toList) (builtList Example.load) :=
  tie_leading_blanks_skipped (builtList Example.load) [' ', '\t'] "d".toList "a".toList
    (by unfold allBlank; decide) (by unfold plainName; decide) (by decide)

/-! ## Properties of the encoding exclusion list -/

/-- C16 (as stated, refuted): on `(outs GPR:$d)`, `(ins GPR:$a, (mem $b, $o):$addr)` the
operand `addr` occupies two slots and the list `$addr` is rejected: the token is resolved
with `AllowWholeOp = false`. -/
theorem disable_encoding_rejects_whole_operand :
    (builtList Example.load).OperandList.map (fun Op => (Op.Name, Op.MINumOperands)) =
        [("d".toList, 1), ("a".toList, 1), ("addr".toList, 2)] ∧
      (builtList Example.load).ProcessDisableEncoding "$addr".toList =
        .error Error.wholeComplexOperand ∧
      (builtList Example.load).ParseOperandName "$addr".toList true = .ok (2, 0) := by
  decide

/-- C16 (amended): `ProcessDisableEncoding` resolves each token through the name resolver
with whole-operand references not allowed. It processes the tokens of the list (the
maximal runs without space, comma and tab) from left to right: each is resolved by
`ParseOperandName(token, false)` and the bit of the resolved slot is set, up to the first
token that is not resolved. When every token resolves to a slot of the list, the
processing succeeds, the `DoNotEncode` bit of the slot of every token is set afterwards
and the bit of every slot that no token resolves to is what it was. A token that is not
resolved makes the processing fail, and a token `$name` that names an operand with more
than one sub-operand slot is not resolved. -/
theorem disable_encoding_token :
    (∀ (L : CGIOperandList) (s : StringRef), s.length < 2 ^ 64 →
      L.ProcessDisableEncoding s = disableAll (encodingTokens s) L) ∧
    (∀ (L : CGIOperandList) (s : StringRef), s.length < 2 ^ 64 → EncodeSized L →
      (∀ tok ∈ encodingTokens s,
        ∃ Op, L.ParseOperandName tok false = .ok Op ∧ namesSlot L Op = true) →
      ∃ L', L.ProcessDisableEncoding s = .ok L' ∧
        (∀ tok ∈ encodingTokens s, ∀ Op, L.ParseOperandName tok false = .ok Op →
          doNotEncodeBit L' Op.1 Op.2 = some true) ∧
        (∀ k i, (∀ tok ∈ encodingTokens s, L.ParseOperandName tok false ≠ .ok (k, i)) →
          doNotEncodeBit L' k i = doNotEncodeBit L k i)) ∧
    (∀ (L : CGIOperandList) (s tok : StringRef), s.length < 2 ^ 64 →
      tok ∈ encodingTokens s → (∃ e, L.ParseOperandName tok false = .error e) →
      ∃ e, L.ProcessDisableEncoding s = .error e) ∧
    (∀ (L : CGIOperandList) (name : StringRef) (k : Nat) (Opnd : OperandInfo),
      name.length + 1 < 2 ^ 64 → '.' ∉ name →
      L.findSubOperandAlias name = .ok none → L.findOperandNamed name = .ok (some k) →
      L.OperandList[k]? = some Opnd → 1 < Opnd.MINumOperands →
      L.ParseOperandName ('$' :: name) false = .error Error.wholeComplexOperand) := by
  refine ⟨?_, ?_, ?_, ?_⟩
  · intro L s hlen
    exact ProcessDisableEncoding_eq_disableAll s.length s L (le_refl _) hlen
  · intro L s hlen hE hall
    obtain ⟨L', hL', _, _, hset, hkeep⟩ := disableAll_slots (encodingTokens s) L hE hall
    refine ⟨L', ?_, hset, hkeep⟩
    rw [ProcessDisableEncoding_eq_disableAll s.length s L (le_refl _) hlen]
    exact hL'
  · intro L s tok hlen htok hbad
    rw [ProcessDisableEncoding_eq_disableAll s.length s L (le_refl _) hlen]
    exact disableAll_fails (encodingTokens s) L tok htok hbad
  · intro L name k Opnd hlen hdot halias hk hO hmulti
    exact ParseOperandName_whole_rejected L name k Opnd hlen hdot halias hk hO hmulti

/-- C16 at the list `$o, $d` on the operand list of `load`: both tokens resolve to slots,
the processing succeeds and sets the bits of `(2, 1)` and `(0, 0)`. -/
theorem disable_encoding_token_witness :
    encodingTokens "$o, $d".toList = ["$o".toList, "$d".toList] ∧
      (builtList Example.load).ParseOperandName "$o".toList false = .ok (2, 1) ∧
      (builtList Example.load).ParseOperandName "$d".toList false = .ok (0, 0) ∧
      ∃ L', (builtList Example.load).ProcessDisableEncoding "$o, $d".toList = .ok L' ∧
        (∀ tok ∈ encodingTokens "$o, $d".toList, ∀ Op,
          (builtList Example.load).ParseOperandName tok false = .ok Op →
          doNotEncodeBit L' Op.1 Op.2 = some true) ∧
        (∀ k i, (∀ tok ∈ encodingTokens "$o, $d".toList,
            (builtList Example.load).ParseOperandName tok false ≠ .ok (k, i)) →
          doNotEncodeBit L' k i = doNotEncodeBit (builtList Example.load) k i) :=
  ⟨by decide, by decide, by decide,
    disable_encoding_token.2.1 (builtList Example.load) "$o, $d".toList (by decide)
      (by unfold EncodeSized; decide)
      (by
        intro tok htok
        have ht : encodingTokens "$o, $d".toList = ["$o".toList, "$d".toList] := by decide
        rw [ht] at htok
        simp only [List.mem_cons, List.mem_singleton, List.not_mem_nil, or_false] at htok
        rcases htok with htok | htok
        · subst htok
          exact ⟨(2, 1), by decide, by decide⟩
        · subst htok
          exact ⟨(0, 0), by decide, by decide⟩)⟩

/-! ## Properties of the encoder method override -/

/-- C17 (as stated, refuted): for `(outs)`, `(ins memEnc:$addr, GPR:$v)`, where `memEnc`
declares the encoder method `encodeMem` and two sub-operands, the operand `addr` gets the
override at sub-slot 0, but the `DoNotEncode` bit of sub-slot 0 is clear and the bit of
sub-slot 1 is set. -/
theorem encoder_override_clears_slot_zero :
    CGIOperandList.construct Example.store = .ok (builtList Example.store) ∧
      (builtList Example.store).OperandList.map
          (fun Op => (Op.Name, Op.EncoderMethodNames, Op.DoNotEncode)) =
        [("addr".toList, [(0, "encodeMem".toList)], [false, true]),
         ("v".toList, [], [false])] := by
  decide

/-- C17 (amended): for every operand built from an argument with no sub-arg dag whose
class (a register operand or an operand) declares a non-empty top-level `EncoderMethod`,
the built operand has that method as the override of sub-slot 0, the `DoNotEncode` bit of
sub-slot 0 is clear and the `DoNotEncode` bit of every other sub-slot is set. -/
theorem encoder_override_marks_other_slots (R : InstrRecord) (L : CGIOperandList)
    (h : CGIOperandList.construct R = .ok L) :
    List.Forall₂ EncoderOverride
      (operandArgs (R.OutOperandList.Args ++ R.InOperandList.Args)) L.OperandList := by
  obtain ⟨st, hst, _, hL, _⟩ := construct_ok h
  obtain ⟨ops, ho, hf⟩ := argLoop_forall2 EncoderOverride processArg_encoder _ _ _ _ _ hst
  simp only [BuildState.init, List.nil_append] at ho
  rw [hL, ho]
  exact hf

theorem encoder_override_marks_other_slots_witness :
    List.Forall₂ EncoderOverride
      (operandArgs (Example.store.OutOperandList.Args ++ Example.store.InOperandList.Args))
      (builtList Example.store).OperandList :=
  encoder_override_marks_other_slots Example.store (builtList Example.store) (by decide)

/-! ## Properties of the implicit defs query -/

/-- C20 (as stated, refuted): an instruction with the two implicit defs `EFLAGS` and
`FPSW`, on a target that gives every register one simple value type, gets that value
type, not `MVT::Other`. -/
theorem two_implicit_defs_known_VT :
    HasOneImplicitDefWithKnownVT [Example.EFLAGS, Example.FPSW] Example.oneVT =
      .ok (MVT.SimpleValueType.VT 7) := by
  decide

/-- C20 (amended): `HasOneImplicitDefWithKnownVT` returns the simple value type of the
first implicit def when the instruction has at least one implicit def, the target reports
exactly one value type for the register of the first one and that value type is simple;
in every other case (no implicit def, several or non-simple value types for the first
one) it returns `MVT::Other`.  Further implicit defs are not looked at. -/
theorem first_implicit_def_known_VT (ImplicitDefs : List Record)
    (getRegisterVTs : Record → List ValueTypeByHwMode)
    (hreg : ∀ r ∈ ImplicitDefs, r.isSubClassOf "Register".toList = true) :
    (∀ First rest VT, ImplicitDefs = First :: rest → getRegisterVTs First = [VT] →
      VT.isSimple = true →
      HasOneImplicitDefWithKnownVT ImplicitDefs getRegisterVTs = .ok VT.SimpleTy) ∧
    ((¬ ∃ First rest VT, ImplicitDefs = First :: rest ∧ getRegisterVTs First = [VT] ∧
        VT.isSimple = true) →
      HasOneImplicitDefWithKnownVT ImplicitDefs getRegisterVTs =
        .ok MVT.SimpleValueType.Other) := by
  constructor
  · intro First rest VT hI hV hS
    subst hI
    have hr := hreg First (List.mem_cons_self _ _)
    unfold HasOneImplicitDefWithKnownVT
    simp only [hr, Bool.not_true, Bool.false_eq_true, if_false, hV, hS, if_true]
  · intro hno
    unfold HasOneImplicitDefWithKnownVT
    cases ImplicitDefs with
    | nil => rfl
    | cons First rest =>
      have hr := hreg First (List.mem_cons_self _ _)
      simp only [hr, Bool.not_true, Bool.false_eq_true, if_false]
      split
      · rename_i VT hV
        split
        · rename_i hS
          exact absurd ⟨First, rest, VT, rfl, hV, hS⟩ hno
        · rfl
      · rfl

theorem first_implicit_def_known_VT_witness :
    HasOneImplicitDefWithKnownVT [Example.EFLAGS] Example.oneVT =
      .ok (MVT.SimpleValueType.VT 7) :=
  (first_implicit_def_known_VT [Example.EFLAGS] Example.oneVT (by decide)).1
    Example.EFLAGS [] { isSimple := true, SimpleTy := MVT.SimpleValueType.VT 7 } rfl rfl rfl

/-! ## Properties of the variant flattener -/

/-- C19: a string in which every `{` is immediately preceded by `$` or by a backslash (in
particular a string without `{`) is returned unchanged, for every variant index. -/
theorem flatten_without_group (s : StringRef) (n : Nat) (h : bracesEscaped s) :
    FlattenAsmStringVariants s n = .ok s := by
  unfold FlattenAsmStringVariants
  simp only [flattenLoop]
  rw [variantsStartLoop_end s s.length 0 (by omega) (fun i _ hi => h i hi)]
  simp only [if_true, List.nil_append]
  rw [slice_zero_length]

theorem flatten_without_group_witness :
    FlattenAsmStringVariants "mov $\x7bdst\x7d, \\\x7bx".toList 1 = .ok "mov $\x7bdst\x7d, \\\x7bx".toList :=
  flatten_without_group "mov $\x7bdst\x7d, \\\x7bx".toList 1 (by
    intro i hi
    have hlt : i < 15 := by
      rcases Nat.lt_or_ge i 15 with h | h
      · exact h
      · rw [List.getElem?_eq_none (by simpa using h)] at hi
        cases hi
    unfold escapedAt
    revert hi
    interval_cases i <;> decide)

/-- C18 (as stated, refuted): with `P = "$"`, which contains no `{`, the brace is escaped
and no variant is selected: `${a|b}` is returned unchanged for variant 0, not `$a`; the
four examples of the claim hold. -/
theorem flatten_escaped_group :
    FlattenAsmStringVariants "$\x7ba|b\x7d".toList 0 = .ok "$\x7ba|b\x7d".toList ∧
      FlattenAsmStringVariants [] 0 = .ok [] ∧
      FlattenAsmStringVariants "\x7ba|b|c\x7d".toList 0 = .ok "a".toList ∧
      FlattenAsmStringVariants "\x7ba|b|c\x7d".toList 1 = .ok "b".toList ∧
      FlattenAsmStringVariants "\x7ba|b|c\x7d".toList 5 = .ok [] ∧
      FlattenAsmStringVariants "mov \x7ba|b\x7d, x".toList 1 = .ok "mov b, x".toList := by
  decide

/-- C18 (amended): for all strings `P` and `S`, every list of alternatives `A` and every
variant index `n`, where `P` contains no `{` and does not end in `$` or a backslash and no
alternative contains `{`, `}`, `|` or a backslash, flattening `P{A joined by |}S` gives
`P`, then `A[n]` (the empty string when `n` is not below the length of `A`), then the
flattening of `S`; it fails exactly when the flattening of `S` fails. -/
theorem flatten_group (P S : StringRef) (A : List StringRef) (n : Nat)
    (hP : ∀ c ∈ P, c ≠ '{') (hPend : ∀ P1 p, P = P1 ++ [p] → p ≠ '$' ∧ p ≠ '\\')
    (hA : ∀ a ∈ A, plainAlt a)
    (hlen : P.length + (joinAlts A).length + S.length + 3 < 2 ^ 64) :
    FlattenAsmStringVariants (P ++ '{' :: (joinAlts A ++ '}' :: S)) n =
      match FlattenAsmStringVariants S n with
      | .ok r => .ok (P ++ A.getD n [] ++ r)
      | .error e => .error e := by
  rw [flatten_one_group P (joinAlts A) S n hP hPend (joinAlts_plain A hA) hlen,
    select_joinAlts A n hA (by omega)]
  cases FlattenAsmStringVariants S n with
  | error e => rfl
  | ok r => rfl

theorem flatten_group_witness :
    FlattenAsmStringVariants
        ("mov ".toList ++ '{' :: (joinAlts ["a".toList, "b".toList] ++ '}' :: ", x".toList)) 1 =
      match FlattenAsmStringVariants ", x".toList 1 with
      | .ok r => .ok ("mov ".toList ++ ["a".toList, "b".toList].getD 1 [] ++ r)
      | .error e => .error e :=
  flatten_group "mov ".toList ", x".toList ["a".toList, "b".toList] 1 (by decide)
    (by
      intro P1 p h
      have h2 : "mov ".toList = ['m', 'o', 'v'] ++ [' '] := rfl
      rw [h2] at h
      have := (List.append_inj' h rfl).2
      simp only [List.cons.injEq, and_true] at this
      rw [← this]
      decide)
    (by unfold plainAlt; decide) (by decide)

/-! ## C21 -/

/-- C21: on a successfully built operand list the lexicographic order of
(operand index, sub-operand index) pairs is the order of flattened numbers: for two pairs
that name slots of the list, `p < q` exactly when
`MIOperandNo(p.1) + p.2 < MIOperandNo(q.1) + q.2`, and distinct pairs have distinct
flattened numbers. -/
theorem pair_order_is_flattened_order (R : InstrRecord) (L : CGIOperandList)
    (h : CGIOperandList.construct R = .ok L) (p q : Nat × Nat) (P Q : OperandInfo)
    (hP : L.OperandList[p.1]? = some P) (hp : p.2 < P.MINumOperands)
    (hQ : L.OperandList[q.1]? = some Q) (hq : q.2 < Q.MINumOperands) :
    (pairLt p q = true ↔ P.MIOperandNo + p.2 < Q.MIOperandNo + q.2) ∧
      (p ≠ q → P.MIOperandNo + p.2 ≠ Q.MIOperandNo + q.2) := by
  have ht := construct_tiled h
  obtain ⟨p1, p2⟩ := p
  obtain ⟨q1, q2⟩ := q
  simp only at hP hp hQ hq
  simp only [pairLt, Bool.or_eq_true, Bool.and_eq_true, decide_eq_true_eq, ne_eq,
    Prod.mk.injEq, not_and]
  rcases Nat.lt_trichotomy p1 q1 with hlt | heq | hgt
  · have := Tiled_lt _ _ _ _ _ _ ht hP hQ hlt
    constructor
    · constructor
      · intro _; omega
      · intro _; left; exact hlt
    · intro _; omega
  · subst heq
    rw [hP] at hQ
    simp only [Option.some.injEq] at hQ
    subst hQ
    constructor
    · constructor
      · rintro (h1 | ⟨_, h2⟩)
        · omega
        · omega
      · intro h1; right; exact ⟨rfl, by omega⟩
    · intro hne
      have := hne rfl
      omega
  · have := Tiled_lt _ _ _ _ _ _ ht hQ hP hgt
    constructor
    · constructor
      · rintro (h1 | ⟨h1, _⟩) <;> omega
      · intro _; omega
    · intro _; omega

/-- C21 at the operand list of `load`: the pairs `(1, 0)` (operand `a`) and `(2, 1)`
(sub-operand `o` of `addr`) have the flattened numbers 1 and 3. -/
theorem pair_order_is_flattened_order_witness :
    CGIOperandList.construct Example.load = .ok (builtList Example.load) ∧
      (pairLt (1, 0) (2, 1) = true ↔ 1 + 0 < 2 + 1) ∧ ((1, 0) ≠ (2, 1) → 1 + 0 ≠ 2 + 1) :=
  ⟨by decide,
    pair_order_is_flattened_order Example.load (builtList Example.load) (by decide) (1, 0) (2, 1)
      ((builtList Example.load).OperandList.getD 1 (OperandInfo.create Example.GPR [] [] [] 0 0 none))
      ((builtList Example.load).OperandList.getD 2 (OperandInfo.create Example.GPR [] [] [] 0 0 none))
      (by decide) (by decide) (by decide) (by decide)⟩

/-! ## C22 -/

/-- C22: `ParseConstraints` applies `ParseConstraint` to the maximal comma-free non-empty
pieces of its input, left to right, and stops at the first failure. On the empty string
and on a string of commas it succeeds and changes nothing, and on `s1 ++ "," ++ s2` it
does what `ParseConstraints s1` followed, if that succeeds, by `ParseConstraints s2` does.
Strings are shorter than `2^64`, as a `size_t` length is. -/
theorem ParseConstraints_comma_pieces (s s1 s2 : StringRef) (n : Nat) (Ops : CGIOperandList)
    (hs : s.length < 2 ^ 64) (hn : n < 2 ^ 64) (h12 : (s1 ++ ',' :: s2).length < 2 ^ 64) :
    ParseConstraints s Ops = parseAll (commaPieces s) Ops ∧
      ParseConstraints [] Ops = .ok Ops ∧
      ParseConstraints (List.replicate n ',') Ops = .ok Ops ∧
      ParseConstraints (s1 ++ ',' :: s2) Ops =
        (ParseConstraints s1 Ops >>= ParseConstraints s2) := by
  refine ⟨ParseConstraints_eq_parseAll s Ops hs, rfl, ?_, ?_⟩
  · rw [ParseConstraints_eq_parseAll _ Ops (by rw [List.length_replicate]; exact hn),
      commaPieces_replicate]
    rfl
  · simp only [List.length_append, List.length_cons] at h12
    rw [ParseConstraints_eq_parseAll _ Ops
        (by simp only [List.length_append, List.length_cons]; omega),
      ParseConstraints_eq_parseAll s1 Ops (by omega), commaPieces_append, parseAll_append]
    cases parseAll (commaPieces s1) Ops with
    | error e => rfl
    | ok Ops1 =>
      show parseAll (commaPieces s2) Ops1 = ParseConstraints s2 Ops1
      rw [ParseConstraints_eq_parseAll s2 Ops1 (by omega)]

/-- C22 at the list `$d = $a,,@earlyclobber $d` on the operand list of `load`: the two
clauses are parsed in order, `a` is tied to `d` and `d` is marked early-clobber. -/
theorem ParseConstraints_comma_pieces_witness :
    commaPieces "$d = $a,,@earlyclobber $d".toList =
        ["$d = $a".toList, "@earlyclobber $d".toList] ∧
      ((builtList Example.load).getConstraint (0, 0) >>= fun _ =>
        ParseConstraints "$d = $a,,@earlyclobber $d".toList (builtList Example.load) >>=
          fun L => L.getConstraint (0, 0) >>= fun C0 => L.getConstraint (1, 0) >>=
            fun C1 => pure (C0, C1)) =
        .ok (ConstraintInfo.EarlyClobber, ConstraintInfo.Tied 0) ∧
      ParseConstraints "$d = $a,,@earlyclobber $d".toList (builtList Example.load) =
        parseAll (commaPieces "$d = $a,,@earlyclobber $d".toList) (builtList Example.load) ∧
      ParseConstraints [] (builtList Example.load) = .ok (builtList Example.load) ∧
      ParseConstraints (List.replicate 3 ',') (builtList Example.load) =
        .ok (builtList Example.load) ∧
      ParseConstraints ("$d = $a".toList ++ ',' :: ",@earlyclobber $d".toList)
          (builtList Example.load) =
        (ParseConstraints "$d = $a".toList (builtList Example.load) >>=
          ParseConstraints ",@earlyclobber $d".toList) :=
  ⟨by decide, by decide,
    ParseConstraints_comma_pieces "$d = $a,,@earlyclobber $d".toList "$d = $a".toList
      ",@earlyclobber $d".toList 3 (builtList Example.load) (by decide) (by decide)
      (by decide)⟩

/-! ## C23 -/

/-- C23: on `(outs variable_ops)`, `(ins (mem $b, $o):$addr, GPR:$x)` the operands are
`addr`, with two slots, and `x`, with one slot and one constraint. The alias table gives
`o` the pair `(1, 1)`, which counts the marker, instead of `(0, 1)`. For the clause
`@earlyclobber $o` the read and the write of `Ops[Op.first].Constraints[Op.second]`
(lines 313 and 317) are at the pair `(1, 1)`: index 1 of the one-element vector of `x`,
which is no slot of the list. -/
theorem earlyclobber_outside_vector :
    CGIOperandList.construct Example.variadicStore = .ok (builtList Example.variadicStore) ∧
      (builtList Example.variadicStore).OperandList.map
          (fun Op => (Op.Name, Op.MINumOperands, Op.Constraints.length)) =
        [("addr".toList, 2, 2), ("x".toList, 1, 1)] ∧
      (builtList Example.variadicStore).ParseOperandName "$o".toList false = .ok (1, 1) ∧
      namesSlot (builtList Example.variadicStore) (1, 1) = false ∧
      ParseConstraint "@earlyclobber $o".toList (builtList Example.variadicStore) =
        (match (builtList Example.variadicStore).getConstraint (1, 1) with
          | .error e => .error e
          | .ok C =>
            if !C.isNone then .error Error.multipleConstraints
            else (builtList Example.variadicStore).setConstraint (1, 1)
              ConstraintInfo.EarlyClobber) := by
  decide

/-! ## C24 -/

/-- C24: the lookup `MIOpInfo->getArg(j)` of the sub-arg loop is not always defined. For
`(ins (GPR $x):$r)`, a register class with a sub-arg dag of one name, the arity check
passes (`NumOps` is 1) and `MIOpInfo` is null; for `(ins (imm $x):$v)`, an operand class
whose `MIOperandInfo` is `(ops)`, the arity check passes (`NumOps` is 1) and the dag has
no argument number 0. A class with as many `MIOperandInfo` entries as sub-arg names, as in
`load`, is built. -/
theorem subarg_lookup_undefined :
    CGIOperandList.construct Example.regSubArg = .error Error.nullDereference ∧
      CGIOperandList.construct Example.immSubArg = .error Error.outOfBounds ∧
      CGIOperandList.construct Example.load = .ok (builtList Example.load) := by
  refine ⟨by decide, by decide, by decide⟩

/-! ## C25 -/

/-- C25 (as stated, refuted): in `{a${b}` the only `{` that follows neither `$` nor a
backslash is the first character, and the `}` at the end matches it; yet the scan for the
end of the group counts the `{` of `${` too, reaches the end of the string at depth 1, and
the assertion fails. -/
theorem flatten_unescaped_matched_asserts :
    unescapedMatched "\x7ba$\x7bb\x7d".toList ∧
      FlattenAsmStringVariants "\x7ba$\x7bb\x7d".toList 0 = .error Error.assertion := by
  constructor
  · unfold unescapedMatched
    decide
  · decide

/-- C25 (amended): for every string and variant index the flattener ends, with a string or
at its assertion, and never reads outside the current string: both scans return an index,
the scan for the end starts after the `{` (so its look-behind is at an index `≥ 0`), and
an iteration that does not leave the loop continues with a strictly shorter suffix. On a
string whose groups are closed the way the scan counts braces (inside a group every `{`
opens a level, also after `$` or a backslash, and every `}` not after a backslash closes
one) the assertion holds and a string is returned. -/
theorem flatten_terminates_in_bounds (Cur : StringRef) (Variant : Nat) :
    ((∃ r, FlattenAsmStringVariants Cur Variant = .ok r) ∨
        FlattenAsmStringVariants Cur Variant = .error Error.assertion) ∧
      (∃ vs, variantsStartLoop Cur Cur.length 0 = .ok vs) ∧
      (∀ vs, variantsStartLoop Cur Cur.length 0 = .ok vs → vs ≠ Cur.length →
        ∃ ve, variantsEndLoop Cur (Cur.length - (vs + 1)) (vs + 1) 1 = .ok ve) ∧
      (∀ vs ve, variantsStartLoop Cur Cur.length 0 = .ok vs → vs ≠ Cur.length →
        variantsEndLoop Cur (Cur.length - (vs + 1)) (vs + 1) 1 = .ok ve → ve ≠ Cur.length →
        vs + 1 ≤ ve ∧ ve < Cur.length ∧
          (Cur.substr (ve + 1) npos).length < Cur.length ∧
          (Cur.length < 2 ^ 64 → Cur.substr (ve + 1) npos = Cur.drop (ve + 1))) ∧
      (Cur.length < 2 ^ 64 → Flattenable Cur →
        ∃ r, FlattenAsmStringVariants Cur Variant = .ok r) := by
  refine ⟨flattenLoop_total _ Cur Variant [] (by omega),
    variantsStartLoop_ok Cur Cur.length 0 (by omega), ?_, ?_, ?_⟩
  · intro vs hs hne
    have hsl := variantsStartLoop_le Cur _ _ _ hs
    exact variantsEndLoop_ok Cur _ _ 1 (by omega) (by omega)
  · intro vs ve hs hne he hne2
    have hsl := variantsStartLoop_le Cur _ _ _ hs
    have hle := variantsEndLoop_le Cur _ _ _ _ he
    have hge := variantsEndLoop_ge Cur _ _ _ _ he
    refine ⟨hge, by omega, ?_, fun hlen => substr_npos Cur _ hlen⟩
    rw [substr_eq, List.length_take, List.length_drop]
    omega
  · intro hlen hF
    exact flatten_flattenable Cur hF Variant hlen

/-- C25 at `mov {a|${m}}, x` and variant 1: the group holds the nested braces of `${m}`, it
is closed, and a string is returned. -/
theorem flatten_terminates_in_bounds_witness :
    ∃ r, FlattenAsmStringVariants "mov \x7ba|$\x7bm\x7d\x7d, x".toList 1 = .ok r :=
  (flatten_terminates_in_bounds "mov \x7ba|$\x7bm\x7d\x7d, x".toList 1).2.2.2.2 (by decide)
    (Flattenable.group "mov ".toList "a|$\x7bm\x7d".toList ", x".toList
      (bracesEscaped_of_no_brace _ (by decide)) (by decide) (by decide)
      (Balanced.plain '{' 'a' _ (by decide) (by decide)
        (Balanced.plain 'a' '|' _ (by decide) (by decide)
          (Balanced.plain '|' '$' _ (by decide) (by decide)
            (Balanced.nested '$' "m".toList []
              (Balanced.plain '{' 'm' [] (by decide) (by decide) (Balanced.done 'm'))
              (by decide) (Balanced.done '}')))))
      (by decide) (Flattenable.text _ (bracesEscaped_of_no_brace _ (by decide))))

end llvm
